import Mathlib

/-!
# iresearch: table matcher and text token stream

A shallow embedding of `core/utils/fst_table_matcher.hpp` (the dense
transition table built over a finite state acceptor) and of the stop-word
loading and term processing of `core/analysis/text_token_stream.cpp`,
followed by theorems about them. The n-gram similarity filter and the
pipeline token stream, whose implementation is not among the sources, are
modelled from their description.

Conventions of the embedding:

* `Label` and `StateId` are the 32-bit signed `int` of OpenFst arcs and are
  modelled by `Int`; `size_t` is 64 bits wide and modelled by `Nat`, the
  conversion of an `int` to `size_t` being `toSizeT`;
* an iterator over a vector is the list of the elements it has not passed
  yet, so `std::distance(v.begin(), it)` is `v.length - it.length`;
* a pointer into `transitions_` is its offset from `transitions_.data()`,
  `none` standing for the null pointer;
* a function whose C++ behaviour is undefined on some input (a failed
  `assert`, `back()` of an empty vector, a read outside a vector) returns
  `none` there.
-/

namespace fst

/-! ## Finite state transducers -/

/-- The constant `kNoLabel` of OpenFst. -/
def kNoLabel : Int := -1

/-- The constant `kNoStateId` of OpenFst. -/
def kNoStateId : Int := -1

/-- The match types a `TableMatcher` may be instantiated with. -/
inductive MatchType where
  | MATCH_INPUT
  | MATCH_OUTPUT
  deriving DecidableEq, Repr

/-- An arc of a transducer; the weight plays no role in the matcher and is
kept as an uninterpreted number. -/
structure Arc where
  ilabel : Int
  olabel : Int
  weight : Nat
  nextstate : Int
  deriving DecidableEq, Repr

/-- A vector transducer: state `s` is the index of its arc list. -/
structure Fst where
  states : List (List Arc)
  deriving DecidableEq, Repr

/-- Number of states, `fst.NumStates()`. -/
def Fst.NumStates (f : Fst) : Nat := f.states.length

/-- The arcs an `ArcIterator` over `state` enumerates, in order. -/
def Fst.arcs (f : Fst) (state : Nat) : List Arc := f.states.getD state []

/-- The label on the matching side of an arc,
`TYPE == MATCH_INPUT ? arc.ilabel : arc.olabel`. -/
def matchLabel (TYPE : MatchType) (arc : Arc) : Int :=
  match TYPE with
  | MatchType.MATCH_INPUT => arc.ilabel
  | MatchType.MATCH_OUTPUT => arc.olabel

/-- Conversion of a 32-bit signed `int` to the 64-bit unsigned `size_t`. -/
def toSizeT (x : Int) : Nat := (x % 2 ^ 64).toNat

/-- The conventions of OpenFst every transducer obeys: a label is a
non-negative 32-bit `int` (negative values are kept for `kNoLabel` and the
internals of the library) and an arc leads to a state of the transducer. -/
def Fst.Valid (f : Fst) : Prop :=
  ∀ arcs ∈ f.states, ∀ a ∈ arcs,
    (0 ≤ a.ilabel ∧ a.ilabel < 2 ^ 31) ∧ (0 ≤ a.olabel ∧ a.olabel < 2 ^ 31) ∧
      (0 ≤ a.nextstate ∧ a.nextstate < f.NumStates)

instance (f : Fst) : Decidable f.Valid := by
  unfold Fst.Valid; infer_instance

/-- The property `kAcceptor`: both labels of every arc agree. -/
def Fst.Acceptor (f : Fst) : Prop :=
  ∀ arcs ∈ f.states, ∀ a ∈ arcs, a.ilabel = a.olabel

/-- The property `kILabelSorted` (`kOLabelSorted`): the arcs of every state
are in non-decreasing order of their matching label. -/
def Fst.LabelSorted (TYPE : MatchType) (f : Fst) : Prop :=
  ∀ arcs ∈ f.states, (arcs.map (matchLabel TYPE)).Pairwise (· ≤ ·)

/-- The property `kIDeterministic` (`kODeterministic`): no two arcs of a
state carry the same matching label. -/
def Fst.Deterministic (TYPE : MatchType) (f : Fst) : Prop :=
  ∀ arcs ∈ f.states, (arcs.map (matchLabel TYPE)).Nodup

/-- The property `kNoIEpsilons` (`kNoOEpsilons`): no matching label is the
epsilon label `0`. -/
def Fst.NoEpsilons (TYPE : MatchType) (f : Fst) : Prop :=
  ∀ arcs ∈ f.states, ∀ a ∈ arcs, matchLabel TYPE a ≠ 0

/-- The properties `props` the constructor of `TableMatcher` asserts. -/
def Fst.TableProps (TYPE : MatchType) (f : Fst) : Prop :=
  f.Acceptor ∧ f.LabelSorted TYPE ∧ f.Deterministic TYPE ∧ f.NoEpsilons TYPE

instance (TYPE : MatchType) (f : Fst) : Decidable (f.TableProps TYPE) := by
  unfold Fst.TableProps Fst.Acceptor Fst.LabelSorted Fst.Deterministic Fst.NoEpsilons
  infer_instance

/-- The values of the type `Label`, a 32-bit signed `int`. -/
def IsLabel (l : Int) : Prop := -2 ^ 31 ≤ l ∧ l < 2 ^ 31

instance (l : Int) : Decidable (IsLabel l) := by
  unfold IsLabel; infer_instance

/-! ## getStartLabels -/

/-- Insertion into a `std::set<Label>`, held as its ascending list of
elements: `labels.emplace(x)`. -/
def setEmplace (x : Int) : List Int → List Int
  | [] => [x]
  | y :: ys =>
    if x < y then x :: y :: ys
    else if x = y then y :: ys
    else y :: setEmplace x ys

/-- The function `getStartLabels`: every arc of every state puts its
matching label into a `std::set`, whose elements are returned in order. -/
def getStartLabels (TYPE : MatchType) (f : Fst) : List Int :=
  f.states.foldl
    (fun labels arcs =>
      arcs.foldl (fun labels arc => setEmplace (matchLabel TYPE arc) labels) labels)
    []

/-! ## TableMatcher: construction -/

/-- The call `std::fill_n(v.begin() + start, n, value)`. -/
def fillN (v : List Int) (start : Nat) : Nat → Int → List Int
  | 0, _ => v
  | n + 1, value => fillN (v.set start value) (start + 1) n value

/-- The first inner loop of the merge: the arc iterator advances while its
matching label is smaller than `*begin`. -/
def skipArcs (TYPE : MatchType) (b : Int) : List Arc → List Arc
  | [] => []
  | arc :: rest => if matchLabel TYPE arc < b then skipArcs TYPE b rest else arc :: rest

/-- The second inner loop of the merge: `begin` advances while the matching
label of the current arc is greater than `*begin`. -/
def skipLabels (l : Int) : List Int → List Int
  | [] => []
  | b :: rest => if l > b then skipLabels l rest else b :: rest

/-- The variables of the merge loop of one state: the arc iterator, the
label iterator and the transition table. -/
structure MergeState where
  aiter : List Arc
  begin : List Int
  transitions_ : List Int
  deriving DecidableEq, Repr

/-- One pass through the body of the merge loop
`for (aiter.Seek(0); !aiter.Done() && begin != end;)`; `none` when the loop
is left, by its condition or by one of the two `break`s. -/
def mergePass (TYPE : MatchType) (start_labels_ : List Int) (state : Nat)
    (st : MergeState) : Option MergeState :=
  match st.aiter, st.begin with
  | [], _ => none
  | _ :: _, [] => none
  | arc0 :: arcs0, b :: _ =>
    match skipArcs TYPE b (arc0 :: arcs0) with
    | [] => none
    | arc :: arcs =>
      match skipLabels (matchLabel TYPE arc) st.begin with
      | [] => none
      | b1 :: begin1 =>
        if matchLabel TYPE arc = b1 then
          some { aiter := arcs
                 begin := begin1
                 transitions_ :=
                   st.transitions_.set
                     (state * start_labels_.length
                       + (start_labels_.length - (b1 :: begin1).length))
                     arc.nextstate }
        else
          some { aiter := arc :: arcs
                 begin := b1 :: begin1
                 transitions_ := st.transitions_ }

/-- The merge loop, run for at most `fuel` passes. -/
def mergeLoop (TYPE : MatchType) (start_labels_ : List Int) (state : Nat) :
    Nat → MergeState → MergeState
  | 0, st => st
  | fuel + 1, st =>
    match mergePass TYPE start_labels_ state st with
    | none => st
    | some st1 => mergeLoop TYPE start_labels_ state fuel st1

/-- The body of the loop over the states in the constructor: the row of
`state` is filled with the target of a trailing `Rho` arc, then the arcs
and the labels are merged. Every pass of the merge moves one of the two
iterators, so `arcs + labels` passes are enough (`mergeLoop_fuel`). -/
def initState (Rho : Int) (TYPE : MatchType) (f : Fst) (start_labels_ : List Int)
    (transitions_ : List Int) (state : Nat) : List Int :=
  let arcs := f.arcs state
  let filled :=
    match arcs.getLast? with
    | some arc =>
      if Rho = matchLabel TYPE arc then
        fillN transitions_ (state * start_labels_.length) start_labels_.length arc.nextstate
      else transitions_
    | none => transitions_
  (mergeLoop TYPE start_labels_ state (arcs.length + start_labels_.length)
    { aiter := arcs, begin := start_labels_, transitions_ := filled }).transitions_

/-- The loop that initializes `cached_label_offsets_`, from index `i` on,
for `n` more entries. -/
def cacheLoop (size : Nat) : Nat → Nat → Nat → List Int → List Nat
  | 0, _, _, _ => []
  | n + 1, i, offset, [] => size :: cacheLoop size n (i + 1) offset []
  | n + 1, i, offset, b :: begin =>
    if toSizeT b = i then offset :: cacheLoop size n (i + 1) (offset + 1) begin
    else size :: cacheLoop size n (i + 1) offset (b :: begin)

/-- The members of `TableMatcher`. -/
structure TableMatcher where
  cached_label_offsets_ : List Nat
  start_labels_ : List Int
  transitions_ : List Int
  arc_ : Arc
  fst_ : Fst
  state_begin_ : Option Nat
  state_end_ : Option Nat
  state_ : Option Nat
  deriving DecidableEq, Repr

/-- The constructor `TableMatcher(const FST& fst)` for the template
arguments `Rho`, `CacheSize` and `TYPE`. -/
def TableMatcher.new (Rho : Int) (CacheSize : Nat) (TYPE : MatchType) (f : Fst) :
    TableMatcher :=
  let start_labels_ := getStartLabels TYPE f
  let num_states := f.NumStates
  let transitions_ :=
    (List.range num_states).foldl
      (fun t state => initState Rho TYPE f start_labels_ t state)
      (List.replicate (num_states * start_labels_.length) kNoStateId)
  { cached_label_offsets_ := cacheLoop start_labels_.length CacheSize 0 0 start_labels_
    start_labels_ := start_labels_
    transitions_ := transitions_
    arc_ := { ilabel := kNoLabel, olabel := kNoLabel, weight := 0, nextstate := kNoStateId }
    fst_ := f
    state_begin_ := none
    state_end_ := none
    state_ := none }

/-! ## TableMatcher: matching -/

/-- The result of `std::lower_bound(v.begin(), v.end(), label)` as the
standard specifies it: the first position whose element is not less than
`label`, given as the elements from that position on. -/
def lowerBound (label : Int) : List Int → List Int
  | [] => []
  | x :: rest => if x < label then lowerBound label rest else x :: rest

/-- The private function `find_label_offset`. -/
def TableMatcher.find_label_offset (m : TableMatcher) (label : Int) : Nat :=
  match lowerBound label m.start_labels_ with
  | [] => m.start_labels_.length
  | x :: rest =>
    if x ≠ label then m.start_labels_.length
    else m.start_labels_.length - (x :: rest).length

/-- The function `SetState(s)`; the assertion is its precondition. -/
def TableMatcher.SetState (m : TableMatcher) (s : Nat) : Option TableMatcher :=
  if s * m.start_labels_.length < m.transitions_.length then
    some { m with
      state_begin_ := some (s * m.start_labels_.length)
      state_ := some (s * m.start_labels_.length)
      state_end_ := some (s * m.start_labels_.length + m.start_labels_.length) }
  else none

/-- The function `Find(label)`: the value returned and the matcher after
the call. -/
def TableMatcher.Find (Rho : Int) (m : TableMatcher) (label : Int) :
    Option (Bool × TableMatcher) :=
  let looked : Option Nat :=
    if toSizeT label < m.cached_label_offsets_.length then
      m.cached_label_offsets_[toSizeT label]?
    else some (m.find_label_offset label)
  match looked with
  | none => none
  | some label_offset0 =>
    let adjusted : Option (Option Nat) :=
      if label_offset0 = m.start_labels_.length then
        match m.start_labels_.getLast? with
        | none => none
        | some back =>
          if back ≠ Rho then some none
          else some (some (m.start_labels_.length - 1))
      else some (some label_offset0)
    match adjusted with
    | none => none
    | some none => some (false, m)
    | some (some label_offset) =>
      match m.state_begin_, m.state_end_ with
      | some state_begin, some state_end =>
        let state := state_begin + label_offset
        if state < state_end then
          match m.transitions_[state]? with
          | none => none
          | some target =>
            some (decide (target ≠ kNoStateId),
                  { m with state_ := some state
                           arc_ := { m.arc_ with nextstate := target } })
        else none
      | _, _ => none

/-- The function `Done()`. -/
def TableMatcher.Done (m : TableMatcher) : Bool :=
  decide (m.state_ ≠ m.state_end_)

/-- The function `Value()`. -/
def TableMatcher.Value (m : TableMatcher) : Arc := m.arc_

/-- What a caller observes of `SetState(s)` followed by `Find(label)`: the
value `Find` returns and `Value().nextstate` after it. -/
def TableMatcher.findFrom (Rho : Int) (m : TableMatcher) (s : Nat) (label : Int) :
    Option (Bool × Int) :=
  (m.SetState s).bind
    (fun m1 => (TableMatcher.Find Rho m1 label).map (fun r => (r.1, r.2.Value.nextstate)))

/-- A two-state acceptor whose state `0` has two explicit arcs and a
trailing arc labelled `100`, and whose state `1` has one arc. -/
def exampleFst : Fst :=
  { states :=
      [ [ { ilabel := 1, olabel := 1, weight := 0, nextstate := 1 },
          { ilabel := 3, olabel := 3, weight := 0, nextstate := 0 },
          { ilabel := 100, olabel := 100, weight := 0, nextstate := 1 } ],
        [ { ilabel := 2, olabel := 2, weight := 0, nextstate := 0 } ] ] }

/-- An acceptor with one state and no arc. -/
def arclessFst : Fst := { states := [[]] }

/-! ## Auxiliary notions for the table matcher -/

/-- The arcs of the arc iterator whose label the label iterator has still
to pass: the cells the rest of the merge writes. -/
def Pending (TYPE : MatchType) (aiter : List Arc) (begin : List Int) (a : Arc) : Prop :=
  a ∈ aiter ∧ matchLabel TYPE a ∈ begin

/-- The value the constructor leaves in the cells of the row of `state`
that no arc of the state writes: the target of a trailing `Rho` arc, if
there is one, else `kNoStateId`. -/
def rowDefault (Rho : Int) (TYPE : MatchType) (f : Fst) (state : Nat) : Int :=
  match (f.arcs state).getLast? with
  | some arc => if Rho = matchLabel TYPE arc then arc.nextstate else kNoStateId
  | none => kNoStateId

/-- What the constructor leaves in the row of state `s` of a table `T`
with the columns `L`. -/
def RowSpec (Rho : Int) (TYPE : MatchType) (f : Fst) (L : List Int) (T : List Int)
    (s : Nat) : Prop :=
  (∀ a ∈ f.arcs s, T[s * L.length + L.indexOf (matchLabel TYPE a)]? = some a.nextstate) ∧
  (∀ j, j < L.length → (∀ a ∈ f.arcs s, matchLabel TYPE a ≠ L.getD j 0) →
    T[s * L.length + j]? = some (rowDefault Rho TYPE f s))

/-- The matcher built for `f` with the cursor on the row of state `s`, as
`SetState(s)` leaves it. -/
def atState (Rho : Int) (CacheSize : Nat) (TYPE : MatchType) (f : Fst) (s : Nat) :
    TableMatcher :=
  { TableMatcher.new Rho CacheSize TYPE f with
    state_begin_ := some (s * (getStartLabels TYPE f).length)
    state_ := some (s * (getStartLabels TYPE f).length)
    state_end_ := some (s * (getStartLabels TYPE f).length + (getStartLabels TYPE f).length) }

end fst

namespace iresearch
namespace analysis

/-! ## Stop words on disk -/

/-- The type `ignored_words_t`, a `std::unordered_set<std::string>`; a
`std::string` is the list of its `char`s, each `char` being the character
with the same code. -/
abbrev ignored_words_t := Finset (List Char)

/-- What `locale_utils` reads off a `std::locale`: the results of
`language`, `country`, `encoding` and `utf8`. -/
structure Locale where
  language : String
  country : String
  encoding : String
  utf8 : Bool
  deriving DecidableEq, Repr

/-- A `boost::filesystem::path`: whether it `is_absolute()` and its
elements. -/
structure Path where
  absolute : Bool
  parts : List String
  deriving DecidableEq, Repr

/-- The operator `lhs /= rhs` for a relative `rhs`. -/
def Path.join (lhs rhs : Path) : Path :=
  { absolute := lhs.absolute, parts := lhs.parts ++ rhs.parts }

/-- The call `path.append(name)`. -/
def Path.append (path : Path) (name : String) : Path :=
  { path with parts := path.parts ++ [name] }

/-- What the file system holds at a path: a directory, with the names a
`directory_iterator` enumerates (`none` when the iterator cannot be made and
throws), or something else, with the bytes a `std::ifstream` reads from it
(`none` when it cannot be opened). -/
inductive Entry where
  | directory (listing : Option (List String))
  | file (content : Option (List Char))
  deriving DecidableEq

/-- The surroundings of the process: the value of the environment variable
`IRESEARCH_TEXT_STOPWORD_PATH`, the current working directory, the file
system (`none` for a path at which nothing exists) and the function
`locale_utils::locale` that makes a locale from its name. -/
structure Env where
  getenv : Option Path
  current_path : Path
  status : Path → Option Entry
  locale : String → Locale

/-- The call `boost::filesystem::is_directory(path)`. -/
def Env.is_directory (env : Env) (path : Path) : Bool :=
  match env.status path with
  | some (Entry.directory _) => true
  | _ => false

/-- The bytes of the file a `std::ifstream` opens at `path`, `none` when the
stream is not good after construction. -/
def Env.ifstream (env : Env) (path : Path) : Option (List Char) :=
  match env.status path with
  | some (Entry.file content) => content
  | _ => none

/-- The function `std::isspace` in the "C" locale: space, `\t`, `\n`, `\v`,
`\f` and `\r`. -/
def isspace (c : Char) : Bool :=
  c.toNat = 32 || (9 ≤ c.toNat && c.toNat ≤ 13)

/-- The lines successive calls of `std::getline(in, line)` return for a
stream with the given content: the pieces between the `\n`, a last piece
without `\n` included unless it is empty. -/
def getlines : List Char → List (List Char)
  | [] => []
  | c :: cs =>
    if c.toNat = 10 then [] :: getlines cs
    else
      match getlines cs with
      | [] => [[c]]
      | line :: lines => (c :: line) :: lines

/-- The loop `for (...; i < length && !std::isspace(line[i]); ++i);` started
at index `i` with the `char`s from `i` on: the final value of `i`. -/
def findFirstSpace : List Char → Nat → Nat
  | [], i => i
  | c :: rest, i => if isspace c then i else findFirstSpace rest (i + 1)

/-- The body of the loop over the lines of a stop-word file. -/
def addLine (ignored_words : ignored_words_t) (line : List Char) : ignored_words_t :=
  let i := findFirstSpace line 0
  if i > 0 then insert (line.take i) ignored_words else ignored_words

/-- The loop over the entries of the language directory; `none` when a file
cannot be opened and `get_ignored_words` returns `false`. -/
def readFiles (env : Env) (stopword_path : Path) :
    List String → ignored_words_t → Option ignored_words_t
  | [], ignored_words => some ignored_words
  | name :: rest, ignored_words =>
    if env.is_directory (stopword_path.append name) then
      readFiles env stopword_path rest ignored_words
    else
      match env.ifstream (stopword_path.append name) with
      | none => none
      | some content =>
        readFiles env stopword_path rest ((getlines content).foldl addLine ignored_words)

/-- The first part of `get_ignored_words`: the root of the stop-word
directories. -/
def stopwordRoot (env : Env) (path : Option Path) : Path :=
  let custom_stopword_path := match path with
    | some p => some p
    | none => env.getenv
  match custom_stopword_path with
  | some p => if ¬ p.absolute then env.current_path.join p else p
  | none => env.current_path

/-- The function `get_ignored_words(buf, locale, path)`: the value returned
and `buf` after the call. An exception of the file system library is
caught and gives `false`. -/
def get_ignored_words (env : Env) (buf : ignored_words_t) (locale : Locale)
    (path : Option Path) : Bool × ignored_words_t :=
  let language := locale.language
  let stopword_path := stopwordRoot env path
  if ¬ env.is_directory stopword_path ∨ ¬ env.is_directory (stopword_path.append language) then
    (false, buf)
  else
    match env.status (stopword_path.append language) with
    | some (Entry.directory (some names)) =>
      match readFiles env (stopword_path.append language) names ∅ with
      | none => (false, buf)
      | some ignored_words => (true, buf ∪ ignored_words)
    | _ => (false, buf)

/-! ## The text token stream -/

/-- The type `UErrorCode`; `U_ZERO_ERROR` is `0`, warnings are negative. -/
abbrev UErrorCode := Int

/-- The constant `U_ZERO_ERROR`. -/
def U_ZERO_ERROR : UErrorCode := 0

/-- The macro `U_SUCCESS`. -/
def U_SUCCESS (err : UErrorCode) : Bool := decide (err ≤ U_ZERO_ERROR)

/-- The constant `INT32_MAX`. -/
def INT32_MAX : Nat := 2147483647

/-- An ICU `UnicodeString`. -/
abbrev UnicodeString := List Char

/-- An ICU `Locale` that is not bogus: its language and country. -/
abbrev IcuLocale := String × String

/-- The libraries the analyzer calls, which are no part of the repository:
ICU, the snowball stemmer and `boost::locale`. A function that takes a
`UErrorCode&` maps the code at the call to the code after it; a function
that returns a pointer says whether the pointer is non-null. -/
structure Icu where
  localeIsBogus : String → String → Bool
  getNFCInstance : UErrorCode → UErrorCode × Bool
  createTransliterator : UErrorCode → UErrorCode × Bool
  createWordInstance : IcuLocale → UErrorCode → UErrorCode × Bool
  sb_stemmer_new : String → Bool
  to_utf : List Char → String → List Char
  fromUTF8 : List Char → UnicodeString
  wordBoundaries : IcuLocale → UnicodeString → List (Int × Int)
  normalize : UnicodeString → UnicodeString × UErrorCode
  toLower : Option IcuLocale → UnicodeString → UnicodeString
  transliterate : UnicodeString → UnicodeString
  toUTF8String : UnicodeString → List Char
  sb_stemmer_stem : String → List Char → Option (List Char)

/-- An ICU word `BreakIterator` with a text: the boundary it stands on, the
rule status of that boundary, and the boundaries after it with their rule
status. -/
structure BreakIterator where
  current : Int
  status : Int
  rest : List (Int × Int)
  deriving DecidableEq, Repr

/-- The struct `text_token_stream::state_t`; a shared pointer to an object
without state is the flag that it is non-null, a bogus locale is `none`. -/
structure state_t where
  break_iterator : Option BreakIterator
  data : UnicodeString
  locale : Option IcuLocale
  normalizer : Bool
  stemmer : Bool
  tmp_buf : List Char
  transliterator : Bool
  deriving DecidableEq, Repr

/-- The attributes of the stream: `offset`, `bytes_term` and `increment`. -/
structure attributes where
  offset_start : Int
  offset_end : Int
  term : List Char
  increment : Nat
  deriving DecidableEq, Repr

/-- The members of `text_token_stream`. -/
structure text_token_stream where
  attrs_ : attributes
  locale_ : Locale
  state_ : state_t
  ignored_words_ : ignored_words_t
  deriving DecidableEq

/-- The constructor `text_token_stream(locale, ignored_words)`. -/
def text_token_stream.new (locale : Locale) (ignored_words : ignored_words_t) :
    text_token_stream :=
  { attrs_ := { offset_start := 0, offset_end := 0, term := [], increment := 1 }
    locale_ := locale
    state_ :=
      { break_iterator := none
        data := []
        locale := none
        normalizer := false
        stemmer := false
        tmp_buf := []
        transliterator := false }
    ignored_words_ := ignored_words }

/-! ### The cache of analyzer states -/

/-- The type `cached_state_t`. -/
abbrev cached_state_t := Locale × ignored_words_t

/-- The map `cached_state_by_key`, as its list of entries. -/
abbrev Cache := List (String × cached_state_t)

/-- The call `cached_state_by_key.find(key)`. -/
def Cache.find (cache : Cache) (key : String) : Option cached_state_t :=
  match cache with
  | [] => none
  | (k, v) :: rest => if k = key then some v else Cache.find rest key

/-- The call `cached_state_by_key.emplace(key, value)`: the map after it and
the entry `.first->second` refers to. -/
def Cache.emplace (cache : Cache) (key : String) (value : cached_state_t) :
    Cache × cached_state_t :=
  match cache.find key with
  | some old => (cache, old)
  | none => ((key, value) :: cache, value)

/-- The overload `construct(cache_key, locale, ignored_words)`: the analyzer
returned (`none` for `nullptr`) and the cache after the call. -/
def construct (cache : Cache) (cache_key : String) (locale : Locale)
    (ignored_words : ignored_words_t) : Option text_token_stream × Cache :=
  let r := cache.emplace cache_key (locale, ignored_words)
  (some (text_token_stream.new r.2.1 r.2.2), r.1)

/-- The overload `construct(cache_key)`. -/
def construct_key (env : Env) (cache : Cache) (cache_key : String) :
    Option text_token_stream × Cache :=
  match cache.find cache_key with
  | some cached => (some (text_token_stream.new cached.1 cached.2), cache)
  | none =>
    let locale := env.locale cache_key
    let r := get_ignored_words env ∅ locale none
    if r.1 then construct cache cache_key locale r.2 else (none, cache)

/-- The overload `construct(cache_key, locale)`. -/
def construct_locale (env : Env) (cache : Cache) (cache_key : String) (locale : Locale) :
    Option text_token_stream × Cache :=
  let r := get_ignored_words env ∅ locale none
  if r.1 then construct cache cache_key locale r.2 else (none, cache)

/-- The overload `construct(cache_key, locale, ignored_word_path)`. -/
def construct_path (env : Env) (cache : Cache) (cache_key : String) (locale : Locale)
    (ignored_word_path : Path) : Option text_token_stream × Cache :=
  let r := get_ignored_words env ∅ locale (some ignored_word_path)
  if r.1 then construct cache cache_key locale r.2 else (none, cache)

/-- The overload
`construct(cache_key, locale, ignored_word_path, ignored_words)`. -/
def construct_path_words (env : Env) (cache : Cache) (cache_key : String) (locale : Locale)
    (ignored_word_path : Path) (ignored_words : ignored_words_t) :
    Option text_token_stream × Cache :=
  let r := get_ignored_words env ignored_words locale (some ignored_word_path)
  if r.1 then construct cache cache_key locale r.2 else (none, cache)

/-! ### process_term and reset -/

/-- The function `process_term(attrs, ignored_words, state, data)`: the
value returned, the attributes and the state after the call. The caller
has made the normalizer and the transliterator in `reset`; `language` is
the language the stemmer of `state` was made for. -/
def process_term (icu : Icu) (language : String) (attrs : attributes)
    (ignored_words : ignored_words_t) (state : state_t) (data : UnicodeString) :
    Bool × attributes × state_t :=
  let normalized := icu.normalize data
  let word := if ¬ U_SUCCESS normalized.2 then data else normalized.1
  let word := icu.toLower state.locale word
  let word := icu.transliterate word
  let word_utf8 := icu.toUTF8String word
  let state := { state with tmp_buf := word_utf8 }
  if word_utf8 ∈ ignored_words then (false, attrs, state)
  else
    let unstemmed := (true, { attrs with term := word_utf8 }, state)
    if state.stemmer then
      match icu.sb_stemmer_stem language word_utf8 with
      | some value => (true, { attrs with term := value }, state)
      | none => unstemmed
    else unstemmed

/-- The end of `reset`: the stemmer is made if there is none, the data are
brought to UTF-8, checked against `INT32_MAX` and given to the break
iterator. -/
def resetData (icu : Icu) (self : text_token_stream) (state : state_t) (locale : IcuLocale)
    (iterator : BreakIterator) (data : List Char) : Bool × text_token_stream :=
  let state :=
    if ¬ state.stemmer then { state with stemmer := icu.sb_stemmer_new self.locale_.language }
    else state
  let bind := fun (text : UnicodeString) =>
    (true, { self with state_ :=
      { state with
        data := text
        break_iterator :=
          some { iterator with current := 0, status := 0,
                               rest := icu.wordBoundaries locale text } } })
  if self.locale_.utf8 then
    if data.length > INT32_MAX then (false, { self with state_ := state })
    else bind (icu.fromUTF8 data)
  else
    let data_utf8 := icu.to_utf data self.locale_.encoding
    if data_utf8.length > INT32_MAX then (false, { self with state_ := state })
    else bind (icu.fromUTF8 data_utf8)

/-- The part of `reset` from the break iterator on. -/
def resetBreakIterator (icu : Icu) (self : text_token_stream) (state : state_t)
    (locale : IcuLocale) (err : UErrorCode) (data : List Char) : Bool × text_token_stream :=
  match state.break_iterator with
  | none =>
    let made := icu.createWordInstance locale err
    if ¬ U_SUCCESS made.1 ∨ ¬ made.2 then
      (false, { self with state_ := { state with break_iterator := none } })
    else
      resetData icu self state locale { current := 0, status := 0, rest := [] } data
  | some iterator => resetData icu self state locale iterator data

/-- The part of `reset` from the transliterator on. -/
def resetTransliterator (icu : Icu) (self : text_token_stream) (state : state_t)
    (locale : IcuLocale) (err : UErrorCode) (data : List Char) : Bool × text_token_stream :=
  if ¬ state.transliterator then
    let made := icu.createTransliterator err
    if ¬ U_SUCCESS made.1 ∨ ¬ made.2 then
      (false, { self with state_ := { state with transliterator := false } })
    else
      resetBreakIterator icu self { state with transliterator := true } locale made.1 data
  else resetBreakIterator icu self state locale err data

/-- The part of `reset` from the normalizer on. -/
def resetNormalizer (icu : Icu) (self : text_token_stream) (state : state_t)
    (locale : IcuLocale) (data : List Char) : Bool × text_token_stream :=
  let err := U_ZERO_ERROR
  if ¬ state.normalizer then
    let made := icu.getNFCInstance err
    if ¬ U_SUCCESS made.1 ∨ ¬ made.2 then
      (false, { self with state_ := { state with normalizer := false } })
    else
      resetTransliterator icu self { state with normalizer := true } locale made.1 data
  else resetTransliterator icu self state locale err data

/-- The function `text_token_stream::reset(data)`: the value returned and
the stream after the call. -/
def text_token_stream.reset (icu : Icu) (self : text_token_stream) (data : List Char) :
    Bool × text_token_stream :=
  match self.state_.locale with
  | none =>
    if icu.localeIsBogus self.locale_.language self.locale_.country then (false, self)
    else
      resetNormalizer icu self
        { self.state_ with locale := some (self.locale_.language, self.locale_.country) }
        (self.locale_.language, self.locale_.country) data
  | some locale => resetNormalizer icu self self.state_ locale data

/-! ## Auxiliary notions and examples for the text token stream -/

/-- The helper objects of `reset` can be made: the locale of the analyzer is
not bogus for ICU and the normalizer, the transliterator and the word break
iterator are created without error whenever the error code passed in is a
success. -/
def Icu.HelpersOk (icu : Icu) (locale : Locale) : Prop :=
  icu.localeIsBogus locale.language locale.country = false ∧
  (∀ e, U_SUCCESS e = true →
    U_SUCCESS (icu.getNFCInstance e).1 = true ∧ (icu.getNFCInstance e).2 = true) ∧
  (∀ e, U_SUCCESS e = true →
    U_SUCCESS (icu.createTransliterator e).1 = true ∧ (icu.createTransliterator e).2 = true) ∧
  (∀ l e, U_SUCCESS e = true →
    U_SUCCESS (icu.createWordInstance l e).1 = true ∧ (icu.createWordInstance l e).2 = true)

/-- The failures of the file system `get_ignored_words` meets: the stop-word
root is not a directory, its language sub-directory is not a directory, or
an entry of the language directory that is not a directory cannot be
opened. -/
def IoFailure (env : Env) (locale : Locale) (path : Option Path) : Prop :=
  env.is_directory (stopwordRoot env path) = false ∨
  env.is_directory ((stopwordRoot env path).append locale.language) = false ∨
  ∃ names name,
    env.status ((stopwordRoot env path).append locale.language)
      = some (Entry.directory (some names)) ∧
    name ∈ names ∧
    env.is_directory (((stopwordRoot env path).append locale.language).append name) = false ∧
    env.ifstream (((stopwordRoot env path).append locale.language).append name) = none

/-- Libraries that make every helper object, leave every text as it is and
stem no word. -/
def exampleIcu : Icu :=
  { localeIsBogus := fun _ _ => false
    getNFCInstance := fun e => (e, true)
    createTransliterator := fun e => (e, true)
    createWordInstance := fun _ e => (e, true)
    sb_stemmer_new := fun _ => false
    to_utf := fun data _ => data
    fromUTF8 := fun data => data
    wordBoundaries := fun _ _ => []
    normalize := fun data => (data, 0)
    toLower := fun _ data => data
    transliterate := fun data => data
    toUTF8String := fun data => data
    sb_stemmer_stem := fun _ _ => none }

/-- Libraries as `exampleIcu` whose normalizer fails with
`U_MEMORY_ALLOCATION_ERROR` and whose stemmer cuts a word to three
letters. -/
def failingIcu : Icu :=
  { exampleIcu with
    normalize := fun _ => ([], 7)
    sb_stemmer_stem := fun _ word => some (word.take 3) }

/-- The locale `en_US.UTF-8`. -/
def exampleLocale : Locale :=
  { language := "en", country := "US", encoding := "UTF-8", utf8 := true }

/-- The stop-word root `/stopwords`. -/
def exampleRoot : Path := { absolute := true, parts := ["stopwords"] }

/-- A file system with the directory `/stopwords/en`, which holds the files
`a.txt` and `b.txt` and the sub-directory `old`. -/
def exampleEnv : Env :=
  { getenv := none
    current_path := { absolute := true, parts := [] }
    locale := fun _ => exampleLocale
    status := fun path =>
      if path = exampleRoot then some (Entry.directory (some ["en"]))
      else if path = exampleRoot.append "en" then
        some (Entry.directory (some ["a.txt", "old", "b.txt"]))
      else if path = (exampleRoot.append "en").append "old" then
        some (Entry.directory (some []))
      else if path = (exampleRoot.append "en").append "a.txt" then
        some (Entry.file (some "the article\n and\na\n".toList))
      else if path = (exampleRoot.append "en").append "b.txt" then
        some (Entry.file (some "of".toList))
      else none }

/-- The file system of `exampleEnv` with a file `b.txt` that cannot be
opened. -/
def brokenEnv : Env :=
  { exampleEnv with
    status := fun path =>
      if path = (exampleRoot.append "en").append "b.txt" then some (Entry.file none)
      else exampleEnv.status path }

/-- The size of the data in UTF-8 that `reset` compares with `INT32_MAX`. -/
def utf8Length (icu : Icu) (self : text_token_stream) (data : List Char) : Nat :=
  (if self.locale_.utf8 then data else icu.to_utf data self.locale_.encoding).length

/-! ### next -/

/-- The constant `BreakIterator::DONE`. -/
def DONE : Int := -1

/-- The constant `UBRK_WORD_NONE`. -/
def UBRK_WORD_NONE : Int := 0

/-- The call `data.tempSubString(start, length)`; ICU pins both arguments to
the string. -/
def tempSubString (data : UnicodeString) (start length : Int) : UnicodeString :=
  (data.drop start.toNat).take length.toNat

/-- The loop of `text_token_stream::next()`, entered with `start` the
boundary the break iterator stands on, `status` its rule status and the
boundaries `break_iterator->next()` is still to return. -/
def nextLoop (icu : Icu) (self : text_token_stream) (start status : Int) :
    List (Int × Int) → Bool × text_token_stream
  | [] =>
    (false, { self with state_ :=
      { self.state_ with
        break_iterator := some { current := start, status := status, rest := [] } } })
  | (stop, stopStatus) :: rest =>
    if stop = DONE then
      (false, { self with state_ :=
        { self.state_ with
          break_iterator := some { current := stop, status := stopStatus, rest := rest } } })
    else if stopStatus = UBRK_WORD_NONE then nextLoop icu self stop stopStatus rest
    else
      let processed := process_term icu self.locale_.language self.attrs_ self.ignored_words_
        self.state_ (tempSubString self.state_.data start (stop - start))
      if ¬ processed.1 then
        nextLoop icu { self with attrs_ := processed.2.1, state_ := processed.2.2 }
          stop stopStatus rest
      else
        (true,
          { self with
            attrs_ := { processed.2.1 with offset_start := start, offset_end := stop }
            state_ :=
              { processed.2.2 with
                break_iterator :=
                  some { current := stop, status := stopStatus, rest := rest } } })

/-- The function `text_token_stream::next()`: the value returned and the
stream after the call; `none` before the first successful `reset`, when there
is no break iterator. -/
def text_token_stream.next (icu : Icu) (self : text_token_stream) :
    Option (Bool × text_token_stream) :=
  match self.state_.break_iterator with
  | none => none
  | some iterator => some (nextLoop icu self iterator.current iterator.status iterator.rest)

/-- A token as a caller reads it off the attributes after `next()` returned
`true`: the term value and the offset. -/
structure Token where
  value : List Char
  start : Int
  stop : Int
  deriving DecidableEq, Repr

/-- The token in the attributes of a stream. -/
def text_token_stream.token (self : text_token_stream) : Token :=
  { value := self.attrs_.term, start := self.attrs_.offset_start,
    stop := self.attrs_.offset_end }

/-- The tokens of at most `fuel` calls of `next()`, up to the first call that
does not return `true`. -/
def drainFuel (icu : Icu) : Nat → text_token_stream → List Token
  | 0, _ => []
  | fuel + 1, self =>
    match self.next icu with
    | some (true, after) => after.token :: drainFuel icu fuel after
    | _ => []

/-- The number of boundaries the break iterator of a stream is still to
return. -/
def text_token_stream.boundariesLeft (self : text_token_stream) : Nat :=
  match self.state_.break_iterator with
  | none => 0
  | some iterator => iterator.rest.length

/-- Draining a stream: `next()` is called until it returns `false`. Every
call that returns `true` passes a boundary, so one call more than there are
boundaries left is enough. -/
def drain (icu : Icu) (self : text_token_stream) : List Token :=
  drainFuel icu (self.boundariesLeft + 1) self

/-- The stream after `k` calls of `next()`, whatever they returned. -/
def nextTimes (icu : Icu) : Nat → text_token_stream → Option text_token_stream
  | 0, self => some self
  | k + 1, self =>
    match self.next icu with
    | none => none
    | some r => nextTimes icu k r.2

/-! ### make -/

/-- A `boost::property_tree::ptree`: the data of the node and its children
in order. -/
inductive PTree where
  | node (data : String) (children : List (String × PTree))

/-- The data of a node, `get_value<std::string>()`. -/
def PTree.get_value : PTree → String
  | PTree.node data _ => data

/-- The children of a node. -/
def PTree.children : PTree → List (String × PTree)
  | PTree.node _ children => children

/-- The call `pt.get_child_optional(key)` for a key without separator: the
first child with that key. -/
def PTree.get_child_optional (pt : PTree) (key : String) : Option PTree :=
  (pt.children.find? (fun child => child.1 = key)).map Prod.snd

/-- The call `pt.get_optional<std::string>(key)`. -/
def PTree.get_optional (pt : PTree) (key : String) : Option String :=
  (pt.get_child_optional key).map PTree.get_value

/-- The functions of boost that `make` and `get_ignored_words` call:
`read_json` (`none` when it throws) and the construction of a path from a
string. -/
structure Boost where
  read_json : String → Option PTree
  path : String → Path

/-- The function `text_token_stream::make(args)`: the analyzer returned
(`none` for `nullptr`) and the cache after the call. Every exception of the
JSON branch is caught and gives `nullptr`. -/
def make (env : Env) (boost : Boost) (cache : Cache) (args : String) :
    Option text_token_stream × Cache :=
  let constructed := construct_key env cache args
  match constructed.1 with
  | some stream => (some stream, constructed.2)
  | none =>
    match boost.read_json args with
    | none => (none, constructed.2)
    | some pt =>
      match pt.get_optional "locale" with
      | none => (none, constructed.2)
      | some name =>
        let locale := env.locale name
        let ignored_words := pt.get_child_optional "ignored_words"
        let ignored_words_path := pt.get_optional "ignored_words_path"
        match ignored_words with
        | none =>
          match ignored_words_path with
          | some path => construct_path env constructed.2 args locale (boost.path path)
          | none => construct_locale env constructed.2 args locale
        | some words =>
          let buf : ignored_words_t :=
            words.children.foldl
              (fun buf ignored_word => insert ignored_word.2.get_value.toList buf) ∅
          match ignored_words_path with
          | some path =>
            construct_path_words env constructed.2 args locale (boost.path path) buf
          | none => construct constructed.2 args locale buf

/-- A call that touches the cache of analyzer states: `make` or one of the
overloads of `construct`. -/
inductive CacheCall where
  | make (args : String)
  | construct (cache_key : String) (locale : Locale) (ignored_words : ignored_words_t)
  | construct_key (cache_key : String)
  | construct_locale (cache_key : String) (locale : Locale)
  | construct_path (cache_key : String) (locale : Locale) (ignored_word_path : Path)
  | construct_path_words (cache_key : String) (locale : Locale) (ignored_word_path : Path)
      (ignored_words : ignored_words_t)

/-- The analyzer a call returns and the cache after it. -/
def CacheCall.run (env : Env) (boost : Boost) (cache : Cache) :
    CacheCall → Option text_token_stream × Cache
  | CacheCall.make args => analysis.make env boost cache args
  | CacheCall.construct key locale words => analysis.construct cache key locale words
  | CacheCall.construct_key key => analysis.construct_key env cache key
  | CacheCall.construct_locale key locale => analysis.construct_locale env cache key locale
  | CacheCall.construct_path key locale path =>
    analysis.construct_path env cache key locale path
  | CacheCall.construct_path_words key locale path words =>
    analysis.construct_path_words env cache key locale path words

/-- The cache after a sequence of calls. -/
def runCalls (env : Env) (boost : Boost) (cache : Cache) (calls : List CacheCall) : Cache :=
  calls.foldl (fun cache call => (call.run env boost cache).2) cache

/-! ### Examples for make and next -/

/-- The argument string `{"stemming":false}`, a JSON object without
`locale`. -/
def argsNoLocale : String := "\x7b\"stemming\":false\x7d"

/-- The argument string of the pipeline test with the stop word `the`
added: `{"locale":"en_US.UTF-8", "stopwords":["the"], "case":"none",
"stemming":false}`. -/
def argsStopwords : String :=
  "\x7b\"locale\":\"en_US.UTF-8\", \"stopwords\":[\"the\"], \"case\":\"none\", \"stemming\":false\x7d"

/-- A JSON reader that knows `argsNoLocale` and `argsStopwords` and throws
on every other string, with a path constructor that gives `/stopwords`. -/
def exampleBoost : Boost :=
  { read_json := fun args =>
      if args = argsNoLocale then
        some (PTree.node "" [("stemming", PTree.node "false" [])])
      else if args = argsStopwords then
        some (PTree.node ""
          [("locale", PTree.node "en_US.UTF-8" []),
           ("stopwords", PTree.node "" [("", PTree.node "the" [])]),
           ("case", PTree.node "none" []),
           ("stemming", PTree.node "false" [])])
      else none
    path := fun _ => exampleRoot }

/-- The surroundings `exampleEnv` with `IRESEARCH_TEXT_STOPWORD_PATH` set to
`/stopwords` and a `locale_utils::locale` that knows `en_US.UTF-8` and takes
any other name for the language. -/
def diskEnv : Env :=
  { exampleEnv with
    getenv := some exampleRoot
    locale := fun name =>
      if name = "en_US.UTF-8" then exampleLocale
      else { language := name, country := "", encoding := "", utf8 := false } }

/-- The surroundings `diskEnv` without the environment variable: the working
directory `/` holds no stop-word directory. -/
def noDiskEnv : Env := { diskEnv with getenv := none }

/-- Libraries as `exampleIcu` for ASCII text: the word break iterator finds
the two words of `quick FOX` and takes any other text that is not empty for
one word, `toLower` lower-cases the letters, and the stemmer, present for
every language, drops a final `s`. -/
def asciiIcu : Icu :=
  { exampleIcu with
    wordBoundaries := fun _ text =>
      if text = "quick FOX".toList then [(5, 200), (6, 0), (9, 200)]
      else if text = [] then []
      else [((text.length : Int), 200)]
    toLower := fun _ text => text.map Char.toLower
    sb_stemmer_new := fun _ => true
    sb_stemmer_stem := fun _ word =>
      if word.getLast? = some (Char.ofNat 115) then some word.dropLast else some word }

/-! ### Auxiliary notions for next and reset -/

/-- The UTF-8 form of a word after normalization (or without it, when the
normalizer fails), lower-casing and transliteration, as `process_term`
computes it. -/
def wordOf (icu : Icu) (locale : Option IcuLocale) (data : UnicodeString) : List Char :=
  icu.toUTF8String (icu.transliterate (icu.toLower locale
    (if ¬ U_SUCCESS (icu.normalize data).2 then data else (icu.normalize data).1)))

/-- The term `process_term` stores for a word that is no stop word. -/
def termOf (icu : Icu) (language : String) (stemmer : Bool) (word : List Char) : List Char :=
  if stemmer then (icu.sb_stemmer_stem language word).getD word else word

/-- The text `reset` binds for the given data. -/
def boundText (icu : Icu) (self : text_token_stream) (data : List Char) : UnicodeString :=
  icu.fromUTF8 (if self.locale_.utf8 then data else icu.to_utf data self.locale_.encoding)

/-- The ICU locale `reset` works with: the one of the state, or the one it
makes from the locale of the analyzer. -/
def boundLocale (self : text_token_stream) : IcuLocale :=
  self.state_.locale.getD (self.locale_.language, self.locale_.country)

/-- The stream a successful `reset(data)` leaves. -/
def afterReset (icu : Icu) (self : text_token_stream) (data : List Char) :
    text_token_stream :=
  { self with state_ :=
    { break_iterator :=
        some { current := 0, status := 0
               rest := icu.wordBoundaries (boundLocale self) (boundText icu self data) }
      data := boundText icu self data
      locale := some (boundLocale self)
      normalizer := true
      stemmer := self.state_.stemmer || icu.sb_stemmer_new self.locale_.language
      tmp_buf := self.state_.tmp_buf
      transliterator := true } }

/-- Two streams that differ at most in the attributes and in the buffer
`tmp_buf`. -/
def Sim (a b : text_token_stream) : Prop :=
  a.locale_ = b.locale_ ∧ a.ignored_words_ = b.ignored_words_ ∧
  a.state_.break_iterator = b.state_.break_iterator ∧ a.state_.data = b.state_.data ∧
  a.state_.locale = b.state_.locale ∧ a.state_.stemmer = b.state_.stemmer

/-- The boundaries of the word break iterator are strictly increasing,
start after `0` and lie within the text. -/
def Icu.BoundariesOk (icu : Icu) : Prop :=
  ∀ (locale : IcuLocale) (text : UnicodeString),
    ((0 : Int) :: (icu.wordBoundaries locale text).map Prod.fst).Pairwise (· < ·) ∧
    ∀ b ∈ icu.wordBoundaries locale text, b.1 ≤ (text.length : Int)

/-- The stream the end of `reset` leaves when it is entered with the state
`state` and does not fail. -/
def resetShape (icu : Icu) (self : text_token_stream) (state : state_t) (locale : IcuLocale)
    (data : List Char) : text_token_stream :=
  { self with state_ :=
    { break_iterator :=
        some { current := 0, status := 0
               rest := icu.wordBoundaries locale (boundText icu self data) }
      data := boundText icu self data
      locale := state.locale
      normalizer := state.normalizer
      stemmer := state.stemmer || icu.sb_stemmer_new self.locale_.language
      tmp_buf := state.tmp_buf
      transliterator := state.transliterator } }

/-- The break iterator of a stream stands on a boundary that is not
negative, and the boundaries it is still to return are strictly increasing
after that one and at most `bound`. -/
def WithinBound (bound : Int) (self : text_token_stream) : Prop :=
  ∃ it, self.state_.break_iterator = some it ∧ 0 ≤ it.current ∧
    (it.current :: it.rest.map Prod.fst).Pairwise (· < ·) ∧ ∀ b ∈ it.rest, b.1 ≤ bound

end analysis
end iresearch

/-! # N-gram similarity filter

The implementation of `by_ngram_similarity` is not part of the sources at hand;
only its tests (`src/tests/search/ngram_similarity_filter_tests.cpp`) are.  The
definitions of this section follow the description of the ordered match state
machine and of the filter; a document field is the list of its terms, the
position of a term being its index, and a query is the list of its slots.  The
threshold is a ratio of naturals and the boost is kept as the pair of its
numerator and denominator, so that every definition evaluates. -/

namespace iresearch
namespace ngram_similarity

/-- A term of a document field or of a query slot, identified by a number (the
tests use the terms "1", "2", ...). -/
abbrev Term := Nat

/-- Modelled from the spec: an entry `best[j]` of the state machine, the pair
`(ending_position, length)` of the best match ending at slot `j`. -/
structure Best where
  ending_position : Nat
  length : Nat
  deriving DecidableEq, Repr

/-- Modelled from the spec: "find the largest `j' < j` whose
`best[j'].ending_position < p`".  The slots below `j` are visited from `j - 1`
downwards; a slot without an entry has no ending position. -/
def predecessor (best : List (Option Best)) (j p : Nat) : Option Best :=
  (best.take j).reverse.findSome? (fun entry =>
    match entry with
    | some b => if b.ending_position < p then some b else none
    | none => none)

/-- Modelled from the spec: the treatment of one pair `(slot j, position p)`:
`L = best[j'].length + 1` if a predecessor is found, else `1`; `best[j]` is
replaced by `(p, L)` if `L` is larger than its length, or equal with a smaller
ending position.  A slot without an entry has length `0`. -/
def step (best : List (Option Best)) (j p : Nat) : List (Option Best) :=
  let L := match predecessor best j p with
    | some b => b.length + 1
    | none => 1
  match best.getD j none with
  | none => best.set j (some { ending_position := p, length := L })
  | some b =>
    if L > b.length then best.set j (some { ending_position := p, length := L })
    else if L = b.length ∧ p < b.ending_position then
      best.set j (some { ending_position := p, length := L })
    else best

/-- Modelled from the spec: the slots whose positions cursor holds the
positions of `term` (every occurrence of a term in the query is a slot of its
own), in ascending order. -/
def slotsOf (query : List Term) (term : Term) : List Nat :=
  (List.range query.length).filter (fun j => query.get? j = some term)

/-- Modelled from the spec: "scan positions across slots in merged ascending
order", over the positions from `start` on (the cursors advanced past the
positions below `start`); slots that share a position are taken in ascending
order. -/
def scanFrom (query doc : List Term) (start : Nat) : List (Option Best) :=
  (List.range doc.length).foldl
    (fun best p =>
      if start ≤ p then
        (slotsOf query (doc.getD p 0)).foldl (fun best j => step best j p) best
      else best)
    (List.replicate query.length none)

/-- Modelled from the spec: `len(LOS) = max_j best[j].length`. -/
def losLength (best : List (Option Best)) : Nat :=
  best.foldl (fun m entry =>
    match entry with
    | some b => max m b.length
    | none => m) 0

/-- Modelled from the spec: the tie-break rule, "when multiple LOS of the same
length exist, the earliest-ending one is chosen": the smallest ending position
among the entries of length `m`. -/
def earliestEnd (best : List (Option Best)) (m : Nat) : Option Nat :=
  best.foldl (fun e entry =>
    match entry with
    | some b =>
      if b.length = m then
        match e with
        | some old => some (min old b.ending_position)
        | none => some b.ending_position
      else e
    | none => e) none

/-- Modelled from the spec: "after finding one LOS, advance all cursors past
the LOS's end position and repeat until remaining LOS length `< len(LOS)`".
Every round starts strictly after the end of the previous one, so
`doc.length + 1` rounds of fuel are enough. -/
def countFrom (query doc : List Term) (m : Nat) : Nat → Nat → Nat
  | 0, _ => 0
  | fuel + 1, start =>
    if losLength (scanFrom query doc start) < m then 0
    else
      match earliestEnd (scanFrom query doc start) m with
      | some e => 1 + countFrom query doc m fuel (e + 1)
      | none => 0

/-- Modelled from the spec: the occurrence count of the state machine, "the
number of times the LOS of the original length is realized under this
disjointness rule". -/
def frequency (query doc : List Term) : Nat :=
  if losLength (scanFrom query doc 0) = 0 then 0
  else countFrom query doc (losLength (scanFrom query doc 0)) (doc.length + 1) 0

/-- The threshold `τ` of the filter, the ratio `num / den`. -/
structure Threshold where
  num : Nat
  den : Nat
  deriving DecidableEq, Repr

/-- Modelled from the spec: `m_min = ⌈τ n⌉`, in integer arithmetic. -/
def m_min (threshold : Threshold) (n : Nat) : Nat :=
  (threshold.num * n + threshold.den - 1) / threshold.den

/-- Modelled from the spec: the match descriptor of an emitted document:
`document`, `frequency` and the boost `len(LOS) / n`, kept as numerator and
denominator. -/
structure MatchDescriptor where
  document : Nat
  frequency : Nat
  boost_num : Nat
  boost_den : Nat
  deriving DecidableEq, Repr

/-- Modelled from the spec: `filter_boost = len(LOS) / n`. -/
def MatchDescriptor.filter_boost (d : MatchDescriptor) : ℚ :=
  (d.boost_num : ℚ) / d.boost_den

/-- Modelled from the spec: the distinct query terms that occur in a
document. -/
def presentTerms (query doc : List Term) : List Term :=
  query.dedup.filter (fun t => t ∈ doc)

/-- Modelled from the spec: the execution of the filter over one segment, the
list of its document fields (a document is identified by its index).
Conjunction pruning: "if the number of distinct present terms `< m_min`, skip
the segment"; a candidate document is "one containing `≥ m_min` of the distinct
terms"; it is emitted "if `len(LOS) ≥ m_min`", with the frequency and the boost
of the state machine. -/
def execute (query : List Term) (threshold : Threshold) (segment : List (List Term)) :
    List MatchDescriptor :=
  if (query.dedup.filter (fun t => segment.any (fun doc => t ∈ doc))).length
      < m_min threshold query.length then []
  else
    (List.range segment.length).filterMap (fun docId =>
      if m_min threshold query.length ≤ (presentTerms query (segment.getD docId [])).length then
        if m_min threshold query.length
            ≤ losLength (scanFrom query (segment.getD docId []) 0) then
          some { document := docId
                 frequency := frequency query (segment.getD docId [])
                 boost_num := losLength (scanFrom query (segment.getD docId []) 0)
                 boost_den := query.length }
        else none
      else none)

/-- Modelled from the spec: the length of a longest ordered subsequence, stated
directly: the largest length of a subsequence of the query slots whose terms
occur in the document at strictly increasing positions, that is of a sublist of
the query that is a sublist of the document. -/
def losReference (query doc : List Term) : Nat :=
  ((query.sublists.filter (fun s => List.Sublist s doc)).map List.length).foldr max 0

/-- Modelled from the spec: the shortest initial part of the document that
holds a subsequence of length `m`: the earliest-ending realization ends at its
last position. -/
def earliestCut (query doc : List Term) (m : Nat) : Option Nat :=
  (List.range (doc.length + 1)).find? (fun k => m ≤ losReference query (doc.take k))

/-- Modelled from the spec: the realizations of length `m` taken one after
another, each starting after the end position of the previous one. -/
def referenceCount (query : List Term) (m : Nat) : Nat → List Term → Nat
  | 0, _ => 0
  | fuel + 1, doc =>
    match earliestCut query doc m with
    | some k => 1 + referenceCount query m fuel (doc.drop k)
    | none => 0

/-- Modelled from the spec: the frequency stated directly: the number of
realizations of the longest ordered subsequence that can be taken one after
another, each starting after the end position of the previous one. -/
def frequencyReference (query doc : List Term) : Nat :=
  if losReference query doc = 0 then 0
  else referenceCount query (losReference query doc) (doc.length + 1) doc

/-- Every entry of the array stands for an ordered subsequence of its length, which ends at
the slot and at the position of the entry: the invariant of the scan. -/
def Sound (query doc : List Term) (best : List (Option Best)) : Prop :=
  ∀ j b, best.get? j = some (some b) →
    ∃ s : List Term, s.length = b.length ∧ List.Sublist s (query.take (j + 1))
      ∧ List.Sublist s (doc.take (b.ending_position + 1))

end ngram_similarity
end iresearch

namespace fst

/-! ## TableMatcher: Next and sequences of calls -/

/-- The assignment to
`(TYPE == MATCH_INPUT ? arc_.ilabel : arc_.olabel)` in `Next()`. -/
def setMatchLabel (TYPE : MatchType) (arc : Arc) (label : Int) : Arc :=
  match TYPE with
  | MatchType.MATCH_INPUT => { arc with ilabel := label }
  | MatchType.MATCH_OUTPUT => { arc with olabel := label }

/-- The loop `while (!Done())` of `Next()`, run for at most `fuel` passes;
`none` when a pass follows a null pointer or reads outside `transitions_` or
`start_labels_`, and when the fuel runs out. A pass moves the cursor off
`state_end_`, after which `Done()` holds, so two passes are enough
(`NextLoop_fuel`). -/
def TableMatcher.NextLoop (TYPE : MatchType) : Nat → TableMatcher → Option TableMatcher
  | 0, _ => none
  | fuel + 1, m =>
    if m.Done then some m
    else
      match m.state_ with
      | none => none
      | some state =>
        match m.transitions_[state + 1]? with
        | none => none
        | some target =>
          if target ≠ kNoLabel then
            match m.state_begin_ with
            | none => none
            | some state_begin =>
              match m.start_labels_[state + 1 - state_begin]? with
              | none => none
              | some label =>
                some { m with
                  state_ := some (state + 1)
                  arc_ := { setMatchLabel TYPE m.arc_ label with nextstate := target } }
          else TableMatcher.NextLoop TYPE fuel { m with state_ := some (state + 1) }

/-- The function `Next()`; the assertion `state_ < state_end_` is its
precondition. -/
def TableMatcher.Next (TYPE : MatchType) (m : TableMatcher) : Option TableMatcher :=
  match m.state_, m.state_end_ with
  | some state, some state_end =>
    if state < state_end then TableMatcher.NextLoop TYPE 2 m else none
  | _, _ => none

/-- A sequence of calls of `Find`, one for every label of the list; `none`
when one of them violates its assertion or reads outside the table. -/
def TableMatcher.findAll (Rho : Int) : TableMatcher → List Int → Option TableMatcher
  | m, [] => some m
  | m, label :: labels =>
    match TableMatcher.Find Rho m label with
    | none => none
    | some r => TableMatcher.findAll Rho r.2 labels

/-- The cursor of `m` is on the row of state `s` of the table of `m0`:
`state_begin_` and `state_end_` delimit that row, the row lies within
`transitions_`, `state_begin_ ≤ state_ < state_end_`, and the table, the label
set and the cache are those of `m0`. -/
def CursorInRow (m0 : TableMatcher) (s : Nat) (m : TableMatcher) : Prop :=
  m.start_labels_ = m0.start_labels_ ∧ m.transitions_ = m0.transitions_ ∧
  m.cached_label_offsets_ = m0.cached_label_offsets_ ∧
  m.state_begin_ = some (s * m0.start_labels_.length) ∧
  m.state_end_ = some (s * m0.start_labels_.length + m0.start_labels_.length) ∧
  s * m0.start_labels_.length + m0.start_labels_.length ≤ m0.transitions_.length ∧
  ∃ c, m.state_ = some c ∧ s * m0.start_labels_.length ≤ c ∧
    c < s * m0.start_labels_.length + m0.start_labels_.length

/-- A two-state acceptor whose state `0` has an arc labelled `2` between
arcs labelled `1` and `3`, and whose state `1` has an arc labelled `5`. -/
def rhoMiddleFst : Fst :=
  { states :=
      [ [ { ilabel := 1, olabel := 1, weight := 0, nextstate := 1 },
          { ilabel := 2, olabel := 2, weight := 0, nextstate := 0 },
          { ilabel := 3, olabel := 3, weight := 0, nextstate := 1 } ],
        [ { ilabel := 5, olabel := 5, weight := 0, nextstate := 0 } ] ] }

end fst

namespace iresearch
namespace analysis

/-! ### The segments `next()` accepts -/

/-- The tokens of the accepted segments, in order, for a break iterator that
stands on the boundary `start` and is still to return the given boundaries
with their rule status: a segment between two consecutive boundaries is
accepted when the rule status of its end is not `UBRK_WORD_NONE` and the
processed form of its text is no stop word; its token carries the term of that
form and the offset `(segment start, segment end)`. -/
def acceptedSegments (icu : Icu) (language : String) (locale : Option IcuLocale)
    (stemmer : Bool) (data : UnicodeString) (ignored_words : ignored_words_t) (start : Int) :
    List (Int × Int) → List Token
  | [] => []
  | (stop, status) :: rest =>
    if status ≠ UBRK_WORD_NONE ∧
        wordOf icu locale (tempSubString data start (stop - start)) ∉ ignored_words then
      { value := termOf icu language stemmer
          (wordOf icu locale (tempSubString data start (stop - start)))
        start := start
        stop := stop } ::
        acceptedSegments icu language locale stemmer data ignored_words stop rest
    else acceptedSegments icu language locale stemmer data ignored_words stop rest

/-- The tokens of the accepted segments a stream has not passed yet. -/
def text_token_stream.accepted (icu : Icu) (self : text_token_stream) : List Token :=
  match self.state_.break_iterator with
  | none => []
  | some it =>
    acceptedSegments icu self.locale_.language self.state_.locale self.state_.stemmer
      self.state_.data self.ignored_words_ it.current it.rest

end analysis
end iresearch

/-! # Pipeline token stream

The implementation of `pipeline_token_stream` and of the `ngram` analyzer is
not part of the sources at hand; only the tests
(`src/tests/analysis/pipeline_stream_tests.cpp`) are. The definitions of this
section follow the description of the pipeline: an analyzer is the function
from the input bound by `reset` to the tokens the calls of `next()` give, and
the pipeline is a stack of levels, one for every analyzer that has been reset
on the current branch. -/

namespace iresearch
namespace pipeline_token_stream

/-- Modelled from the spec: a token of an analyzer, with its `value`, its
`offset = (start, end)` into the input of the analyzer and its `increment`. -/
structure Token where
  value : List Char
  start : Nat
  stop : Nat
  increment : Nat
  deriving DecidableEq, Repr

/-- Modelled from the spec: an analyzer, "a stateful cursor with contract
`reset(input) → bool; next() → bool`", as the function from the input to the
tokens `next()` gives until it returns `false`. -/
abbrev Analyzer := List Char → List Token

/-- What a caller reads off the pipeline for an emitted token, as the struct
`analyzer_token` of the tests: the value, the offset into the original input
and the effective position, the running sum of the increments. -/
structure analyzer_token where
  value : List Char
  start : Nat
  stop : Nat
  pos : Nat
  deriving DecidableEq, Repr

/-- Modelled from the spec: the initial effective position `MAX`, the largest
`uint32_t`. -/
def MAX : Nat := 2 ^ 32 - 1

/-- Modelled from the spec: "the effective position is `pos += increment` with
an initial `pos = MAX` that overflows to `0` on first non-zero increment". -/
def advance (pos increment : Nat) : Nat := (pos + increment) % 2 ^ 32

/-- Modelled from the spec: one analyzer of the current branch: the tokens it
has still to give for its input, the start of that input in the original input
(`start_0 + … + start_{i-1}`) and `pos[i]`, the effective position of its
current token. -/
structure Level where
  pending : List Token
  base : Nat
  pos : Nat
  deriving DecidableEq, Repr

/-- Modelled from the spec: "emit effective position `Σ pos[i]`", over the
levels of the current branch. The carry of a backtrack to a sibling is the
increment of that sibling, which `pos[i]` of its level takes up. -/
def sumPos (stack : List Level) : Nat := (stack.map Level.pos).sum

/-- Modelled from the spec: the state after `reset(input)`: "`P₀.reset(input)`;
subsequent `P_i` is reset lazily"; a pipeline without analyzer "is rejected at
construction". The stack holds the deepest level first. -/
def reset (pipeline : List Analyzer) (input : List Char) : Option (List Level) :=
  match pipeline with
  | [] => none
  | P :: _ => some [{ pending := P input, base := 0, pos := MAX }]

/-- Modelled from the spec: one move of `next()`: it "first tries to advance
the deepest analyzer; if exhausted, it pops and advances the parent, resetting
descendants on the new sibling value". The deepest analyzer of the stack
advances to its next token: if it is the last analyzer of the pipeline the
token is emitted, with the offset
`(start_0 + … + start_{k-1}, start_0 + … + start_{k-2} + end_{k-1})` and the
position `Σ pos[i]`; else the next analyzer is reset on the value of the token
and put on the stack with its position at `MAX`. An analyzer without further
token is taken off the stack. `none` when the stack is empty: `P₀` is
exhausted. -/
def step (pipeline : List Analyzer) (stack : List Level) :
    Option (Option analyzer_token × List Level) :=
  match stack with
  | [] => none
  | level :: parents =>
    match level.pending with
    | [] => some (none, parents)
    | t :: ts =>
      match pipeline.drop (parents.length + 1) with
      | [] =>
        some (some { value := t.value
                     start := level.base + t.start
                     stop := level.base + t.stop
                     pos := (sumPos parents + advance level.pos t.increment) % 2 ^ 32 },
          { pending := ts, base := level.base, pos := advance level.pos t.increment }
            :: parents)
      | Q :: _ =>
        some (none,
          { pending := Q t.value, base := level.base + t.start, pos := MAX }
            :: { pending := ts, base := level.base, pos := advance level.pos t.increment }
            :: parents)

/-- Modelled from the spec: the function `next()`, moves of the pipeline up to
the first token emitted, at most `fuel` of them: `some none` when `P₀` is
exhausted, `none` when the fuel runs out. -/
def next (pipeline : List Analyzer) :
    Nat → List Level → Option (Option (analyzer_token × List Level))
  | 0, _ => none
  | fuel + 1, stack =>
    match step pipeline stack with
    | none => some none
    | some (some token, after) => some (some (token, after))
    | some (none, after) => next pipeline fuel after

/-- Modelled from the spec: the tokens `fuel` moves of the pipeline emit, in the
order of their emission. -/
def run (pipeline : List Analyzer) : Nat → List Level → List analyzer_token
  | 0, _ => []
  | fuel + 1, stack =>
    match step pipeline stack with
    | none => []
    | some (some token, after) => token :: run pipeline fuel after
    | some (none, after) => run pipeline fuel after

/-- The number of moves the analyzers `below` a level need for the pending
tokens of the level: one move for every token, the moves of its descendants,
and one move to take the level off the stack. -/
def costTokens : List Analyzer → List Token → Nat
  | [], pending => pending.length + 1
  | Q :: below, pending => (pending.map (fun t => 1 + costTokens below (Q t.value))).sum + 1

/-- The number of moves after which a stack is empty. -/
def cost (pipeline : List Analyzer) : List Level → Nat
  | [] => 0
  | level :: parents =>
    costTokens (pipeline.drop (parents.length + 1)) level.pending + cost pipeline parents

/-- Modelled from the spec: the tokens the pipeline emits for an input, the
moves of the pipeline after `reset(input)` until the stack is empty; `cost`
moves empty it (`run_enough`). -/
def drain (pipeline : List Analyzer) (input : List Char) : List analyzer_token :=
  match reset pipeline input with
  | none => []
  | some stack => run pipeline (cost pipeline stack) stack

/-- Modelled from the spec: the tokens of at most `calls` calls of `next()`, up
to the first call that returns `false`; every call is given one move more
than `cost`, which is enough (`next_enough`). -/
def drainNext (pipeline : List Analyzer) : Nat → List Level → List analyzer_token
  | 0, _ => []
  | calls + 1, stack =>
    match next pipeline (cost pipeline stack + 1) stack with
    | some (some (token, after)) => token :: drainNext pipeline calls after
    | _ => []

/-- Modelled from the spec: the tokens of an analyzer with their effective
positions, `pos += increment` from the position `pos` on. -/
def withPositions : Nat → List Token → List (Token × Nat)
  | _, [] => []
  | pos, t :: ts => (t, advance pos t.increment) :: withPositions (advance pos t.increment) ts

/-- Modelled from the spec: the depth-first cartesian expansion of the tokens
`pending` of one analyzer through the analyzers `below` it: "for each
`t₀ ∈ T₀`, for each `t₁ ∈ T₁(t₀.value)`, … one output token per leaf", every
token of an analyzer being the input of the next one; `base` is the sum of the
starts and `sum` the sum of the positions of the ancestors. -/
def expandTokens : List Analyzer → Nat → Nat → Nat → List Token → List analyzer_token
  | [], base, sum, pos, pending =>
    (withPositions pos pending).map (fun tp =>
      { value := tp.1.value, start := base + tp.1.start, stop := base + tp.1.stop
        pos := (sum + tp.2) % 2 ^ 32 })
  | Q :: below, base, sum, pos, pending =>
    (withPositions pos pending).flatMap (fun tp =>
      expandTokens below (base + tp.1.start) (sum + tp.2) MAX (Q tp.1.value))

/-- Modelled from the spec: the depth-first expansion of an input through a
pipeline. -/
def expand (pipeline : List Analyzer) (input : List Char) : List analyzer_token :=
  match pipeline with
  | [] => []
  | P :: below => expandTokens below 0 0 MAX (P input)

/-- The tokens a stack has still to emit: the expansion of the pending tokens
of every level, the deepest level first. -/
def remaining (pipeline : List Analyzer) : List Level → List analyzer_token
  | [] => []
  | level :: parents =>
    expandTokens (pipeline.drop (parents.length + 1)) level.base (sumPos parents) level.pos
        level.pending
      ++ remaining pipeline parents

/-- Modelled from the spec: the n-grams of the lengths `min` to `max` that
start at `start` and fit into the input, each with the offset of its
characters and the increment `0`. -/
def ngramsAt (input : List Char) (start min max : Nat) : List Token :=
  (((List.range (max + 1 - min)).map (fun l => l + min)).filter
      (fun l => start + l ≤ input.length)).map
    (fun l =>
      { value := (input.drop start).take l, start := start, stop := start + l
        increment := 0 })

/-- Modelled from the spec: the first n-gram of a start moves to the next
position: its increment is `1`. -/
def firstIncrement : List Token → List Token
  | [] => []
  | t :: ts => { t with increment := 1 } :: ts

/-- Modelled from the spec: the `ngram` analyzer with the arguments `min` and
`max`, without `preserveOriginal`. The spec gives its arguments only; the
tokens are those the tests expect of it: for every start, in order, the
n-grams of the lengths `min` to `max` that fit, the first of a start at the
next position and the others at the same position. -/
def ngram (min max : Nat) : Analyzer := fun input =>
  (List.range input.length).flatMap (fun start => firstIncrement (ngramsAt input start min max))

/-- A token as the tests write it: `{ value, start, end, pos }`. -/
def expected (value : String) (start stop pos : Nat) : analyzer_token :=
  { value := value.toList, start := start, stop := stop, pos := pos }

/-- The tokens the test `overlapping_ngrams` expects of the pipeline of the
analyzers `ngram(6..7)` and `ngram(2..3)` on the input `ABCDEFJH`. -/
def overlapping_ngrams : List analyzer_token :=
  [expected "AB" 0 2 0, expected "ABC" 0 3 0, expected "BC" 1 3 1, expected "BCD" 1 4 1,
   expected "CD" 2 4 2, expected "CDE" 2 5 2, expected "DE" 3 5 3, expected "DEF" 3 6 3,
   expected "EF" 4 6 4,
   expected "AB" 0 2 5, expected "ABC" 0 3 5, expected "BC" 1 3 6, expected "BCD" 1 4 6,
   expected "CD" 2 4 7, expected "CDE" 2 5 7, expected "DE" 3 5 8, expected "DEF" 3 6 8,
   expected "EF" 4 6 9, expected "EFJ" 4 7 9, expected "FJ" 5 7 10,
   expected "BC" 1 3 11, expected "BCD" 1 4 11, expected "CD" 2 4 12, expected "CDE" 2 5 12,
   expected "DE" 3 5 13, expected "DEF" 3 6 13, expected "EF" 4 6 14, expected "EFJ" 4 7 14,
   expected "FJ" 5 7 15,
   expected "BC" 1 3 16, expected "BCD" 1 4 16, expected "CD" 2 4 17, expected "CDE" 2 5 17,
   expected "DE" 3 5 18, expected "DEF" 3 6 18, expected "EF" 4 6 19, expected "EFJ" 4 7 19,
   expected "FJ" 5 7 20, expected "FJH" 5 8 20, expected "JH" 6 8 21,
   expected "CD" 2 4 22, expected "CDE" 2 5 22, expected "DE" 3 5 23, expected "DEF" 3 6 23,
   expected "EF" 4 6 24, expected "EFJ" 4 7 24, expected "FJ" 5 7 25, expected "FJH" 5 8 25,
   expected "JH" 6 8 26]

end pipeline_token_stream
end iresearch

/-! # Theorems: table matcher -/

namespace fst

theorem mem_setEmplace (x y : Int) (ys : List Int) :
    y ∈ setEmplace x ys ↔ y = x ∨ y ∈ ys := by
  induction ys with
  | nil => simp [setEmplace]
  | cons z zs ih =>
    unfold setEmplace
    split_ifs with h1 h2
    · simp
    · subst h2; simp
    · simp [ih]; tauto

theorem setEmplace_pairwise (x : Int) (ys : List Int) (h : ys.Pairwise (· < ·)) :
    (setEmplace x ys).Pairwise (· < ·) := by
  induction ys with
  | nil => simp [setEmplace]
  | cons z zs ih =>
    rw [List.pairwise_cons] at h
    unfold setEmplace
    split_ifs with h1 h2
    · refine List.pairwise_cons.2 ⟨?_, List.pairwise_cons.2 h⟩
      intro a ha
      rcases List.mem_cons.1 ha with rfl | ha
      · exact h1
      · exact lt_trans h1 (h.1 a ha)
    · exact List.pairwise_cons.2 h
    · refine List.pairwise_cons.2 ⟨?_, ih h.2⟩
      intro a ha
      rcases (mem_setEmplace x a zs).1 ha with rfl | ha
      · omega
      · exact h.1 a ha

theorem foldl_emplace_pairwise (TYPE : MatchType) (arcs : List Arc) (acc : List Int)
    (h : acc.Pairwise (· < ·)) :
    (arcs.foldl (fun labels arc => setEmplace (matchLabel TYPE arc) labels) acc).Pairwise
      (· < ·) := by
  induction arcs generalizing acc with
  | nil => simpa using h
  | cons a as ih => exact ih _ (setEmplace_pairwise _ _ h)

theorem mem_foldl_emplace (TYPE : MatchType) (arcs : List Arc) (acc : List Int) (l : Int) :
    l ∈ arcs.foldl (fun labels arc => setEmplace (matchLabel TYPE arc) labels) acc ↔
      l ∈ acc ∨ ∃ a ∈ arcs, matchLabel TYPE a = l := by
  induction arcs generalizing acc with
  | nil => simp
  | cons a as ih =>
    simp only [List.foldl_cons, ih, mem_setEmplace, List.mem_cons, exists_eq_or_imp]
    constructor
    · rintro ((h | h) | h)
      · exact Or.inr (Or.inl h.symm)
      · exact Or.inl h
      · exact Or.inr (Or.inr h)
    · rintro (h | h | h)
      · exact Or.inl (Or.inr h)
      · exact Or.inl (Or.inl h.symm)
      · exact Or.inr h

theorem foldl_states_pairwise (TYPE : MatchType) (states : List (List Arc)) (acc : List Int)
    (h : acc.Pairwise (· < ·)) :
    (states.foldl
      (fun labels arcs =>
        arcs.foldl (fun labels arc => setEmplace (matchLabel TYPE arc) labels) labels)
      acc).Pairwise (· < ·) := by
  induction states generalizing acc with
  | nil => simpa using h
  | cons a as ih => exact ih _ (foldl_emplace_pairwise TYPE _ _ h)

theorem mem_foldl_states (TYPE : MatchType) (states : List (List Arc)) (acc : List Int)
    (l : Int) :
    l ∈ states.foldl
      (fun labels arcs =>
        arcs.foldl (fun labels arc => setEmplace (matchLabel TYPE arc) labels) labels)
      acc ↔ l ∈ acc ∨ ∃ arcs ∈ states, ∃ a ∈ arcs, matchLabel TYPE a = l := by
  induction states generalizing acc with
  | nil => simp
  | cons s ss ih =>
    simp only [List.foldl_cons, ih, mem_foldl_emplace, List.mem_cons, exists_eq_or_imp]
    rw [or_assoc]

theorem getStartLabels_pairwise (TYPE : MatchType) (f : Fst) :
    (getStartLabels TYPE f).Pairwise (· < ·) :=
  foldl_states_pairwise TYPE f.states [] List.Pairwise.nil

theorem mem_arcs_iff (f : Fst) (a : Arc) :
    (∃ arcs ∈ f.states, a ∈ arcs) ↔ ∃ s, s < f.NumStates ∧ a ∈ f.arcs s := by
  constructor
  · rintro ⟨arcs, h, ha⟩
    obtain ⟨i, hi, rfl⟩ := List.getElem_of_mem h
    refine ⟨i, hi, ?_⟩
    have hi' : i < f.states.length := hi
    simpa [Fst.arcs, List.getD_eq_getElem?_getD, List.getElem?_eq_getElem hi'] using ha
  · rintro ⟨s, hs, ha⟩
    refine ⟨f.states[s], List.getElem_mem _, ?_⟩
    have hs' : s < f.states.length := hs
    simpa [Fst.arcs, List.getD_eq_getElem?_getD, List.getElem?_eq_getElem hs'] using ha

theorem mem_getStartLabels (TYPE : MatchType) (f : Fst) (l : Int) :
    l ∈ getStartLabels TYPE f ↔
      ∃ s, s < f.NumStates ∧ ∃ a ∈ f.arcs s, matchLabel TYPE a = l := by
  unfold getStartLabels
  rw [mem_foldl_states]
  simp only [List.not_mem_nil, false_or]
  constructor
  · rintro ⟨arcs, h, a, ha, hl⟩
    obtain ⟨s, hs, ha'⟩ := (mem_arcs_iff f a).1 ⟨arcs, h, ha⟩
    exact ⟨s, hs, a, ha', hl⟩
  · rintro ⟨s, hs, a, ha, hl⟩
    obtain ⟨arcs, h, ha'⟩ := (mem_arcs_iff f a).2 ⟨s, hs, ha⟩
    exact ⟨arcs, h, a, ha', hl⟩

/-- C4. -/
theorem getStartLabels_sorted_unique (TYPE : MatchType) (f : Fst) (n : Nat) :
    (getStartLabels TYPE f).Pairwise (· < ·) ∧
    (∀ l, l ∈ getStartLabels TYPE f ↔
      ∃ s, s < f.NumStates ∧ ∃ a ∈ f.arcs s, matchLabel TYPE a = l) ∧
    getStartLabels TYPE { states := List.replicate n [] } = [] := by
  refine ⟨getStartLabels_pairwise TYPE f, mem_getStartLabels TYPE f, ?_⟩
  apply List.eq_nil_iff_forall_not_mem.2
  intro l hl
  obtain ⟨s, hs, a, ha, -⟩ := (mem_getStartLabels TYPE _ l).1 hl
  have : s < n := by simpa [Fst.NumStates] using hs
  simp [Fst.arcs, List.getD_eq_getElem?_getD, List.getElem?_replicate, this] at ha

theorem toSizeT_of_nonneg (b : Int) (h0 : 0 ≤ b) (h1 : b < 2 ^ 31) :
    toSizeT b = b.toNat := by
  unfold toSizeT
  rw [Int.emod_eq_of_lt h0 (by omega)]

theorem toSizeT_of_neg (b : Int) (h0 : b < 0) (h1 : -2 ^ 31 ≤ b) :
    2 ^ 64 - 2 ^ 31 ≤ toSizeT b := by
  unfold toSizeT
  have h : b % 2 ^ 64 = b + 2 ^ 64 := by
    rw [← Int.add_emod_self]
    exact Int.emod_eq_of_lt (by omega) (by omega)
  rw [h]
  omega

theorem lowerBound_offset (l : Int) (xs : List Int) (h : xs.Pairwise (· < ·)) (k : Nat) :
    (match lowerBound l xs with
      | [] => k + xs.length
      | x :: rest => if x ≠ l then k + xs.length else k + xs.length - (x :: rest).length)
      = k + xs.indexOf l := by
  induction xs generalizing k with
  | nil => simp [lowerBound]
  | cons x xs ih =>
    rw [List.pairwise_cons] at h
    unfold lowerBound
    by_cases hx : x < l
    · have hne : x ≠ l := by omega
      have := ih h.2 (k + 1)
      simp only [hx, if_true, List.length_cons, List.indexOf_cons_ne _ hne]
      rw [show k + (xs.length + 1) = k + 1 + xs.length by omega,
        show k + (List.indexOf l xs + 1) = k + 1 + List.indexOf l xs by omega]
      exact this
    · simp only [hx, if_false]
      by_cases hl : x = l
      · subst hl; simp
      · have hnot : l ∉ x :: xs := by
          intro hm
          rcases List.mem_cons.1 hm with rfl | hm
          · exact hl rfl
          · have := h.1 l hm; omega
        simp [hl, List.indexOf_eq_length.2 hnot]

theorem find_label_offset_eq (m : TableMatcher) (l : Int)
    (h : m.start_labels_.Pairwise (· < ·)) :
    m.find_label_offset l = m.start_labels_.indexOf l := by
  have := lowerBound_offset l m.start_labels_ h 0
  simp only [Nat.zero_add] at this
  unfold TableMatcher.find_label_offset
  exact this

theorem cacheLoop_length (size n i offset : Nat) (rest : List Int) :
    (cacheLoop size n i offset rest).length = n := by
  induction n generalizing i offset rest with
  | zero => simp [cacheLoop]
  | succ n ih =>
    cases rest with
    | nil => simp [cacheLoop, ih]
    | cons b rest =>
      unfold cacheLoop
      split_ifs <;> simp [ih]

theorem cacheLoop_getElem (size n i offset : Nat) (rest : List Int) (k : Nat) (hk : k < n)
    (hs : rest.Pairwise (· < ·)) (hb : ∀ b ∈ rest, (i : Int) ≤ b ∧ b < 2 ^ 31) :
    (cacheLoop size n i offset rest)[k]? =
      some (if ((i + k : Nat) : Int) ∈ rest then offset + rest.indexOf ((i + k : Nat) : Int)
            else size) := by
  induction n generalizing i offset rest k with
  | zero => omega
  | succ n ih =>
    cases rest with
    | nil =>
      cases k with
      | zero => simp [cacheLoop]
      | succ k =>
        have := ih (i + 1) offset [] k (by omega) List.Pairwise.nil (by simp)
        simpa [cacheLoop] using this
    | cons b rest =>
      rw [List.pairwise_cons] at hs
      have hb0 := hb b (List.mem_cons_self _ _)
      unfold cacheLoop
      by_cases hbi : toSizeT b = i
      · rw [toSizeT_of_nonneg b (by omega) hb0.2] at hbi
        have hbi' : b = (i : Int) := by omega
        simp only [toSizeT_of_nonneg b (by omega) hb0.2, hbi, if_true]
        cases k with
        | zero => simp [hbi']
        | succ k =>
          have hrest : ∀ c ∈ rest, ((i + 1 : Nat) : Int) ≤ c ∧ c < 2 ^ 31 := by
            intro c hc
            have h1 := hs.1 c hc
            have h2 := hb c (List.mem_cons_of_mem _ hc)
            constructor
            · push_cast; omega
            · exact h2.2
          have := ih (i + 1) (offset + 1) rest k (by omega) hs.2 hrest
          have hne : b ≠ ((i + (k + 1) : Nat) : Int) := by push_cast; omega
          simp only [List.getElem?_cons_succ, this, List.mem_cons, hne.symm, false_or,
            List.indexOf_cons_ne _ hne]
          rw [show i + 1 + k = i + (k + 1) by omega]
          congr 1
          split_ifs <;> omega
      · have hgt : (i : Int) < b := by
          rw [toSizeT_of_nonneg b (by omega) hb0.2] at hbi
          omega
        simp only [hbi, if_false]
        cases k with
        | zero =>
          have hnot : ¬ ((i : Int) = b ∨ (i : Int) ∈ rest) := by
            rintro (h | h)
            · omega
            · have := hs.1 _ h; omega
          simp [hnot]
        | succ k =>
          have hrest : ∀ c ∈ b :: rest, ((i + 1 : Nat) : Int) ≤ c ∧ c < 2 ^ 31 := by
            intro c hc
            have h2 := hb c hc
            refine ⟨?_, h2.2⟩
            rcases List.mem_cons.1 hc with rfl | hc
            · push_cast; omega
            · have := hs.1 c hc; push_cast; omega
          have := ih (i + 1) offset (b :: rest) k (by omega) (List.pairwise_cons.2 hs) hrest
          simp only [List.getElem?_cons_succ, this]
          rw [show i + 1 + k = i + (k + 1) by omega]

theorem skipArcs_suffix (TYPE : MatchType) (b : Int) (arcs : List Arc) :
    skipArcs TYPE b arcs <:+ arcs := by
  induction arcs with
  | nil => simp [skipArcs]
  | cons x xs ih =>
    unfold skipArcs
    split_ifs
    · exact ih.trans (List.suffix_cons x xs)
    · exact List.suffix_refl _

theorem skipArcs_dropped (TYPE : MatchType) (b : Int) (arcs : List Arc) (a : Arc)
    (ha : a ∈ arcs) : a ∈ skipArcs TYPE b arcs ∨ matchLabel TYPE a < b := by
  induction arcs with
  | nil => simp at ha
  | cons x xs ih =>
    unfold skipArcs
    split_ifs with h
    · rcases List.mem_cons.1 ha with rfl | ha
      · exact Or.inr h
      · exact ih ha
    · exact Or.inl ha

theorem skipArcs_head (TYPE : MatchType) (b : Int) (arcs : List Arc) (arc : Arc)
    (rest : List Arc) (h : skipArcs TYPE b arcs = arc :: rest) : b ≤ matchLabel TYPE arc := by
  induction arcs with
  | nil => simp [skipArcs] at h
  | cons x xs ih =>
    unfold skipArcs at h
    split_ifs at h with hx
    · exact ih h
    · simp only [List.cons.injEq] at h
      rw [← h.1]; omega

theorem skipLabels_suffix (l : Int) (begin : List Int) : skipLabels l begin <:+ begin := by
  induction begin with
  | nil => simp [skipLabels]
  | cons x xs ih =>
    unfold skipLabels
    split_ifs
    · exact ih.trans (List.suffix_cons x xs)
    · exact List.suffix_refl _

theorem skipLabels_dropped (l : Int) (begin : List Int) (x : Int) (hx : x ∈ begin) :
    x ∈ skipLabels l begin ∨ x < l := by
  induction begin with
  | nil => simp at hx
  | cons y ys ih =>
    unfold skipLabels
    split_ifs with h
    · rcases List.mem_cons.1 hx with rfl | hx
      · exact Or.inr (by omega)
      · exact ih hx
    · exact Or.inl hx

theorem skipLabels_head (l : Int) (begin : List Int) (b1 : Int) (rest : List Int)
    (h : skipLabels l begin = b1 :: rest) : l ≤ b1 := by
  induction begin with
  | nil => simp [skipLabels] at h
  | cons y ys ih =>
    unfold skipLabels at h
    split_ifs at h with hy
    · exact ih h
    · simp only [List.cons.injEq] at h
      rw [← h.1]; omega

theorem skipLabels_of_le (l b : Int) (rest : List Int) (h : l ≤ b) :
    skipLabels l (b :: rest) = b :: rest := by
  unfold skipLabels
  simp [show ¬ l > b by omega]

theorem skipLabels_length_lt (l b : Int) (rest : List Int) (h : b < l) :
    (skipLabels l (b :: rest)).length < (b :: rest).length := by
  unfold skipLabels
  simp only [gt_iff_lt, h, if_true, List.length_cons]
  exact Nat.lt_succ_of_le (skipLabels_suffix l rest).length_le

theorem indexOf_suffix_head (L : List Int) (hn : L.Nodup) (b1 : Int) (r : List Int)
    (h : (b1 :: r) <:+ L) : L.indexOf b1 = L.length - (b1 :: r).length := by
  obtain ⟨pre, rfl⟩ := h
  have hnot : b1 ∉ pre := by
    intro hm
    have := (List.nodup_append.1 hn).2.2
    exact this hm (List.mem_cons_self _ _)
  rw [List.indexOf_append_of_not_mem hnot]
  simp

theorem mergePass_none (TYPE : MatchType) (L : List Int) (s : Nat) (st : MergeState)
    (hb : st.begin.Pairwise (· < ·))
    (ha : st.aiter.Pairwise (fun x y => matchLabel TYPE x < matchLabel TYPE y))
    (h : mergePass TYPE L s st = none) (a : Arc) : ¬ Pending TYPE st.aiter st.begin a := by
  obtain ⟨aiter, begin, T⟩ := st
  simp only at hb ha ⊢
  rintro ⟨hmem, hlab⟩
  cases aiter with
  | nil => simp at hmem
  | cons arc0 arcs0 =>
    cases begin with
    | nil => simp at hlab
    | cons b bs =>
      simp only [mergePass] at h
      have hbge : ∀ x ∈ b :: bs, b ≤ x := by
        intro x hx
        rcases List.mem_cons.1 hx with rfl | hx
        · exact le_refl _
        · exact le_of_lt ((List.pairwise_cons.1 hb).1 x hx)
      generalize hsa : skipArcs TYPE b (arc0 :: arcs0) = sa at h
      cases sa with
      | nil =>
        rcases skipArcs_dropped TYPE b _ a hmem with h1 | h1
        · rw [hsa] at h1; simp at h1
        · have := hbge _ hlab; omega
      | cons arc arcs =>
        simp only at h
        generalize hsl : skipLabels (matchLabel TYPE arc) (b :: bs) = sl at h
        cases sl with
        | nil =>
          have hsuf := skipArcs_suffix TYPE b (arc0 :: arcs0)
          rw [hsa] at hsuf
          have hage : ∀ x ∈ arc :: arcs, matchLabel TYPE arc ≤ matchLabel TYPE x := by
            intro x hx
            have hp := ha.sublist hsuf.sublist
            rcases List.mem_cons.1 hx with rfl | hx
            · exact le_refl _
            · exact le_of_lt ((List.pairwise_cons.1 hp).1 x hx)
          rcases skipArcs_dropped TYPE b _ a hmem with h1 | h1
          · rw [hsa] at h1
            rcases skipLabels_dropped (matchLabel TYPE arc) _ _ hlab with h2 | h2
            · rw [hsl] at h2; simp at h2
            · have := hage a h1; omega
          · have := hbge _ hlab; omega
        | cons b1 begin1 =>
          simp only at h
          split_ifs at h

theorem mergePass_some (TYPE : MatchType) (L : List Int) (s : Nat) (st st1 : MergeState)
    (hL : L.Nodup) (hsufL : st.begin <:+ L)
    (hb : st.begin.Pairwise (· < ·))
    (ha : st.aiter.Pairwise (fun x y => matchLabel TYPE x < matchLabel TYPE y))
    (h : mergePass TYPE L s st = some st1) :
    st1.aiter <:+ st.aiter ∧ st1.begin <:+ st.begin ∧
    st1.aiter.length + st1.begin.length < st.aiter.length + st.begin.length ∧
    ((st1.transitions_ = st.transitions_ ∧
        ∀ a, Pending TYPE st.aiter st.begin a ↔ Pending TYPE st1.aiter st1.begin a) ∨
      ∃ arc, Pending TYPE st.aiter st.begin arc ∧
        st1.transitions_ =
          st.transitions_.set (s * L.length + L.indexOf (matchLabel TYPE arc)) arc.nextstate ∧
        (∀ a, Pending TYPE st.aiter st.begin a ↔
          (a = arc ∨ Pending TYPE st1.aiter st1.begin a)) ∧
        ∀ a, Pending TYPE st1.aiter st1.begin a → matchLabel TYPE a ≠ matchLabel TYPE arc) := by
  obtain ⟨aiter, begin, T⟩ := st
  simp only at hb ha hsufL ⊢
  cases aiter with
  | nil => simp [mergePass] at h
  | cons arc0 arcs0 =>
    cases begin with
    | nil => simp [mergePass] at h
    | cons b bs =>
      simp only [mergePass] at h
      have hbge : ∀ x ∈ b :: bs, b ≤ x := by
        intro x hx
        rcases List.mem_cons.1 hx with rfl | hx
        · exact le_refl _
        · exact le_of_lt ((List.pairwise_cons.1 hb).1 x hx)
      generalize hsa : skipArcs TYPE b (arc0 :: arcs0) = sa at h
      cases sa with
      | nil => simp at h
      | cons arc arcs =>
        simp only at h
        generalize hsl : skipLabels (matchLabel TYPE arc) (b :: bs) = sl at h
        cases sl with
        | nil => simp at h
        | cons b1 begin1 =>
          simp only at h
          have hsufA := skipArcs_suffix TYPE b (arc0 :: arcs0)
          rw [hsa] at hsufA
          have hsufB := skipLabels_suffix (matchLabel TYPE arc) (b :: bs)
          rw [hsl] at hsufB
          have hpA := ha.sublist hsufA.sublist
          have hpB := hb.sublist hsufB.sublist
          have hagt : ∀ x ∈ arcs, matchLabel TYPE arc < matchLabel TYPE x :=
            (List.pairwise_cons.1 hpA).1
          have hbgt : ∀ x ∈ begin1, b1 < x := (List.pairwise_cons.1 hpB).1
          have hle1 := skipArcs_head TYPE b _ _ _ hsa
          have hle2 := skipLabels_head _ _ _ _ hsl
          -- pending arcs survive the two inner loops
          have hkeep : ∀ a, Pending TYPE (arc0 :: arcs0) (b :: bs) a ↔
              Pending TYPE (arc :: arcs) (b1 :: begin1) a := by
            intro a
            constructor
            · rintro ⟨hmem, hlab⟩
              rcases skipArcs_dropped TYPE b _ a hmem with h1 | h1
              · rw [hsa] at h1
                refine ⟨h1, ?_⟩
                rcases skipLabels_dropped (matchLabel TYPE arc) _ _ hlab with h2 | h2
                · rw [hsl] at h2; exact h2
                · rcases List.mem_cons.1 h1 with rfl | h1
                  · omega
                  · have := hagt a h1; omega
              · have := hbge _ hlab; omega
            · rintro ⟨hmem, hlab⟩
              exact ⟨hsufA.subset hmem, hsufB.subset hlab⟩
          have hlenA := hsufA.length_le
          have hlenB := hsufB.length_le
          split_ifs at h with heq
          · -- the cell of `arc` is written
            simp only [Option.some.injEq] at h
            subst h
            simp only
            refine ⟨(List.suffix_cons arc arcs).trans hsufA,
              (List.suffix_cons b1 begin1).trans hsufB, ?_, Or.inr ⟨arc, ?_, ?_, ?_, ?_⟩⟩
            · simp only [List.length_cons] at hlenA hlenB ⊢; omega
            · exact (hkeep arc).2 ⟨List.mem_cons_self _ _, by rw [heq]; exact List.mem_cons_self _ _⟩
            · rw [heq, indexOf_suffix_head L hL b1 begin1 (hsufB.trans hsufL)]
            · intro a
              rw [hkeep a]
              constructor
              · rintro ⟨hmem, hlab⟩
                rcases List.mem_cons.1 hmem with rfl | hmem
                · exact Or.inl rfl
                · refine Or.inr ⟨hmem, ?_⟩
                  rcases List.mem_cons.1 hlab with h3 | h3
                  · have := hagt a hmem; omega
                  · exact h3
              · rintro (rfl | ⟨hmem, hlab⟩)
                · exact ⟨List.mem_cons_self _ _, by rw [heq]; exact List.mem_cons_self _ _⟩
                · exact ⟨List.mem_cons_of_mem _ hmem, List.mem_cons_of_mem _ hlab⟩
            · rintro a ⟨hmem, -⟩
              have := hagt a hmem; omega
          · -- no cell is written, the label iterator has moved
            simp only [Option.some.injEq] at h
            subst h
            simp only
            refine ⟨hsufA, hsufB, ?_, Or.inl ⟨trivial, hkeep⟩⟩
            have hlt : b < matchLabel TYPE arc := by
              rcases lt_or_eq_of_le hle1 with h1 | h1
              · exact h1
              · exfalso
                rw [← h1, skipLabels_of_le b b bs (le_refl _)] at hsl
                simp only [List.cons.injEq] at hsl
                exact heq (h1 ▸ hsl.1)
            have := skipLabels_length_lt (matchLabel TYPE arc) b bs hlt
            rw [hsl] at this
            simp only [List.length_cons] at hlenA this ⊢; omega

theorem mergePass_measure (TYPE : MatchType) (L : List Int) (s : Nat) (st st1 : MergeState)
    (h : mergePass TYPE L s st = some st1) :
    st1.aiter.length + st1.begin.length < st.aiter.length + st.begin.length := by
  obtain ⟨aiter, begin, T⟩ := st
  cases aiter with
  | nil => simp [mergePass] at h
  | cons arc0 arcs0 =>
    cases begin with
    | nil => simp [mergePass] at h
    | cons b bs =>
      simp only [mergePass] at h
      generalize hsa : skipArcs TYPE b (arc0 :: arcs0) = sa at h
      cases sa with
      | nil => simp at h
      | cons arc arcs =>
        simp only at h
        generalize hsl : skipLabels (matchLabel TYPE arc) (b :: bs) = sl at h
        cases sl with
        | nil => simp at h
        | cons b1 begin1 =>
          simp only at h
          have hlenA := (skipArcs_suffix TYPE b (arc0 :: arcs0)).length_le
          have hlenB := (skipLabels_suffix (matchLabel TYPE arc) (b :: bs)).length_le
          rw [hsa] at hlenA
          rw [hsl] at hlenB
          have hle1 := skipArcs_head TYPE b _ _ _ hsa
          split_ifs at h with heq
          · simp only [Option.some.injEq] at h
            subst h
            simp only [List.length_cons] at hlenA hlenB ⊢
            omega
          · simp only [Option.some.injEq] at h
            subst h
            have hlt : b < matchLabel TYPE arc := by
              rcases lt_or_eq_of_le hle1 with h1 | h1
              · exact h1
              · exfalso
                rw [← h1, skipLabels_of_le b b bs (le_refl _)] at hsl
                simp only [List.cons.injEq] at hsl
                exact heq (h1 ▸ hsl.1)
            have := skipLabels_length_lt (matchLabel TYPE arc) b bs hlt
            rw [hsl] at this
            simp only [List.length_cons] at hlenA this ⊢
            omega

theorem mergeLoop_fuel (TYPE : MatchType) (L : List Int) (s : Nat) (fuel : Nat)
    (st : MergeState) (h : st.aiter.length + st.begin.length ≤ fuel) :
    mergePass TYPE L s (mergeLoop TYPE L s fuel st) = none := by
  induction fuel generalizing st with
  | zero =>
    have h1 : st.aiter = [] := List.length_eq_zero.1 (by omega)
    simp [mergeLoop, mergePass, h1]
  | succ fuel ih =>
    unfold mergeLoop
    cases hpass : mergePass TYPE L s st with
    | none => exact hpass
    | some st1 =>
      have := mergePass_measure TYPE L s st st1 hpass
      exact ih st1 (by omega)

theorem mergeLoop_spec (TYPE : MatchType) (L : List Int) (s : Nat)
    (hL : L.Pairwise (· < ·)) :
    ∀ (fuel : Nat) (st : MergeState),
      st.aiter.length + st.begin.length ≤ fuel → st.begin <:+ L →
      st.aiter.Pairwise (fun x y => matchLabel TYPE x < matchLabel TYPE y) →
      s * L.length + L.length ≤ st.transitions_.length →
      (mergeLoop TYPE L s fuel st).transitions_.length = st.transitions_.length ∧
      (∀ a, Pending TYPE st.aiter st.begin a →
        (mergeLoop TYPE L s fuel st).transitions_[s * L.length
          + L.indexOf (matchLabel TYPE a)]? = some a.nextstate) ∧
      (∀ idx, (∀ a, Pending TYPE st.aiter st.begin a →
          idx ≠ s * L.length + L.indexOf (matchLabel TYPE a)) →
        (mergeLoop TYPE L s fuel st).transitions_[idx]? = st.transitions_[idx]?) := by
  have hLn : L.Nodup := hL.imp (fun h => ne_of_lt h)
  intro fuel
  induction fuel with
  | zero =>
    intro st hfuel _ _ _
    have h1 : st.aiter = [] := List.length_eq_zero.1 (by omega)
    refine ⟨rfl, ?_, fun _ _ => rfl⟩
    rintro a ⟨hmem, -⟩
    rw [h1] at hmem; simp at hmem
  | succ fuel ih =>
    intro st hfuel hsuf hpa hlen
    have hpb : st.begin.Pairwise (· < ·) := hL.sublist hsuf.sublist
    unfold mergeLoop
    cases hpass : mergePass TYPE L s st with
    | none =>
      refine ⟨rfl, ?_, fun _ _ => rfl⟩
      intro a hp
      exact absurd hp (mergePass_none TYPE L s st hpb hpa hpass a)
    | some st1 =>
      simp only
      obtain ⟨hsA, hsB, hlt, hcase⟩ := mergePass_some TYPE L s st st1 hLn hsuf hpb hpa hpass
      have hpa1 := hpa.sublist hsA.sublist
      rcases hcase with ⟨hT, hkeep⟩ | ⟨arc, hparc, hT, hkeep, hne⟩
      · obtain ⟨i1, i2, i3⟩ := ih st1 (by omega) (hsB.trans hsuf) hpa1 (by rw [hT]; exact hlen)
        rw [hT] at i1 i3
        refine ⟨i1, ?_, ?_⟩
        · intro a hp
          exact i2 a ((hkeep a).1 hp)
        · intro idx hidx
          exact i3 idx (fun a hp => hidx a ((hkeep a).2 hp))
      · have hlen1 : st1.transitions_.length = st.transitions_.length := by
          rw [hT]; simp
        obtain ⟨i1, i2, i3⟩ := ih st1 (by omega) (hsB.trans hsuf) hpa1 (by rw [hlen1]; exact hlen)
        have hidxlt : L.indexOf (matchLabel TYPE arc) < L.length :=
          List.indexOf_lt_length.2 (hsuf.subset hparc.2)
        refine ⟨i1.trans hlen1, ?_, ?_⟩
        · intro a hp
          rcases (hkeep a).1 hp with rfl | hp1
          · rw [i3, hT, List.getElem?_set_self (by omega)]
            intro a1 hp1 heq
            have h1 : L.indexOf (matchLabel TYPE a) = L.indexOf (matchLabel TYPE a1) := by
              omega
            exact hne a1 hp1 ((List.indexOf_inj (hsuf.subset ((hkeep a1).2 (Or.inr hp1)).2)
              (hsuf.subset hparc.2)).1 h1.symm)
          · exact i2 a hp1
        · intro idx hidx
          rw [i3 idx (fun a hp => hidx a ((hkeep a).2 (Or.inr hp))), hT,
            List.getElem?_set_ne]
          exact fun h => hidx arc hparc h.symm

theorem fillN_length (v : List Int) (start n : Nat) (value : Int) :
    (fillN v start n value).length = v.length := by
  induction n generalizing v start with
  | zero => rfl
  | succ n ih => simp [fillN, ih]

theorem fillN_getElem (v : List Int) (start n : Nat) (value : Int) (idx : Nat)
    (hidx : idx < v.length) :
    (fillN v start n value)[idx]? =
      if start ≤ idx ∧ idx < start + n then some value else v[idx]? := by
  induction n generalizing v start with
  | zero =>
    unfold fillN
    rw [if_neg (by omega)]
  | succ n ih =>
    unfold fillN
    rw [ih _ _ (by simpa using hidx)]
    by_cases h1 : start = idx
    · subst h1
      simp [List.getElem?_set_self hidx]
    · rw [List.getElem?_set_ne h1]
      by_cases h2 : start + 1 ≤ idx ∧ idx < start + 1 + n
      · rw [if_pos h2, if_pos (by omega)]
      · rw [if_neg h2, if_neg (by omega)]

theorem initState_spec (Rho : Int) (TYPE : MatchType) (f : Fst) (L : List Int) (T : List Int)
    (s : Nat) (hL : L.Pairwise (· < ·))
    (hA : (f.arcs s).Pairwise (fun x y => matchLabel TYPE x < matchLabel TYPE y))
    (hmem : ∀ a ∈ f.arcs s, matchLabel TYPE a ∈ L)
    (hlen : s * L.length + L.length ≤ T.length)
    (hblank : ∀ j, j < L.length → T[s * L.length + j]? = some kNoStateId) :
    (initState Rho TYPE f L T s).length = T.length ∧
    (∀ a ∈ f.arcs s,
      (initState Rho TYPE f L T s)[s * L.length + L.indexOf (matchLabel TYPE a)]?
        = some a.nextstate) ∧
    (∀ j, j < L.length → (∀ a ∈ f.arcs s, matchLabel TYPE a ≠ L.getD j 0) →
      (initState Rho TYPE f L T s)[s * L.length + j]? = some (rowDefault Rho TYPE f s)) ∧
    (∀ idx, (idx < s * L.length ∨ s * L.length + L.length ≤ idx) →
      (initState Rho TYPE f L T s)[idx]? = T[idx]?) := by
  have hLn : L.Nodup := hL.imp (fun h => ne_of_lt h)
  -- the table after the optional fill
  obtain ⟨F, hF, hFlen, hFrow, hFout⟩ : ∃ F : List Int,
      initState Rho TYPE f L T s =
        (mergeLoop TYPE L s ((f.arcs s).length + L.length)
          { aiter := f.arcs s, begin := L, transitions_ := F }).transitions_ ∧
      F.length = T.length ∧
      (∀ j, j < L.length → F[s * L.length + j]? = some (rowDefault Rho TYPE f s)) ∧
      (∀ idx, (idx < s * L.length ∨ s * L.length + L.length ≤ idx) → F[idx]? = T[idx]?) := by
    cases hlast : (f.arcs s).getLast? with
    | none =>
      refine ⟨T, by simp only [initState, hlast], rfl, ?_, fun _ _ => rfl⟩
      simpa only [rowDefault, hlast] using hblank
    | some arc =>
      by_cases hr : Rho = matchLabel TYPE arc
      · refine ⟨fillN T (s * L.length) L.length arc.nextstate,
          by simp only [initState, hlast, hr, if_true], fillN_length _ _ _ _, ?_, ?_⟩
        · intro j hj
          rw [fillN_getElem _ _ _ _ _ (by omega), if_pos (by omega)]
          simp only [rowDefault, hlast, hr, if_true]
        · intro idx hidx
          by_cases hi : idx < T.length
          · rw [fillN_getElem _ _ _ _ _ hi, if_neg (by omega)]
          · rw [List.getElem?_eq_none (by rw [fillN_length]; omega),
              List.getElem?_eq_none (by omega)]
      · refine ⟨T, by simp only [initState, hlast, hr, if_false], rfl, ?_, fun _ _ => rfl⟩
        simpa only [rowDefault, hlast, hr, if_false] using hblank
  obtain ⟨m1, m2, m3⟩ := mergeLoop_spec TYPE L s hL ((f.arcs s).length + L.length)
    { aiter := f.arcs s, begin := L, transitions_ := F } (le_refl _) (List.suffix_refl _) hA
    (by simpa [hFlen] using hlen)
  simp only at m1 m2 m3
  rw [hF]
  refine ⟨m1.trans hFlen, ?_, ?_, ?_⟩
  · intro a ha
    exact m2 a ⟨ha, hmem a ha⟩
  · intro j hj hno
    rw [m3, hFrow j hj]
    rintro a ⟨ha, hla⟩ heq
    have h1 : j = L.indexOf (matchLabel TYPE a) := by omega
    apply hno a ha
    rw [h1, List.getD_eq_getElem _ _ (List.indexOf_lt_length.2 hla)]
    exact (List.getElem_indexOf _).symm
  · intro idx hidx
    rw [m3, hFout idx hidx]
    rintro a ⟨ha, hla⟩ heq
    have := List.indexOf_lt_length.2 hla
    omega

theorem arcs_mem_states (f : Fst) (s : Nat) (hs : s < f.NumStates) : f.arcs s ∈ f.states := by
  have hs' : s < f.states.length := hs
  simp only [Fst.arcs, List.getD_eq_getElem?_getD, List.getElem?_eq_getElem hs',
    Option.getD_some]
  exact List.getElem_mem _

theorem arcs_strict (TYPE : MatchType) (f : Fst) (hp : f.TableProps TYPE) (s : Nat)
    (hs : s < f.NumStates) :
    (f.arcs s).Pairwise (fun x y => matchLabel TYPE x < matchLabel TYPE y) := by
  have h1 := hp.2.1 _ (arcs_mem_states f s hs)
  have h2 := hp.2.2.1 _ (arcs_mem_states f s hs)
  rw [List.pairwise_map] at h1
  rw [List.Nodup, List.pairwise_map] at h2
  exact (h1.and h2).imp (fun h => lt_of_le_of_ne h.1 h.2)

theorem foldStates_spec (Rho : Int) (TYPE : MatchType) (f : Fst) (hp : f.TableProps TYPE)
    (k : Nat) (hk : k ≤ f.NumStates) :
    ((List.range k).foldl
      (fun t state => initState Rho TYPE f (getStartLabels TYPE f) t state)
      (List.replicate (f.NumStates * (getStartLabels TYPE f).length) kNoStateId)).length
        = f.NumStates * (getStartLabels TYPE f).length ∧
    (∀ s, s < k → RowSpec Rho TYPE f (getStartLabels TYPE f)
      ((List.range k).foldl
        (fun t state => initState Rho TYPE f (getStartLabels TYPE f) t state)
        (List.replicate (f.NumStates * (getStartLabels TYPE f).length) kNoStateId)) s) ∧
    (∀ idx, k * (getStartLabels TYPE f).length ≤ idx →
      idx < f.NumStates * (getStartLabels TYPE f).length →
      ((List.range k).foldl
        (fun t state => initState Rho TYPE f (getStartLabels TYPE f) t state)
        (List.replicate (f.NumStates * (getStartLabels TYPE f).length) kNoStateId))[idx]?
          = some kNoStateId) := by
  induction k with
  | zero =>
    refine ⟨by simp, fun s hs => absurd hs (Nat.not_lt_zero s), ?_⟩
    intro idx _ hidx
    simp [List.getElem?_replicate, hidx]
  | succ k ih =>
    obtain ⟨i1, i2, i3⟩ := ih (by omega)
    rw [List.range_succ, List.foldl_append]
    simp only [List.foldl_cons, List.foldl_nil]
    generalize hT : (List.range k).foldl
      (fun t state => initState Rho TYPE f (getStartLabels TYPE f) t state)
      (List.replicate (f.NumStates * (getStartLabels TYPE f).length) kNoStateId) = T
      at i1 i2 i3 ⊢
    generalize hLdef : getStartLabels TYPE f = L at i1 i2 i3 ⊢
    have hL : L.Pairwise (· < ·) := hLdef ▸ getStartLabels_pairwise TYPE f
    have hmul : (k + 1) * L.length ≤ f.NumStates * L.length := Nat.mul_le_mul_right _ hk
    have hsucc : (k + 1) * L.length = k * L.length + L.length := Nat.succ_mul _ _
    have hmem : ∀ a ∈ f.arcs k, matchLabel TYPE a ∈ L := by
      intro a ha
      rw [← hLdef]
      exact (mem_getStartLabels TYPE f _).2 ⟨k, hk, a, ha, rfl⟩
    obtain ⟨j1, j2, j3, j4⟩ := initState_spec Rho TYPE f L T k hL
      (arcs_strict TYPE f hp k hk) hmem (by omega)
      (fun j hj => i3 _ (by omega) (by omega))
    refine ⟨j1.trans i1, ?_, ?_⟩
    · intro s hs
      rcases Nat.lt_succ_iff_lt_or_eq.1 hs with hlt | rfl
      · have hrow : (s + 1) * L.length ≤ k * L.length := Nat.mul_le_mul_right _ hlt
        have hsucc' : (s + 1) * L.length = s * L.length + L.length := Nat.succ_mul _ _
        obtain ⟨r1, r2⟩ := i2 s hlt
        refine ⟨?_, ?_⟩
        · intro a ha
          have hlt2 : L.indexOf (matchLabel TYPE a) < L.length := by
            apply List.indexOf_lt_length.2
            rw [← hLdef]
            exact (mem_getStartLabels TYPE f _).2 ⟨s, by omega, a, ha, rfl⟩
          rw [j4 _ (Or.inl (by omega))]
          exact r1 a ha
        · intro j hj hno
          rw [j4 _ (Or.inl (by omega))]
          exact r2 j hj hno
      · exact ⟨j2, j3⟩
    · intro idx h1 h2
      rw [j4 _ (Or.inr (by omega))]
      exact i3 idx (by omega) h2

theorem table_spec (Rho : Int) (CacheSize : Nat) (TYPE : MatchType) (f : Fst)
    (hp : f.TableProps TYPE) :
    (TableMatcher.new Rho CacheSize TYPE f).transitions_.length
      = f.NumStates * (getStartLabels TYPE f).length ∧
    ∀ s, s < f.NumStates → RowSpec Rho TYPE f (getStartLabels TYPE f)
      (TableMatcher.new Rho CacheSize TYPE f).transitions_ s := by
  obtain ⟨h1, h2, -⟩ := foldStates_spec Rho TYPE f hp f.NumStates (le_refl _)
  exact ⟨h1, h2⟩

theorem labels_range (TYPE : MatchType) (f : Fst) (hv : f.Valid) (b : Int)
    (hb : b ∈ getStartLabels TYPE f) : 0 ≤ b ∧ b < 2 ^ 31 := by
  obtain ⟨s, hs, a, ha, rfl⟩ := (mem_getStartLabels TYPE f b).1 hb
  have := hv _ (arcs_mem_states f s hs) a ha
  cases TYPE
  · exact this.1
  · exact this.2.1

theorem lookup_spec (Rho : Int) (CacheSize : Nat) (TYPE : MatchType) (f : Fst)
    (hv : f.Valid) (l : Int) (hl : IsLabel l) (hC : 0 ≤ l ∨ 8 * CacheSize < 2 ^ 64) :
    (if toSizeT l < (TableMatcher.new Rho CacheSize TYPE f).cached_label_offsets_.length then
        (TableMatcher.new Rho CacheSize TYPE f).cached_label_offsets_[toSizeT l]?
      else some ((TableMatcher.new Rho CacheSize TYPE f).find_label_offset l))
      = some ((getStartLabels TYPE f).indexOf l) := by
  have hL := getStartLabels_pairwise TYPE f
  have hfind : (TableMatcher.new Rho CacheSize TYPE f).find_label_offset l
      = (getStartLabels TYPE f).indexOf l :=
    find_label_offset_eq (TableMatcher.new Rho CacheSize TYPE f) l hL
  have hlen : (TableMatcher.new Rho CacheSize TYPE f).cached_label_offsets_.length
      = CacheSize := cacheLoop_length _ _ _ _ _
  rw [hlen, hfind]
  split_ifs with hlt
  · have h0 : 0 ≤ l := by
      by_contra hneg
      have h1 := toSizeT_of_neg l (by omega) hl.1
      rcases hC with h | h
      · omega
      · omega
    rw [toSizeT_of_nonneg l h0 hl.2] at hlt ⊢
    have := cacheLoop_getElem (getStartLabels TYPE f).length CacheSize 0 0
      (getStartLabels TYPE f) l.toNat hlt hL
      (fun b hb => by
        have := labels_range TYPE f hv b hb
        exact ⟨by simpa using this.1, this.2⟩)
    have hcast : ((0 + l.toNat : Nat) : Int) = l := by
      rw [Nat.zero_add]; exact Int.toNat_of_nonneg h0
    rw [hcast] at this
    show (cacheLoop (getStartLabels TYPE f).length CacheSize 0 0 (getStartLabels TYPE f))[
      l.toNat]? = _
    rw [this]
    by_cases hm : l ∈ getStartLabels TYPE f
    · simp [hm]
    · simp [hm, List.indexOf_eq_length.2 hm]
  · rfl

theorem Find_inside (Rho : Int) (m : TableMatcher) (l : Int) (off b e : Nat) (v : Int)
    (hlook : (if toSizeT l < m.cached_label_offsets_.length then
        m.cached_label_offsets_[toSizeT l]? else some (m.find_label_offset l)) = some off)
    (hoff : off ≠ m.start_labels_.length)
    (hb : m.state_begin_ = some b) (he : m.state_end_ = some e) (hlt : b + off < e)
    (hv : m.transitions_[b + off]? = some v) :
    TableMatcher.Find Rho m l =
      some (decide (v ≠ kNoStateId),
        { m with state_ := some (b + off), arc_ := { m.arc_ with nextstate := v } }) := by
  unfold TableMatcher.Find
  simp only [hlook, hoff, if_false, hb, he, hlt, if_true, hv]

theorem Find_fallback (Rho : Int) (m : TableMatcher) (l : Int) (b e : Nat) (v : Int)
    (hlook : (if toSizeT l < m.cached_label_offsets_.length then
        m.cached_label_offsets_[toSizeT l]? else some (m.find_label_offset l))
        = some m.start_labels_.length)
    (hback : m.start_labels_.getLast? = some Rho)
    (hb : m.state_begin_ = some b) (he : m.state_end_ = some e)
    (hlt : b + (m.start_labels_.length - 1) < e)
    (hv : m.transitions_[b + (m.start_labels_.length - 1)]? = some v) :
    TableMatcher.Find Rho m l =
      some (decide (v ≠ kNoStateId),
        { m with state_ := some (b + (m.start_labels_.length - 1))
                 arc_ := { m.arc_ with nextstate := v } }) := by
  unfold TableMatcher.Find
  simp only [hlook, if_true, hback, ne_eq, not_true_eq_false, if_false, hb, he, hlt, hv]

theorem Find_absent (Rho : Int) (m : TableMatcher) (l : Int) (back : Int)
    (hlook : (if toSizeT l < m.cached_label_offsets_.length then
        m.cached_label_offsets_[toSizeT l]? else some (m.find_label_offset l))
        = some m.start_labels_.length)
    (hback : m.start_labels_.getLast? = some back) (hne : back ≠ Rho) :
    TableMatcher.Find Rho m l = some (false, m) := by
  unfold TableMatcher.Find
  simp only [hlook, if_true, hback, ne_eq, hne, not_false_eq_true]

theorem SetState_new (Rho : Int) (CacheSize : Nat) (TYPE : MatchType) (f : Fst)
    (hp : f.TableProps TYPE) (s : Nat) (hs : s < f.NumStates)
    (hne : getStartLabels TYPE f ≠ []) :
    (TableMatcher.new Rho CacheSize TYPE f).SetState s =
      some { TableMatcher.new Rho CacheSize TYPE f with
        state_begin_ := some (s * (getStartLabels TYPE f).length)
        state_ := some (s * (getStartLabels TYPE f).length)
        state_end_ := some (s * (getStartLabels TYPE f).length
          + (getStartLabels TYPE f).length) } := by
  have hlen := (table_spec Rho CacheSize TYPE f hp).1
  have hpos : 0 < (getStartLabels TYPE f).length := List.length_pos.2 hne
  have hmul : (s + 1) * (getStartLabels TYPE f).length
      ≤ f.NumStates * (getStartLabels TYPE f).length := Nat.mul_le_mul_right _ hs
  have hsucc : (s + 1) * (getStartLabels TYPE f).length
      = s * (getStartLabels TYPE f).length + (getStartLabels TYPE f).length :=
    Nat.succ_mul _ _
  unfold TableMatcher.SetState
  have hstart : (TableMatcher.new Rho CacheSize TYPE f).start_labels_
      = getStartLabels TYPE f := rfl
  rw [hstart, hlen, if_pos (by omega)]
  rfl

theorem Find_known_label (Rho : Int) (CacheSize : Nat) (TYPE : MatchType) (f : Fst)
    (hv : f.Valid) (s : Nat) (l : Int) (hl : l ∈ getStartLabels TYPE f) (v : Int)
    (hcell : (TableMatcher.new Rho CacheSize TYPE f).transitions_[
      s * (getStartLabels TYPE f).length + (getStartLabels TYPE f).indexOf l]? = some v) :
    TableMatcher.Find Rho (atState Rho CacheSize TYPE f s) l =
      some (decide (v ≠ kNoStateId),
        { atState Rho CacheSize TYPE f s with
          state_ := some (s * (getStartLabels TYPE f).length
            + (getStartLabels TYPE f).indexOf l)
          arc_ := { (atState Rho CacheSize TYPE f s).arc_ with nextstate := v } }) := by
  have hr := labels_range TYPE f hv l hl
  have hidx := List.indexOf_lt_length.2 hl
  exact Find_inside Rho (atState Rho CacheSize TYPE f s) l _ _ _ v
    (lookup_spec Rho CacheSize TYPE f hv l ⟨by omega, hr.2⟩ (Or.inl hr.1))
    (by
      show List.indexOf l (getStartLabels TYPE f) ≠ (getStartLabels TYPE f).length
      omega)
    rfl rfl (by omega) hcell

theorem getLast_index (L : List Int) (hn : L.Nodup) (x : Int) (h : L.getLast? = some x) :
    L.indexOf x = L.length - 1 ∧ x ∈ L := by
  have hx : x ∈ L := List.mem_of_getLast?_eq_some h
  obtain ⟨pre, rfl⟩ : ∃ pre, L = pre ++ [x] := by
    have hne : L ≠ [] := List.ne_nil_of_mem hx
    refine ⟨L.dropLast, ?_⟩
    have h2 := List.dropLast_append_getLast hne
    rw [List.getLast?_eq_getLast _ hne] at h
    simp only [Option.some.injEq] at h
    rw [h] at h2
    exact h2.symm
  refine ⟨?_, hx⟩
  have := indexOf_suffix_head (pre ++ [x]) hn x [] (List.suffix_append _ _)
  simpa using this

theorem state_of_arc (f : Fst) (s : Nat) (a : Arc) (ha : a ∈ f.arcs s) : s < f.NumStates := by
  by_contra h
  have h' : f.states.length ≤ s := Nat.le_of_not_lt h
  simp [Fst.arcs, List.getD_eq_getElem?_getD, List.getElem?_eq_none h'] at ha

theorem le_getLast (L : List Int) (hL : L.Pairwise (· < ·)) (x : Int)
    (h : L.getLast? = some x) (b : Int) (hb : b ∈ L) : b ≤ x := by
  have hne : L ≠ [] := List.ne_nil_of_mem hb
  rw [List.getLast?_eq_getLast _ hne] at h
  simp only [Option.some.injEq] at h
  have h2 := List.dropLast_append_getLast hne
  rw [h] at h2
  rw [← h2] at hb hL
  rcases List.mem_append.1 hb with h3 | h3
  · exact le_of_lt ((List.pairwise_append.1 hL).2.2 b h3 x (List.mem_singleton_self x))
  · rw [List.mem_singleton.1 h3]

theorem getLast_of_max (L : List Int) (hL : L.Pairwise (· < ·)) (x : Int) (hx : x ∈ L)
    (hmax : ∀ b ∈ L, b ≤ x) : L.getLast? = some x := by
  have hne : L ≠ [] := List.ne_nil_of_mem hx
  rw [List.getLast?_eq_getLast _ hne]
  have h2 := List.dropLast_append_getLast hne
  have hlast := hmax _ (List.getLast_mem hne)
  rw [← h2] at hx hL
  rcases List.mem_append.1 hx with h3 | h3
  · have := (List.pairwise_append.1 hL).2.2 x h3 _ (List.mem_singleton_self _)
    omega
  · rw [List.mem_singleton.1 h3]

theorem last_arc_of_max (TYPE : MatchType) (arcs : List Arc)
    (hA : arcs.Pairwise (fun x y => matchLabel TYPE x < matchLabel TYPE y)) (a : Arc)
    (ha : a ∈ arcs) (hmax : ∀ b ∈ arcs, matchLabel TYPE b ≤ matchLabel TYPE a) :
    arcs.getLast? = some a := by
  have hne : arcs ≠ [] := List.ne_nil_of_mem ha
  rw [List.getLast?_eq_getLast _ hne]
  have h2 := List.dropLast_append_getLast hne
  have hlast := hmax _ (List.getLast_mem hne)
  rw [← h2] at ha hA
  rcases List.mem_append.1 ha with h3 | h3
  · have := (List.pairwise_append.1 hA).2.2 a h3 _ (List.mem_singleton_self _)
    omega
  · rw [List.mem_singleton.1 h3]

theorem getD_indexOf (L : List Int) (l : Int) (hl : l ∈ L) : L.getD (L.indexOf l) 0 = l := by
  rw [List.getD_eq_getElem _ _ (List.indexOf_lt_length.2 hl)]
  exact List.getElem_indexOf _

/-- `Find` on the label of an arc of the current state. -/
theorem find_arc_core (Rho : Int) (CacheSize : Nat) (TYPE : MatchType) (f : Fst)
    (hv : f.Valid) (hp : f.TableProps TYPE) (s : Nat) (a : Arc) (ha : a ∈ f.arcs s) :
    ∃ m2, TableMatcher.Find Rho (atState Rho CacheSize TYPE f s) (matchLabel TYPE a)
        = some (true, m2) ∧ m2.Value.nextstate = a.nextstate := by
  have hs := state_of_arc f s a ha
  have hl : matchLabel TYPE a ∈ getStartLabels TYPE f :=
    (mem_getStartLabels TYPE f _).2 ⟨s, hs, a, ha, rfl⟩
  have hcell := ((table_spec Rho CacheSize TYPE f hp).2 s hs).1 a ha
  have hfind := Find_known_label Rho CacheSize TYPE f hv s _ hl _ hcell
  have hnext := (hv _ (arcs_mem_states f s hs) a ha).2.2
  have hdec : decide (a.nextstate ≠ kNoStateId) = true := by
    simp only [kNoStateId, decide_eq_true_eq]; omega
  rw [hdec] at hfind
  exact ⟨_, hfind, rfl⟩

/-- `Find` on a label that no arc of the current state carries. -/
theorem find_noarc_core (Rho : Int) (CacheSize : Nat) (TYPE : MatchType) (f : Fst)
    (hv : f.Valid) (hp : f.TableProps TYPE) (s : Nat) (hs : s < f.NumStates)
    (hne : getStartLabels TYPE f ≠ []) (l : Int) (hl : IsLabel l)
    (hC : 8 * CacheSize < 2 ^ 64) (hno : ∀ a ∈ f.arcs s, matchLabel TYPE a ≠ l)
    (hrho : ∀ a ∈ f.arcs s, matchLabel TYPE a = Rho → a.nextstate = rowDefault Rho TYPE f s) :
    ∃ r, TableMatcher.Find Rho (atState Rho CacheSize TYPE f s) l = some r ∧
      ((l ∈ getStartLabels TYPE f ∨ (getStartLabels TYPE f).getLast? = some Rho) →
        r.1 = decide (rowDefault Rho TYPE f s ≠ kNoStateId) ∧
        r.2.Value.nextstate = rowDefault Rho TYPE f s) ∧
      (¬ (l ∈ getStartLabels TYPE f ∨ (getStartLabels TYPE f).getLast? = some Rho) →
        r.1 = false) := by
  have hL := getStartLabels_pairwise TYPE f
  have hLn : (getStartLabels TYPE f).Nodup := hL.imp (fun h => ne_of_lt h)
  obtain ⟨r1, r2⟩ := (table_spec Rho CacheSize TYPE f hp).2 s hs
  by_cases hmem : l ∈ getStartLabels TYPE f
  · have hcell := r2 _ (List.indexOf_lt_length.2 hmem)
      (by rw [getD_indexOf _ _ hmem]; exact hno)
    refine ⟨_, Find_known_label Rho CacheSize TYPE f hv s l hmem _ hcell, ?_, ?_⟩
    · intro _; exact ⟨rfl, rfl⟩
    · intro h; exact absurd (Or.inl hmem) h
  · have hlook := lookup_spec Rho CacheSize TYPE f hv l hl (Or.inr hC)
    rw [List.indexOf_eq_length.2 hmem] at hlook
    obtain ⟨back, hback⟩ : ∃ back, (getStartLabels TYPE f).getLast? = some back :=
      ⟨_, List.getLast?_eq_getLast _ hne⟩
    have hpos : 0 < (getStartLabels TYPE f).length := List.length_pos.2 hne
    by_cases hb : back = Rho
    · subst hb
      obtain ⟨hidx, hin⟩ := getLast_index _ hLn back hback
      have hcell : (TableMatcher.new back CacheSize TYPE f).transitions_[
          s * (getStartLabels TYPE f).length + ((getStartLabels TYPE f).length - 1)]?
          = some (rowDefault back TYPE f s) := by
        by_cases hex : ∃ a ∈ f.arcs s, matchLabel TYPE a = back
        · obtain ⟨a, ha, hla⟩ := hex
          have := r1 a ha
          rw [hla, hidx, hrho a ha hla] at this
          exact this
        · push_neg at hex
          apply r2 _ (by omega)
          rw [← hidx, getD_indexOf _ _ hin]
          exact hex
      refine ⟨_, Find_fallback back (atState back CacheSize TYPE f s) l _ _ _ hlook hback
        rfl rfl ?_ hcell, ?_, ?_⟩
      · show s * (getStartLabels TYPE f).length + ((getStartLabels TYPE f).length - 1)
          < s * (getStartLabels TYPE f).length + (getStartLabels TYPE f).length
        omega
      · intro _; exact ⟨rfl, rfl⟩
      · intro h; exact absurd (Or.inr hback) h
    · refine ⟨_, Find_absent Rho (atState Rho CacheSize TYPE f s) l back hlook hback hb,
        ?_, ?_⟩
      · rintro (h | h)
        · exact absurd h hmem
        · rw [hback] at h
          simp only [Option.some.injEq] at h
          exact absurd h hb
      · intro _; rfl

theorem findFrom_atState (Rho : Int) (CacheSize : Nat) (TYPE : MatchType) (f : Fst)
    (hp : f.TableProps TYPE) (s : Nat) (hs : s < f.NumStates)
    (hne : getStartLabels TYPE f ≠ []) (l : Int) :
    (TableMatcher.new Rho CacheSize TYPE f).findFrom Rho s l =
      (TableMatcher.Find Rho (atState Rho CacheSize TYPE f s) l).map
        (fun r => (r.1, r.2.Value.nextstate)) := by
  unfold TableMatcher.findFrom
  rw [SetState_new Rho CacheSize TYPE f hp s hs hne]
  rfl

theorem rowDefault_of_rho_arc (Rho : Int) (TYPE : MatchType) (f : Fst)
    (hp : f.TableProps TYPE) (s : Nat) (hs : s < f.NumStates)
    (hmax : ∀ a ∈ f.arcs s, matchLabel TYPE a ≤ Rho) (arc : Arc) (ha : arc ∈ f.arcs s)
    (hl : matchLabel TYPE arc = Rho) : rowDefault Rho TYPE f s = arc.nextstate := by
  have hlast := last_arc_of_max TYPE (f.arcs s) (arcs_strict TYPE f hp s hs) arc ha
    (by rw [hl]; exact hmax)
  simp only [rowDefault, hlast, hl, if_true]

theorem rowDefault_of_no_rho_arc (Rho : Int) (TYPE : MatchType) (f : Fst) (s : Nat)
    (hno : ∀ a ∈ f.arcs s, matchLabel TYPE a ≠ Rho) : rowDefault Rho TYPE f s = kNoStateId := by
  unfold rowDefault
  cases hlast : (f.arcs s).getLast? with
  | none => rfl
  | some arc =>
    have := hno arc (List.mem_of_getLast?_eq_some hlast)
    simp only [if_neg (Ne.symm this)]

/-- Why `Fst.Valid` asks for non-negative labels: the loop that fills
`cached_label_offsets_` compares a label with the `size_t` index, so a
negative first label is never passed and every cache entry is a miss; in the
acceptor with the arcs `-2` and `5` at state `0` the call `Find(5)` then
returns `false`, while `find_label_offset(5)` is the column `1`. -/
theorem negative_label_cache_miss :
    (TableMatcher.new 100 8 MatchType.MATCH_INPUT
        { states := [[{ ilabel := -2, olabel := -2, weight := 0, nextstate := 0 },
                      { ilabel := 5, olabel := 5, weight := 0, nextstate := 0 }]] }).findFrom
        100 0 5 = some (false, -1) ∧
    (TableMatcher.new 100 8 MatchType.MATCH_INPUT
        { states := [[{ ilabel := -2, olabel := -2, weight := 0, nextstate := 0 },
                      { ilabel := 5, olabel := 5, weight := 0, nextstate := 0 }]] }
      ).find_label_offset 5 = 1 := by
  decide

/-- C5 (the code departs from the claim). Whenever `Find` returns `true`,
the cursor is strictly inside the row, and `Done()`, which the code computes as
`state_ != state_end_`, returns `true` right after it; for every matcher
`Done()` is `true` exactly when the cursor is not at the end of the row. -/
theorem Done_after_Find (Rho : Int) (m m2 : TableMatcher) (l : Int)
    (h : TableMatcher.Find Rho m l = some (true, m2)) :
    m2.Done = true ∧ ∀ m1 : TableMatcher, (m1.Done = true ↔ m1.state_ ≠ m1.state_end_) := by
  refine ⟨?_, fun m1 => by simp [TableMatcher.Done]⟩
  unfold TableMatcher.Find at h
  simp only at h
  split at h
  · exact absurd h (by simp)
  · split at h
    · exact absurd h (by simp)
    · simp at h
    · split at h
      · split_ifs at h with hlt
        split at h
        · exact absurd h (by simp)
        · simp only [Option.some.injEq, Prod.mk.injEq] at h
          rw [← h.2]
          rename_i sb se hb he _ _ _
          simp only [TableMatcher.Done, he, ne_eq, Option.some.injEq, decide_eq_true_eq]
          omega
      · exact absurd h (by simp)

/-- Witness of C5: in `exampleFst`, `SetState(0)` and then `Find(3)` return
`true` with the cursor on column `2` of row `0`, and `Done()` returns `true`
right after. -/
theorem Done_after_Find_witness :
    ((TableMatcher.new 100 8 MatchType.MATCH_INPUT exampleFst).SetState 0).bind
        (fun m => (TableMatcher.Find 100 m 3).map (fun r => (r.1, r.2.state_, r.2.Done)))
      = some (true, some 2, true) ∧
    ({ atState 100 8 MatchType.MATCH_INPUT exampleFst 0 with
        state_ := some 2
        arc_ := { ilabel := kNoLabel, olabel := kNoLabel, weight := 0, nextstate := 0 } }
      : TableMatcher).Done = true ∧
    ∀ m1 : TableMatcher, (m1.Done = true ↔ m1.state_ ≠ m1.state_end_) :=
  ⟨by decide,
    Done_after_Find 100 (atState 100 8 MatchType.MATCH_INPUT exampleFst 0) _ 3 (by decide)⟩

end fst

/-! # Theorems: text token stream -/

namespace iresearch
namespace analysis

theorem findFirstSpace_eq (line : List Char) (i : Nat) :
    findFirstSpace line i = i + (line.takeWhile (fun c => !isspace c)).length := by
  induction line generalizing i with
  | nil => simp [findFirstSpace]
  | cons c rest ih =>
    unfold findFirstSpace
    by_cases h : isspace c = true
    · simp [h, List.takeWhile]
    · simp only [h, Bool.false_eq_true, if_false, ih (i + 1)]
      have h' : isspace c = false := by simpa using h
      simp [List.takeWhile, h']
      omega

theorem take_takeWhile_length (p : Char → Bool) (line : List Char) :
    line.take (line.takeWhile p).length = line.takeWhile p := by
  induction line with
  | nil => simp
  | cons c rest ih =>
    by_cases h : p c = true
    · simp [List.takeWhile, h, ih]
    · have h' : p c = false := by simpa using h
      simp [List.takeWhile, h']

theorem addLine_eq (ignored_words : ignored_words_t) (line : List Char) :
    addLine ignored_words line =
      if line.takeWhile (fun c => !isspace c) = [] then ignored_words
      else insert (line.takeWhile (fun c => !isspace c)) ignored_words := by
  unfold addLine
  simp only [findFirstSpace_eq, Nat.zero_add, take_takeWhile_length]
  by_cases h : line.takeWhile (fun c => !isspace c) = []
  · simp [h]
  · simp [h, List.length_pos.2 h]

theorem mem_addLine (ignored_words : ignored_words_t) (line w : List Char) :
    w ∈ addLine ignored_words line ↔ w ∈ ignored_words ∨ w ∈ addLine ∅ line := by
  rw [addLine_eq, addLine_eq]
  split_ifs <;> simp [or_comm]

theorem mem_foldl_addLine (lines : List (List Char)) (acc : ignored_words_t) (w : List Char) :
    w ∈ lines.foldl addLine acc ↔ w ∈ acc ∨ ∃ line ∈ lines, w ∈ addLine ∅ line := by
  induction lines generalizing acc with
  | nil => simp
  | cons line rest ih =>
    simp only [List.foldl_cons, ih, mem_addLine acc line, List.mem_cons, exists_eq_or_imp]
    rw [or_assoc]

theorem word_of_line (line w : List Char) (h : w ∈ addLine ∅ line) :
    w = line.takeWhile (fun c => !isspace c) ∧ w ≠ [] ∧ ∀ c ∈ w, isspace c = false := by
  rw [addLine_eq] at h
  split_ifs at h with h1
  · simp at h
  · simp only [insert_emptyc_eq, Finset.mem_singleton] at h
    subst h
    refine ⟨rfl, h1, ?_⟩
    intro c hc
    have := List.mem_takeWhile_imp hc
    simpa using this

/-- C6 (stop-word file line format). A line adds nothing when it is empty
or starts with whitespace, and otherwise adds exactly its longest prefix
without whitespace, so at most one word per line; every word a line or a
whole file adds is non-empty and free of whitespace. -/
theorem stopword_line_format (ignored_words : ignored_words_t) (line content : List Char) :
    (addLine ignored_words line =
      match line with
      | [] => ignored_words
      | c :: _ =>
        if isspace c then ignored_words
        else insert (line.takeWhile (fun c => !isspace c)) ignored_words) ∧
    (∀ w, w ∈ addLine ignored_words line ∧ w ∉ ignored_words →
      w = line.takeWhile (fun c => !isspace c) ∧ w ≠ [] ∧ ∀ c ∈ w, isspace c = false) ∧
    (∀ w, w ∈ (getlines content).foldl addLine ∅ → w ≠ [] ∧ ∀ c ∈ w, isspace c = false) := by
  refine ⟨?_, ?_, ?_⟩
  · rw [addLine_eq]
    cases line with
    | nil => simp
    | cons c rest =>
      by_cases h : isspace c = true
      · simp [List.takeWhile, h]
      · have h' : isspace c = false := by simpa using h
        simp [List.takeWhile, h']
  · rintro w ⟨h1, h2⟩
    rcases (mem_addLine ignored_words line w).1 h1 with h3 | h3
    · exact absurd h3 h2
    · exact word_of_line line w h3
  · intro w hw
    rcases (mem_foldl_addLine _ _ w).1 hw with h | ⟨l, -, hl⟩
    · simp at h
    · exact (word_of_line l w hl).2

theorem readFiles_some (env : Env) (dir : Path) (names : List String)
    (acc out : ignored_words_t) (h : readFiles env dir names acc = some out) :
    (∀ name ∈ names, env.is_directory (dir.append name) = false →
      ∃ content, env.ifstream (dir.append name) = some content) ∧
    ∀ w, w ∈ out ↔ w ∈ acc ∨ ∃ name ∈ names, env.is_directory (dir.append name) = false ∧
      ∃ content, env.ifstream (dir.append name) = some content ∧
        ∃ line ∈ getlines content, w ∈ addLine ∅ line := by
  induction names generalizing acc with
  | nil =>
    simp only [readFiles, Option.some.injEq] at h
    subst h
    simp
  | cons name rest ih =>
    unfold readFiles at h
    by_cases hd : env.is_directory (dir.append name) = true
    · rw [if_pos hd] at h
      obtain ⟨i1, i2⟩ := ih acc h
      refine ⟨?_, ?_⟩
      · intro n hn hnd
        rcases List.mem_cons.1 hn with rfl | hn
        · rw [hd] at hnd; exact absurd hnd (by simp)
        · exact i1 n hn hnd
      · intro w
        rw [i2 w]
        simp only [List.mem_cons, exists_eq_or_imp, hd, Bool.true_eq_false, false_and, false_or]
    · rw [if_neg hd] at h
      have hd' : env.is_directory (dir.append name) = false := by simpa using hd
      cases hopen : env.ifstream (dir.append name) with
      | none => rw [hopen] at h; exact absurd h (by simp)
      | some content =>
        rw [hopen] at h
        simp only at h
        obtain ⟨i1, i2⟩ := ih _ h
        refine ⟨?_, ?_⟩
        · intro n hn hnd
          rcases List.mem_cons.1 hn with rfl | hn
          · exact ⟨content, hopen⟩
          · exact i1 n hn hnd
        · intro w
          rw [i2 w, mem_foldl_addLine]
          simp only [List.mem_cons, exists_eq_or_imp, hd', hopen, Option.some.injEq,
            true_and, exists_eq_left']
          rw [or_assoc]

theorem readFiles_none (env : Env) (dir : Path) (names : List String) (acc : ignored_words_t)
    (name : String) (hn : name ∈ names) (hd : env.is_directory (dir.append name) = false)
    (hopen : env.ifstream (dir.append name) = none) :
    readFiles env dir names acc = none := by
  induction names generalizing acc with
  | nil => simp at hn
  | cons n rest ih =>
    unfold readFiles
    rcases List.mem_cons.1 hn with rfl | hn
    · simp [hd, hopen]
    · split_ifs
      · exact ih acc hn
      · cases env.ifstream (dir.append n) with
        | none => rfl
        | some content => exact ih _ hn

/-- C7 (stop-word merging). When `get_ignored_words` returns `true`, the language
directory of the locale could be listed, every entry of it that is not a
directory was opened, and the output set holds exactly the words passed in and
the words of the lines of those files; the words passed in are kept. -/
theorem stopwords_merged (env : Env) (buf out : ignored_words_t) (locale : Locale)
    (path : Option Path) (h : get_ignored_words env buf locale path = (true, out)) :
    ∃ names,
      env.status ((stopwordRoot env path).append locale.language)
        = some (Entry.directory (some names)) ∧
      (∀ name ∈ names,
        env.is_directory (((stopwordRoot env path).append locale.language).append name)
          = false →
        ∃ content,
          env.ifstream (((stopwordRoot env path).append locale.language).append name)
            = some content) ∧
      buf ⊆ out ∧
      ∀ w, w ∈ out ↔ w ∈ buf ∨ ∃ name ∈ names,
        env.is_directory (((stopwordRoot env path).append locale.language).append name)
          = false ∧
        ∃ content,
          env.ifstream (((stopwordRoot env path).append locale.language).append name)
            = some content ∧
          ∃ line ∈ getlines content, w ∈ addLine ∅ line := by
  unfold get_ignored_words at h
  simp only at h
  split_ifs at h with h0
  · simp at h
  · generalize (stopwordRoot env path).append locale.language = dir at h ⊢
    split at h
    · rename_i names hst
      split at h
      · simp at h
      · rename_i words hread
        simp only [Prod.mk.injEq, true_and] at h
        subst h
        obtain ⟨i1, i2⟩ := readFiles_some env dir names ∅ words hread
        refine ⟨names, hst, i1, Finset.subset_union_left, ?_⟩
        intro w
        rw [Finset.mem_union, i2 w]
        simp
    · simp at h

/-- Witness of C7: in `exampleEnv` the words of `a.txt` and `b.txt` join the
word `with` that was passed in; the sub-directory `old` is skipped. -/
theorem stopwords_merged_witness :
    ∃ names,
      exampleEnv.status ((stopwordRoot exampleEnv (some exampleRoot)).append
        exampleLocale.language) = some (Entry.directory (some names)) ∧
      (∀ name ∈ names,
        exampleEnv.is_directory (((stopwordRoot exampleEnv (some exampleRoot)).append
          exampleLocale.language).append name) = false →
        ∃ content,
          exampleEnv.ifstream (((stopwordRoot exampleEnv (some exampleRoot)).append
            exampleLocale.language).append name) = some content) ∧
      ({"with".toList} : ignored_words_t)
        ⊆ {"with".toList, "the".toList, "a".toList, "of".toList} ∧
      ∀ w, w ∈ ({"with".toList, "the".toList, "a".toList, "of".toList} : ignored_words_t) ↔
        w ∈ ({"with".toList} : ignored_words_t) ∨ ∃ name ∈ names,
          exampleEnv.is_directory (((stopwordRoot exampleEnv (some exampleRoot)).append
            exampleLocale.language).append name) = false ∧
          ∃ content,
            exampleEnv.ifstream (((stopwordRoot exampleEnv (some exampleRoot)).append
              exampleLocale.language).append name) = some content ∧
            ∃ line ∈ getlines content, w ∈ addLine ∅ line :=
  stopwords_merged exampleEnv {"with".toList}
    {"with".toList, "the".toList, "a".toList, "of".toList} exampleLocale (some exampleRoot)
    (by decide)

theorem get_ignored_words_fails (env : Env) (buf : ignored_words_t) (locale : Locale)
    (path : Option Path) (h : IoFailure env locale path) :
    get_ignored_words env buf locale path = (false, buf) := by
  unfold get_ignored_words
  simp only
  split_ifs with h0
  · rfl
  · rcases h with h | h | ⟨names, name, hst, hn, hd, hopen⟩
    · exact absurd (Or.inl (by simp [h])) h0
    · exact absurd (Or.inr (by simp [h])) h0
    · rw [hst]
      simp only [readFiles_none env _ names ∅ name hn hd hopen]

/-- C8 (IoFailure). When the stop-word root is not a directory, or its
language sub-directory is not a directory, or an entry of that directory
which is not a directory cannot be opened, `get_ignored_words` returns
`false` and leaves its buffer alone, and each overload of `construct` that
reads the stop words from disk returns `nullptr` and the cache as it
was. -/
theorem io_failure_no_analyzer (env : Env) (cache : Cache) (cache_key : String)
    (buf ignored_words : ignored_words_t) (locale : Locale) :
    (∀ path, IoFailure env locale path →
      get_ignored_words env buf locale path = (false, buf)) ∧
    (IoFailure env locale none →
      construct_locale env cache cache_key locale = (none, cache)) ∧
    (IoFailure env (env.locale cache_key) none → cache.find cache_key = none →
      construct_key env cache cache_key = (none, cache)) ∧
    (∀ p, IoFailure env locale (some p) →
      construct_path env cache cache_key locale p = (none, cache) ∧
      construct_path_words env cache cache_key locale p ignored_words = (none, cache)) := by
  refine ⟨fun path h => get_ignored_words_fails env buf locale path h, ?_, ?_, ?_⟩
  · intro h
    simp [construct_locale, get_ignored_words_fails env ∅ locale none h]
  · intro h hc
    simp [construct_key, hc, get_ignored_words_fails env ∅ _ none h]
  · intro p h
    constructor
    · simp [construct_path, get_ignored_words_fails env ∅ locale (some p) h]
    · simp [construct_path_words,
        get_ignored_words_fails env ignored_words locale (some p) h]

/-- Witness of C8: in `brokenEnv` the file `b.txt` of `/stopwords/en` cannot
be opened, and the working directory `/` is no directory of the model. -/
theorem io_failure_no_analyzer_witness :
    get_ignored_words brokenEnv {"with".toList} exampleLocale (some exampleRoot)
      = (false, {"with".toList}) ∧
    construct_locale brokenEnv [] "key" exampleLocale = (none, []) ∧
    construct_key brokenEnv [] "key" = (none, []) ∧
    construct_path brokenEnv [] "key" exampleLocale exampleRoot = (none, []) ∧
    construct_path_words brokenEnv [] "key" exampleLocale exampleRoot {"x".toList}
      = (none, []) :=
  have hfile : IoFailure brokenEnv exampleLocale (some exampleRoot) :=
    Or.inr (Or.inr ⟨["a.txt", "old", "b.txt"], "b.txt", by decide, by decide, by decide,
      by decide⟩)
  have hroot : IoFailure brokenEnv exampleLocale none := Or.inl (by decide)
  have hall := io_failure_no_analyzer brokenEnv [] "key" {"with".toList} {"x".toList}
    exampleLocale
  ⟨hall.1 _ hfile, hall.2.1 hroot, hall.2.2.1 hroot rfl, (hall.2.2.2 _ hfile).1,
    (hall.2.2.2 _ hfile).2⟩

theorem resetData_fst (icu : Icu) (self : text_token_stream) (state : state_t)
    (locale : IcuLocale) (iterator : BreakIterator) (data : List Char) :
    (resetData icu self state locale iterator data).1 =
      decide (utf8Length icu self data ≤ INT32_MAX) := by
  unfold resetData utf8Length
  simp only
  by_cases hu : self.locale_.utf8 = true
  · simp only [hu, if_true]
    by_cases hlen : data.length > INT32_MAX
    · simp [hlen]
    · rw [if_neg hlen]
      have hle : data.length ≤ INT32_MAX := Nat.le_of_not_lt hlen
      simp [hle]
  · simp only [hu, Bool.false_eq_true, if_false]
    by_cases hlen : (icu.to_utf data self.locale_.encoding).length > INT32_MAX
    · simp [hlen]
    · rw [if_neg hlen]
      have hle : (icu.to_utf data self.locale_.encoding).length ≤ INT32_MAX :=
        Nat.le_of_not_lt hlen
      simp [hle]

theorem resetBreakIterator_fst (icu : Icu) (self : text_token_stream) (state : state_t)
    (locale : IcuLocale) (err : UErrorCode) (data : List Char)
    (hok : icu.HelpersOk self.locale_) (herr : U_SUCCESS err = true) :
    (resetBreakIterator icu self state locale err data).1 =
      decide (utf8Length icu self data ≤ INT32_MAX) := by
  unfold resetBreakIterator
  cases state.break_iterator with
  | none =>
    have h := hok.2.2.2 locale err herr
    simp only [h.1, h.2, not_true_eq_false, or_self, if_false]
    exact resetData_fst _ _ _ _ _ _
  | some iterator => exact resetData_fst _ _ _ _ _ _

theorem resetTransliterator_fst (icu : Icu) (self : text_token_stream) (state : state_t)
    (locale : IcuLocale) (err : UErrorCode) (data : List Char)
    (hok : icu.HelpersOk self.locale_) (herr : U_SUCCESS err = true) :
    (resetTransliterator icu self state locale err data).1 =
      decide (utf8Length icu self data ≤ INT32_MAX) := by
  unfold resetTransliterator
  have h := hok.2.2.1 err herr
  by_cases h1 : state.transliterator = true
  · simp only [h1, not_true_eq_false, if_false]
    exact resetBreakIterator_fst _ _ _ _ _ _ hok herr
  · simp only [h1, not_false_eq_true, if_true, h.1, h.2, not_true_eq_false, or_self, if_false]
    exact resetBreakIterator_fst _ _ _ _ _ _ hok h.1

theorem resetNormalizer_fst (icu : Icu) (self : text_token_stream) (state : state_t)
    (locale : IcuLocale) (data : List Char) (hok : icu.HelpersOk self.locale_) :
    (resetNormalizer icu self state locale data).1 =
      decide (utf8Length icu self data ≤ INT32_MAX) := by
  unfold resetNormalizer
  have h0 : U_SUCCESS U_ZERO_ERROR = true := by decide
  have h := hok.2.1 U_ZERO_ERROR h0
  by_cases h1 : state.normalizer = true
  · simp only [h1, not_true_eq_false, if_false]
    exact resetTransliterator_fst _ _ _ _ _ _ hok h0
  · simp only [h1, not_false_eq_true, if_true, h.1, h.2, not_true_eq_false, or_self, if_false]
    exact resetTransliterator_fst _ _ _ _ _ _ hok h.1

/-- C9 (reset size cap). For an analyzer whose locale is valid and whose
helper objects can be made, whatever state earlier calls left, `reset(data)`
returns `true` exactly when the length of the data in UTF-8 (of `data`
itself for a UTF-8 locale, of its conversion otherwise) is at most
`INT32_MAX`: `false` above it, `true` up to and including it. -/
theorem reset_size_cap (icu : Icu) (self : text_token_stream) (data : List Char)
    (hok : icu.HelpersOk self.locale_) :
    (self.reset icu data).1 =
      decide ((if self.locale_.utf8 then data
        else icu.to_utf data self.locale_.encoding).length ≤ INT32_MAX) := by
  have key : ∀ state locale, (resetNormalizer icu self state locale data).1 =
      decide ((if self.locale_.utf8 then data
        else icu.to_utf data self.locale_.encoding).length ≤ INT32_MAX) :=
    fun state locale => resetNormalizer_fst icu self state locale data hok
  unfold text_token_stream.reset
  cases self.state_.locale with
  | none =>
    simp only [hok.1, Bool.false_eq_true, if_false]
    exact key _ _
  | some locale => exact key _ _

theorem exampleIcu_ok (locale : Locale) : exampleIcu.HelpersOk locale :=
  ⟨rfl, fun _ he => ⟨he, rfl⟩, fun _ he => ⟨he, rfl⟩, fun _ _ he => ⟨he, rfl⟩⟩

/-- Witness of C9: a fresh analyzer for `en_US.UTF-8` refuses an input of
`INT32_MAX + 1` bytes. -/
theorem reset_size_cap_witness :
    ((text_token_stream.new exampleLocale ∅).reset exampleIcu
        (List.replicate (INT32_MAX + 1) (Char.ofNat 97))).1 = false :=
  (reset_size_cap exampleIcu (text_token_stream.new exampleLocale ∅)
    (List.replicate (INT32_MAX + 1) (Char.ofNat 97)) (exampleIcu_ok _)).trans
    (by simp [text_token_stream.new, exampleLocale])

/-- C10 (normalizer failure fallback). When the normalizer reports an error
for a word, `process_term` goes on with the word as it was given: the token
is dropped only if the lower-cased, accent-free form of that word is a stop
word, and otherwise the term is its stem, or that form itself when there is
no stemmer or the stemmer returns nothing. -/
theorem normalizer_failure_fallback (icu : Icu) (language : String) (attrs : attributes)
    (ignored_words : ignored_words_t) (state : state_t) (data : UnicodeString)
    (herr : U_SUCCESS (icu.normalize data).2 = false) :
    process_term icu language attrs ignored_words state data =
      if icu.toUTF8String (icu.transliterate (icu.toLower state.locale data)) ∈ ignored_words
      then
        (false, attrs,
          { state with
            tmp_buf := icu.toUTF8String (icu.transliterate (icu.toLower state.locale data)) })
      else
        (true,
          { attrs with
            term :=
              if state.stemmer then
                (icu.sb_stemmer_stem language
                  (icu.toUTF8String (icu.transliterate (icu.toLower state.locale data)))).getD
                  (icu.toUTF8String (icu.transliterate (icu.toLower state.locale data)))
              else icu.toUTF8String (icu.transliterate (icu.toLower state.locale data)) },
          { state with
            tmp_buf := icu.toUTF8String (icu.transliterate (icu.toLower state.locale data)) })
        := by
  unfold process_term
  simp only [herr, Bool.false_eq_true, not_false_eq_true, if_true]
  split_ifs with h1 h2
  · rfl
  · cases icu.sb_stemmer_stem language
      (icu.toUTF8String (icu.transliterate (icu.toLower state.locale data))) <;> rfl
  · rfl

/-- Witness of C10: with `failingIcu` the word `jumping` is not dropped; its
term is the stem of the word as given. -/
theorem normalizer_failure_fallback_witness :
    process_term failingIcu "en"
        { offset_start := 0, offset_end := 0, term := [], increment := 1 } {"the".toList}
        { (text_token_stream.new exampleLocale ∅).state_ with stemmer := true }
        "jumping".toList =
      (true, { offset_start := 0, offset_end := 0, term := "jum".toList, increment := 1 },
        { (text_token_stream.new exampleLocale ∅).state_ with
          stemmer := true, tmp_buf := "jumping".toList }) :=
  (normalizer_failure_fallback failingIcu "en"
    { offset_start := 0, offset_end := 0, term := [], increment := 1 } {"the".toList}
    { (text_token_stream.new exampleLocale ∅).state_ with stemmer := true }
    "jumping".toList (by decide)).trans (by decide)

/-! ## make, the cache and the stop-word root -/

theorem construct_key_fails (env : Env) (cache : Cache) (args : String)
    (hcache : cache.find args = none)
    (hdisk : (get_ignored_words env ∅ (env.locale args) none).1 = false) :
    construct_key env cache args = (none, cache) := by
  simp [construct_key, hcache, hdisk]

theorem get_optional_none (pt : PTree) (key : String)
    (h : ∀ child ∈ pt.children, child.1 ≠ key) : pt.get_optional key = none := by
  have : pt.children.find? (fun child => decide (child.1 = key)) = none := by
    rw [List.find?_eq_none]
    intro child hc
    simpa using h child hc
  simp [PTree.get_optional, PTree.get_child_optional, this]

theorem get_child_optional_none (pt : PTree) (key : String)
    (h : ∀ child ∈ pt.children, child.1 ≠ key) : pt.get_child_optional key = none := by
  have : pt.children.find? (fun child => decide (child.1 = key)) = none := by
    rw [List.find?_eq_none]
    intro child hc
    simpa using h child hc
  simp [PTree.get_child_optional, this]

/-- C11 (factory failure on bad arguments). When the argument string is no
key of the cache and, read as a locale name, has no readable stop-word
directory, `make` returns `nullptr` and leaves the cache as it was whenever
`read_json` throws on the string or the JSON object has no member
`locale`. -/
theorem make_bad_arguments (env : Env) (boost : Boost) (cache : Cache) (args : String)
    (hcache : cache.find args = none)
    (hdisk : (get_ignored_words env ∅ (env.locale args) none).1 = false)
    (hbad : boost.read_json args = none ∨
      ∃ pt, boost.read_json args = some pt ∧ ∀ child ∈ pt.children, child.1 ≠ "locale") :
    make env boost cache args = (none, cache) := by
  unfold make
  rw [construct_key_fails env cache args hcache hdisk]
  rcases hbad with h | ⟨pt, h, hno⟩
  · simp [h]
  · simp [h, get_optional_none pt "locale" hno]

/-- Witness of C11: the JSON object `{"stemming":false}` has no `locale`. -/
theorem make_bad_arguments_witness :
    make noDiskEnv exampleBoost [] argsNoLocale = (none, []) :=
  make_bad_arguments noDiskEnv exampleBoost [] argsNoLocale rfl (by decide)
    (Or.inr ⟨PTree.node "" [("stemming", PTree.node "false" [])], rfl, by decide⟩)

/-- C12 (the code departs from the claim). `make` reads the members
`locale`, `ignored_words` and `ignored_words_path` only: for a JSON object
with a `locale` and without these two members, whatever other members such
as `stopwords` it has, the result of `make` is that of
`construct(args, locale)`, which takes the stop words from the disk. -/
theorem make_ignores_stopwords (env : Env) (boost : Boost) (cache : Cache) (args : String)
    (pt : PTree) (name : String)
    (hcache : cache.find args = none)
    (hdisk : (get_ignored_words env ∅ (env.locale args) none).1 = false)
    (hjson : boost.read_json args = some pt)
    (hlocale : pt.get_optional "locale" = some name)
    (hother : ∀ child ∈ pt.children,
      child.1 ≠ "ignored_words" ∧ child.1 ≠ "ignored_words_path") :
    make env boost cache args = construct_locale env cache args (env.locale name) := by
  unfold make
  rw [construct_key_fails env cache args hcache hdisk]
  simp [hjson, hlocale,
    get_child_optional_none pt "ignored_words" (fun c hc => (hother c hc).1),
    get_optional_none pt "ignored_words_path" (fun c hc => (hother c hc).2)]

/-- Witness of C12: for the arguments `argsStopwords`, which ask for the one
stop word `the`, the analyzer made in `diskEnv` has the stop words of the
files of `/stopwords/en`, and in `noDiskEnv`, where there is no such
directory, `make` returns `nullptr`. -/
theorem make_ignores_stopwords_witness :
    make diskEnv exampleBoost [] argsStopwords
      = construct_locale diskEnv [] argsStopwords (diskEnv.locale "en_US.UTF-8") ∧
    (make diskEnv exampleBoost [] argsStopwords).1.isSome = true ∧
    ((make diskEnv exampleBoost [] argsStopwords).1.map
        (fun stream => stream.ignored_words_)).getD ∅
      = {"the".toList, "a".toList, "of".toList} ∧
    make noDiskEnv exampleBoost [] argsStopwords = (none, []) :=
  ⟨make_ignores_stopwords diskEnv exampleBoost [] argsStopwords
      (PTree.node ""
        [("locale", PTree.node "en_US.UTF-8" []),
         ("stopwords", PTree.node "" [("", PTree.node "the" [])]),
         ("case", PTree.node "none" []),
         ("stemming", PTree.node "false" [])])
      "en_US.UTF-8" rfl (by decide) rfl rfl (by decide),
    by decide, by decide, by decide⟩

/-- C13 (the code departs from the claim). `process_term` has no option for
the case or for stemming: whenever it accepts a word, the term is made from
the lower-cased word, and it is the stem of that form whenever the stream has
a stemmer that returns one. -/
theorem process_term_lowercases_and_stems (icu : Icu) (language : String)
    (attrs : attributes) (ignored_words : ignored_words_t) (state : state_t)
    (data : UnicodeString)
    (h : (process_term icu language attrs ignored_words state data).1 = true) :
    (process_term icu language attrs ignored_words state data).2.1.term =
      if state.stemmer then
        (icu.sb_stemmer_stem language
          (icu.toUTF8String (icu.transliterate (icu.toLower state.locale
            (if ¬ U_SUCCESS (icu.normalize data).2 then data
              else (icu.normalize data).1))))).getD
          (icu.toUTF8String (icu.transliterate (icu.toLower state.locale
            (if ¬ U_SUCCESS (icu.normalize data).2 then data else (icu.normalize data).1))))
      else
        icu.toUTF8String (icu.transliterate (icu.toLower state.locale
          (if ¬ U_SUCCESS (icu.normalize data).2 then data else (icu.normalize data).1))) := by
  generalize hw : (if ¬ U_SUCCESS (icu.normalize data).2 then data
    else (icu.normalize data).1) = word at h ⊢
  have hdef : process_term icu language attrs ignored_words state data =
      if icu.toUTF8String (icu.transliterate (icu.toLower state.locale word)) ∈ ignored_words
      then
        (false, attrs,
          { state with
            tmp_buf := icu.toUTF8String (icu.transliterate (icu.toLower state.locale word)) })
      else
        if state.stemmer then
          match icu.sb_stemmer_stem language
            (icu.toUTF8String (icu.transliterate (icu.toLower state.locale word))) with
          | some value =>
            (true, { attrs with term := value },
              { state with
                tmp_buf :=
                  icu.toUTF8String (icu.transliterate (icu.toLower state.locale word)) })
          | none =>
            (true,
              { attrs with
                term := icu.toUTF8String (icu.transliterate (icu.toLower state.locale word)) },
              { state with
                tmp_buf :=
                  icu.toUTF8String (icu.transliterate (icu.toLower state.locale word)) })
        else
          (true,
            { attrs with
              term := icu.toUTF8String (icu.transliterate (icu.toLower state.locale word)) },
            { state with
              tmp_buf :=
                icu.toUTF8String (icu.transliterate (icu.toLower state.locale word)) }) := by
    unfold process_term
    simp only [hw]
  rw [hdef] at h ⊢
  by_cases h1 : icu.toUTF8String (icu.transliterate (icu.toLower state.locale word))
      ∈ ignored_words
  · rw [if_pos h1] at h
    exact absurd h (by simp)
  · rw [if_neg h1]
    by_cases h2 : state.stemmer = true
    · rw [if_pos h2, if_pos h2]
      cases icu.sb_stemmer_stem language
        (icu.toUTF8String (icu.transliterate (icu.toLower state.locale word))) <;> rfl
    · rw [if_neg h2, if_neg h2]

/-- Witness of C13: the analyzer `make` returns for `argsStopwords`, which
ask for `"case":"none"` and `"stemming":false`, turns `FOX` into `fox`,
`broWn` into `brown` and `jumps` into `jump`. -/
theorem process_term_lowercases_and_stems_witness :
    (process_term asciiIcu "en"
        { offset_start := 0, offset_end := 0, term := [], increment := 1 } ∅
        { (text_token_stream.new exampleLocale ∅).state_ with stemmer := true }
        "jumps".toList).2.1.term = "jump".toList ∧
    (make diskEnv exampleBoost [] argsStopwords).1.map
        (fun stream => drain asciiIcu (stream.reset asciiIcu "FOX".toList).2)
      = some [{ value := "fox".toList, start := 0, stop := 3 }] ∧
    (make diskEnv exampleBoost [] argsStopwords).1.map
        (fun stream => drain asciiIcu (stream.reset asciiIcu "broWn".toList).2)
      = some [{ value := "brown".toList, start := 0, stop := 5 }] ∧
    (make diskEnv exampleBoost [] argsStopwords).1.map
        (fun stream => drain asciiIcu (stream.reset asciiIcu "jumps".toList).2)
      = some [{ value := "jump".toList, start := 0, stop := 5 }] :=
  ⟨(process_term_lowercases_and_stems asciiIcu "en"
      { offset_start := 0, offset_end := 0, term := [], increment := 1 } ∅
      { (text_token_stream.new exampleLocale ∅).state_ with stemmer := true }
      "jumps".toList (by decide)).trans (by decide),
    by decide, by decide, by decide⟩

theorem emplace_keeps (cache : Cache) (key : String) (value : cached_state_t)
    (other : String) (held : cached_state_t) (h : cache.find other = some held) :
    (cache.emplace key value).1.find other = some held := by
  unfold Cache.emplace
  cases hk : cache.find key with
  | some old => exact h
  | none =>
    have hne : key ≠ other := by
      intro heq
      rw [heq, h] at hk
      exact absurd hk (by simp)
    simp [Cache.find, hne, h]

theorem construct_keeps (cache : Cache) (key : String) (locale : Locale)
    (words : ignored_words_t) (other : String) (held : cached_state_t)
    (h : cache.find other = some held) :
    (construct cache key locale words).2.find other = some held :=
  emplace_keeps cache key (locale, words) other held h

theorem construct_locale_keeps (env : Env) (cache : Cache) (key : String) (locale : Locale)
    (other : String) (held : cached_state_t) (h : cache.find other = some held) :
    (construct_locale env cache key locale).2.find other = some held := by
  unfold construct_locale
  simp only
  split_ifs
  · exact construct_keeps _ _ _ _ _ _ h
  · exact h

theorem construct_path_keeps (env : Env) (cache : Cache) (key : String) (locale : Locale)
    (path : Path) (other : String) (held : cached_state_t) (h : cache.find other = some held) :
    (construct_path env cache key locale path).2.find other = some held := by
  unfold construct_path
  simp only
  split_ifs
  · exact construct_keeps _ _ _ _ _ _ h
  · exact h

theorem construct_path_words_keeps (env : Env) (cache : Cache) (key : String)
    (locale : Locale) (path : Path) (words : ignored_words_t) (other : String)
    (held : cached_state_t) (h : cache.find other = some held) :
    (construct_path_words env cache key locale path words).2.find other = some held := by
  unfold construct_path_words
  simp only
  split_ifs
  · exact construct_keeps _ _ _ _ _ _ h
  · exact h

theorem construct_key_keeps (env : Env) (cache : Cache) (key : String) (other : String)
    (held : cached_state_t) (h : cache.find other = some held) :
    (construct_key env cache key).2.find other = some held := by
  unfold construct_key
  cases cache.find key with
  | some cached => exact h
  | none =>
    simp only
    split_ifs
    · exact construct_keeps _ _ _ _ _ _ h
    · exact h

theorem make_keeps (env : Env) (boost : Boost) (cache : Cache) (args : String)
    (other : String) (held : cached_state_t) (h : cache.find other = some held) :
    (make env boost cache args).2.find other = some held := by
  have hk := construct_key_keeps env cache args other held h
  unfold make
  simp only
  cases (construct_key env cache args).1 with
  | some stream => exact hk
  | none =>
    simp only
    cases boost.read_json args with
    | none => exact hk
    | some pt =>
      simp only
      cases pt.get_optional "locale" with
      | none => exact hk
      | some name =>
        simp only
        cases pt.get_child_optional "ignored_words" with
        | none =>
          cases pt.get_optional "ignored_words_path" with
          | none => exact construct_locale_keeps _ _ _ _ _ _ hk
          | some path => exact construct_path_keeps _ _ _ _ _ _ _ hk
        | some words =>
          cases pt.get_optional "ignored_words_path" with
          | none => exact construct_keeps _ _ _ _ _ _ hk
          | some path => exact construct_path_words_keeps _ _ _ _ _ _ _ _ hk

theorem run_keeps (env : Env) (boost : Boost) (cache : Cache) (call : CacheCall)
    (other : String) (held : cached_state_t) (h : cache.find other = some held) :
    (call.run env boost cache).2.find other = some held := by
  cases call with
  | make args => exact make_keeps env boost cache args other held h
  | construct key locale words => exact construct_keeps cache key locale words other held h
  | construct_key key => exact construct_key_keeps env cache key other held h
  | construct_locale key locale => exact construct_locale_keeps env cache key locale other held h
  | construct_path key locale path =>
    exact construct_path_keeps env cache key locale path other held h
  | construct_path_words key locale path words =>
    exact construct_path_words_keeps env cache key locale path words other held h

theorem readFiles_congr (env env2 : Env) (dir : Path) (names : List String)
    (acc : ignored_words_t)
    (h : ∀ name, env2.status (dir.append name) = env.status (dir.append name)) :
    readFiles env2 dir names acc = readFiles env dir names acc := by
  induction names generalizing acc with
  | nil => rfl
  | cons name rest ih =>
    unfold readFiles
    simp only [Env.is_directory, Env.ifstream, h name, ih]

theorem process_term_eq (icu : Icu) (language : String) (attrs : attributes)
    (ignored_words : ignored_words_t) (state : state_t) (data : UnicodeString) :
    process_term icu language attrs ignored_words state data =
      if wordOf icu state.locale data ∈ ignored_words then
        (false, attrs, { state with tmp_buf := wordOf icu state.locale data })
      else
        (true,
          { attrs with term := termOf icu language state.stemmer (wordOf icu state.locale data) },
          { state with tmp_buf := wordOf icu state.locale data }) := by
  unfold process_term wordOf termOf
  simp only
  by_cases h1 : icu.toUTF8String (icu.transliterate (icu.toLower state.locale
      (if ¬ U_SUCCESS (icu.normalize data).2 then data else (icu.normalize data).1)))
      ∈ ignored_words
  · rw [if_pos h1, if_pos h1]
  · rw [if_neg h1, if_neg h1]
    by_cases h2 : state.stemmer = true
    · rw [if_pos h2, if_pos h2]
      cases icu.sb_stemmer_stem language
        (icu.toUTF8String (icu.transliterate (icu.toLower state.locale
          (if ¬ U_SUCCESS (icu.normalize data).2 then data
            else (icu.normalize data).1)))) <;> rfl
    · rw [if_neg h2, if_neg h2]

theorem nextLoop_cons (icu : Icu) (self : text_token_stream) (start status stop stopStatus : Int)
    (rest : List (Int × Int)) :
    nextLoop icu self start status ((stop, stopStatus) :: rest) =
      if stop = DONE then
        (false, { self with state_ :=
          { self.state_ with
            break_iterator := some { current := stop, status := stopStatus, rest := rest } } })
      else if stopStatus = UBRK_WORD_NONE then nextLoop icu self stop stopStatus rest
      else if wordOf icu self.state_.locale
          (tempSubString self.state_.data start (stop - start)) ∈ self.ignored_words_ then
        nextLoop icu
          { self with state_ :=
            { self.state_ with
              tmp_buf := wordOf icu self.state_.locale
                (tempSubString self.state_.data start (stop - start)) } }
          stop stopStatus rest
      else
        (true,
          { self with
            attrs_ :=
              { self.attrs_ with
                term := termOf icu self.locale_.language self.state_.stemmer
                  (wordOf icu self.state_.locale
                    (tempSubString self.state_.data start (stop - start)))
                offset_start := start
                offset_end := stop }
            state_ :=
              { self.state_ with
                tmp_buf := wordOf icu self.state_.locale
                  (tempSubString self.state_.data start (stop - start))
                break_iterator :=
                  some { current := stop, status := stopStatus, rest := rest } } }) := by
  rw [nextLoop]
  by_cases h0 : stop = DONE
  · rw [if_pos h0, if_pos h0]
  · rw [if_neg h0, if_neg h0]
    by_cases h1 : stopStatus = UBRK_WORD_NONE
    · rw [if_pos h1, if_pos h1]
    · rw [if_neg h1, if_neg h1]
      simp only [process_term_eq]
      by_cases h2 : wordOf icu self.state_.locale
          (tempSubString self.state_.data start (stop - start)) ∈ self.ignored_words_
      · simp only [h2, if_true, Bool.false_eq_true, not_false_eq_true]
      · simp only [h2, if_false, not_true_eq_false]

theorem nextLoop_frame (icu : Icu) (rest : List (Int × Int)) :
    ∀ (self : text_token_stream) (start status : Int),
      (nextLoop icu self start status rest).2.locale_ = self.locale_ ∧
      (nextLoop icu self start status rest).2.ignored_words_ = self.ignored_words_ ∧
      (nextLoop icu self start status rest).2.state_.data = self.state_.data ∧
      (nextLoop icu self start status rest).2.state_.locale = self.state_.locale ∧
      (nextLoop icu self start status rest).2.state_.stemmer = self.state_.stemmer ∧
      (nextLoop icu self start status rest).2.state_.normalizer = self.state_.normalizer ∧
      (nextLoop icu self start status rest).2.state_.transliterator
        = self.state_.transliterator ∧
      ∃ it, (nextLoop icu self start status rest).2.state_.break_iterator = some it ∧
        it.rest.length ≤ rest.length ∧
        ((nextLoop icu self start status rest).1 = true → it.rest.length < rest.length) := by
  induction rest with
  | nil =>
    intro self start status
    simp [nextLoop]
  | cons b rest ih =>
    obtain ⟨stop, stopStatus⟩ := b
    intro self start status
    rw [nextLoop_cons]
    by_cases h0 : stop = DONE
    · rw [if_pos h0]
      simp
    · rw [if_neg h0]
      by_cases h1 : stopStatus = UBRK_WORD_NONE
      · rw [if_pos h1]
        obtain ⟨i1, i2, i3, i4, i5, i6, i7, it, j1, j2, j3⟩ := ih self stop stopStatus
        refine ⟨i1, i2, i3, i4, i5, i6, i7, it, j1, ?_, ?_⟩
        · simp only [List.length_cons]; omega
        · intro h; have := j3 h; simp only [List.length_cons]; omega
      · rw [if_neg h1]
        by_cases h2 : wordOf icu self.state_.locale
            (tempSubString self.state_.data start (stop - start)) ∈ self.ignored_words_
        · rw [if_pos h2]
          obtain ⟨i1, i2, i3, i4, i5, i6, i7, it, j1, j2, j3⟩ := ih
            { self with state_ :=
              { self.state_ with
                tmp_buf := wordOf icu self.state_.locale
                  (tempSubString self.state_.data start (stop - start)) } } stop stopStatus
          refine ⟨i1, i2, i3, i4, i5, i6, i7, it, j1, ?_, ?_⟩
          · simp only [List.length_cons]; omega
          · intro h; have := j3 h; simp only [List.length_cons]; omega
        · rw [if_neg h2]
          simp

theorem nextLoop_offsets (icu : Icu) (bound : Int) (rest : List (Int × Int)) :
    ∀ (self : text_token_stream) (start status : Int), 0 ≤ start →
      (start :: rest.map Prod.fst).Pairwise (· < ·) → (∀ b ∈ rest, b.1 ≤ bound) →
      (∃ it, (nextLoop icu self start status rest).2.state_.break_iterator = some it ∧
        0 ≤ it.current ∧ (it.current :: it.rest.map Prod.fst).Pairwise (· < ·) ∧
        ∀ b ∈ it.rest, b.1 ≤ bound) ∧
      ((nextLoop icu self start status rest).1 = true →
        0 ≤ (nextLoop icu self start status rest).2.attrs_.offset_start ∧
        (nextLoop icu self start status rest).2.attrs_.offset_start
          ≤ (nextLoop icu self start status rest).2.attrs_.offset_end ∧
        (nextLoop icu self start status rest).2.attrs_.offset_end ≤ bound) := by
  induction rest with
  | nil =>
    intro self start status h0 _ _
    simp [nextLoop, h0]
  | cons b rest ih =>
    obtain ⟨stop, stopStatus⟩ := b
    intro self start status h0 hp hb
    simp only [List.map_cons, List.pairwise_cons] at hp
    have hlt : start < stop := hp.1 stop (List.mem_cons_self _ _)
    have hp' : (stop :: rest.map Prod.fst).Pairwise (· < ·) := List.pairwise_cons.2 hp.2
    have hb' : ∀ b ∈ rest, b.1 ≤ bound := fun b hb1 => hb b (List.mem_cons_of_mem _ hb1)
    have hstop : stop ≤ bound := hb (stop, stopStatus) (List.mem_cons_self _ _)
    rw [nextLoop_cons]
    by_cases hd : stop = DONE
    · rw [if_pos hd]
      refine ⟨⟨_, rfl, by simp only; omega, hp', hb'⟩, ?_⟩
      intro h
      exact absurd h (by simp)
    · rw [if_neg hd]
      by_cases h1 : stopStatus = UBRK_WORD_NONE
      · rw [if_pos h1]
        exact ih self stop stopStatus (by omega) hp' hb'
      · rw [if_neg h1]
        by_cases h2 : wordOf icu self.state_.locale
            (tempSubString self.state_.data start (stop - start)) ∈ self.ignored_words_
        · rw [if_pos h2]
          exact ih _ stop stopStatus (by omega) hp' hb'
        · rw [if_neg h2]
          refine ⟨⟨_, rfl, by simp only; omega, hp', hb'⟩, ?_⟩
          intro _
          simp only
          omega

theorem resetData_eq (icu : Icu) (self : text_token_stream) (state : state_t)
    (locale : IcuLocale) (iterator : BreakIterator) (data : List Char) :
    resetData icu self state locale iterator data =
      if utf8Length icu self data ≤ INT32_MAX then
        (true, resetShape icu self state locale data)
      else
        (false, { self with state_ :=
          { state with stemmer := state.stemmer || icu.sb_stemmer_new self.locale_.language } })
      := by
  have hst : (if ¬ state.stemmer = true then
        { state with stemmer := icu.sb_stemmer_new self.locale_.language } else state)
      = { state with stemmer := state.stemmer || icu.sb_stemmer_new self.locale_.language } := by
    by_cases h : state.stemmer = true
    · cases state; simp_all
    · have h' : state.stemmer = false := by simpa using h
      simp [h']
  unfold resetData utf8Length resetShape boundText
  simp only [hst]
  by_cases hu : self.locale_.utf8 = true
  · simp only [hu, if_true]
    by_cases hlen : data.length > INT32_MAX
    · rw [if_pos hlen, if_neg (by omega)]
    · rw [if_neg hlen, if_pos (by omega)]
  · simp only [hu, Bool.false_eq_true, if_false]
    by_cases hlen : (icu.to_utf data self.locale_.encoding).length > INT32_MAX
    · rw [if_pos hlen, if_neg (by omega)]
    · rw [if_neg hlen, if_pos (by omega)]

theorem resetData_true (icu : Icu) (self : text_token_stream) (state : state_t)
    (locale : IcuLocale) (iterator : BreakIterator) (data : List Char) (s1 : text_token_stream)
    (h : resetData icu self state locale iterator data = (true, s1)) :
    s1 = resetShape icu self state locale data ∧ utf8Length icu self data ≤ INT32_MAX := by
  rw [resetData_eq] at h
  by_cases hl : utf8Length icu self data ≤ INT32_MAX
  · rw [if_pos hl] at h
    simp only [Prod.mk.injEq, true_and] at h
    exact ⟨h.symm, hl⟩
  · rw [if_neg hl] at h
    simp at h

theorem resetBreakIterator_true (icu : Icu) (self : text_token_stream) (state : state_t)
    (locale : IcuLocale) (err : UErrorCode) (data : List Char) (s1 : text_token_stream)
    (h : resetBreakIterator icu self state locale err data = (true, s1)) :
    s1 = resetShape icu self state locale data ∧ utf8Length icu self data ≤ INT32_MAX := by
  unfold resetBreakIterator at h
  cases hb : state.break_iterator with
  | none =>
    rw [hb] at h
    simp only at h
    split_ifs at h with h1
    · simp at h
    · exact resetData_true icu self state locale _ data s1 h
  | some iterator =>
    rw [hb] at h
    exact resetData_true icu self state locale _ data s1 h

theorem resetTransliterator_true (icu : Icu) (self : text_token_stream) (state : state_t)
    (locale : IcuLocale) (err : UErrorCode) (data : List Char) (s1 : text_token_stream)
    (h : resetTransliterator icu self state locale err data = (true, s1)) :
    s1 = resetShape icu self { state with transliterator := true } locale data ∧
      utf8Length icu self data ≤ INT32_MAX := by
  unfold resetTransliterator at h
  by_cases ht : state.transliterator = true
  · simp only [ht, not_true_eq_false, if_false] at h
    have := resetBreakIterator_true icu self state locale err data s1 h
    have hs : ({ state with transliterator := true } : state_t) = state := by
      cases state; simp_all
    rw [hs]
    exact this
  · rw [if_pos ht] at h
    by_cases h1 : ¬ U_SUCCESS (icu.createTransliterator err).1 = true ∨
        ¬ (icu.createTransliterator err).2 = true
    · simp only [h1, if_true] at h
      simp at h
    · simp only [h1, if_false] at h
      exact resetBreakIterator_true icu self _ locale _ data s1 h

theorem resetNormalizer_true (icu : Icu) (self : text_token_stream) (state : state_t)
    (locale : IcuLocale) (data : List Char) (s1 : text_token_stream)
    (h : resetNormalizer icu self state locale data = (true, s1)) :
    s1 = resetShape icu self { state with normalizer := true, transliterator := true }
      locale data ∧ utf8Length icu self data ≤ INT32_MAX := by
  unfold resetNormalizer at h
  by_cases hn : state.normalizer = true
  · simp only [hn, not_true_eq_false, if_false] at h
    have := resetTransliterator_true icu self state locale _ data s1 h
    have hs : ({ state with normalizer := true, transliterator := true } : state_t)
        = { state with transliterator := true } := by
      cases state; simp_all
    rw [hs]
    exact this
  · simp only at h
    rw [if_pos hn] at h
    by_cases h1 : ¬ U_SUCCESS (icu.getNFCInstance U_ZERO_ERROR).1 = true ∨
        ¬ (icu.getNFCInstance U_ZERO_ERROR).2 = true
    · simp only [h1, if_true] at h
      simp at h
    · simp only [h1, if_false] at h
      exact resetTransliterator_true icu self _ locale _ data s1 h

theorem reset_true (icu : Icu) (self : text_token_stream) (data : List Char)
    (s1 : text_token_stream) (h : self.reset icu data = (true, s1)) :
    s1 = afterReset icu self data ∧ utf8Length icu self data ≤ INT32_MAX := by
  unfold text_token_stream.reset at h
  cases hl : self.state_.locale with
  | none =>
    rw [hl] at h
    simp only at h
    split_ifs at h with hb
    · simp at h
    · obtain ⟨h1, h2⟩ := resetNormalizer_true icu self _ _ data s1 h
      refine ⟨?_, h2⟩
      rw [h1]
      simp [resetShape, afterReset, boundLocale, hl]
  | some locale =>
    rw [hl] at h
    simp only at h
    obtain ⟨h1, h2⟩ := resetNormalizer_true icu self _ _ data s1 h
    refine ⟨?_, h2⟩
    rw [h1]
    simp [resetShape, afterReset, boundLocale, hl]

theorem reset_ready (icu : Icu) (self : text_token_stream) (data : List Char)
    (locale : IcuLocale) (iterator : BreakIterator)
    (hl : self.state_.locale = some locale) (hn : self.state_.normalizer = true)
    (ht : self.state_.transliterator = true)
    (hb : self.state_.break_iterator = some iterator)
    (hlen : utf8Length icu self data ≤ INT32_MAX) :
    self.reset icu data = (true, afterReset icu self data) := by
  unfold text_token_stream.reset
  rw [hl]
  simp only
  unfold resetNormalizer
  simp only [hn, not_true_eq_false, if_false]
  unfold resetTransliterator
  simp only [ht, not_true_eq_false, if_false]
  unfold resetBreakIterator
  rw [hb]
  simp only
  rw [resetData_eq, if_pos hlen]
  simp [resetShape, afterReset, boundLocale, hl, hn, ht]

theorem next_within (icu : Icu) (bound : Int) (self : text_token_stream)
    (h : WithinBound bound self) :
    ∃ r, self.next icu = some r ∧ WithinBound bound r.2 ∧
      (r.1 = true → 0 ≤ r.2.token.start ∧ r.2.token.start ≤ r.2.token.stop ∧
        r.2.token.stop ≤ bound) := by
  obtain ⟨it, hit, h0, hp, hb⟩ := h
  refine ⟨nextLoop icu self it.current it.status it.rest, ?_, ?_⟩
  · simp [text_token_stream.next, hit]
  · exact nextLoop_offsets icu bound it.rest self it.current it.status h0 hp hb

theorem nextTimes_within (icu : Icu) (bound : Int) (k : Nat) :
    ∀ (self t : text_token_stream), WithinBound bound self →
      nextTimes icu k self = some t → WithinBound bound t := by
  induction k with
  | zero =>
    intro self t h ht
    simp only [nextTimes, Option.some.injEq] at ht
    exact ht ▸ h
  | succ k ih =>
    intro self t h ht
    obtain ⟨r, hr, hw, -⟩ := next_within icu bound self h
    simp only [nextTimes, hr] at ht
    exact ih r.2 t hw ht

theorem drainFuel_within (icu : Icu) (bound : Int) (fuel : Nat) :
    ∀ (self : text_token_stream), WithinBound bound self →
      ∀ tok ∈ drainFuel icu fuel self,
        0 ≤ tok.start ∧ tok.start ≤ tok.stop ∧ tok.stop ≤ bound := by
  induction fuel with
  | zero =>
    intro self _ tok htok
    simp [drainFuel] at htok
  | succ fuel ih =>
    intro self h tok htok
    obtain ⟨r, hr, hw, hoff⟩ := next_within icu bound self h
    obtain ⟨flag, after⟩ := r
    unfold drainFuel at htok
    rw [hr] at htok
    cases flag with
    | false => simp at htok
    | true =>
      simp only [List.mem_cons] at htok
      rcases htok with rfl | htok
      · exact hoff rfl
      · exact ih after hw tok htok

theorem afterReset_within (icu : Icu) (self : text_token_stream) (data : List Char)
    (hbounds : icu.BoundariesOk) :
    WithinBound ((boundText icu self data).length : Int) (afterReset icu self data) := by
  obtain ⟨h1, h2⟩ := hbounds (boundLocale self) (boundText icu self data)
  exact ⟨_, rfl, le_refl _, h1, h2⟩

theorem within_mono (bound bound2 : Int) (hle : bound ≤ bound2) (self : text_token_stream)
    (h : WithinBound bound self) : WithinBound bound2 self := by
  obtain ⟨it, hit, h0, hp, hb⟩ := h
  exact ⟨it, hit, h0, hp, fun b hb1 => le_trans (hb b hb1) hle⟩

theorem asciiIcu_ok (locale : Locale) : asciiIcu.HelpersOk locale :=
  ⟨rfl, fun _ he => ⟨he, rfl⟩, fun _ he => ⟨he, rfl⟩, fun _ _ he => ⟨he, rfl⟩⟩

theorem asciiIcu_boundaries : asciiIcu.BoundariesOk := by
  intro locale text
  by_cases h1 : text = "quick FOX".toList
  · subst h1
    have hb : asciiIcu.wordBoundaries locale "quick FOX".toList
        = [(5, 200), (6, 0), (9, 200)] := rfl
    rw [hb]
    decide
  · by_cases h2 : text = []
    · subst h2
      simp [asciiIcu]
    · have hpos : 0 < text.length := List.length_pos.2 h2
      simp only [asciiIcu, h1, h2, if_false]
      simp
      omega

theorem nextLoop_sim (icu : Icu) (rest : List (Int × Int)) :
    ∀ (a b : text_token_stream) (start status : Int), Sim a b →
      (nextLoop icu a start status rest).1 = (nextLoop icu b start status rest).1 ∧
      Sim (nextLoop icu a start status rest).2 (nextLoop icu b start status rest).2 ∧
      ((nextLoop icu a start status rest).1 = true →
        (nextLoop icu a start status rest).2.token
          = (nextLoop icu b start status rest).2.token) := by
  induction rest with
  | nil =>
    intro a b start status h
    obtain ⟨h1, h2, h3, h4, h5, h6⟩ := h
    refine ⟨rfl, ⟨h1, h2, rfl, h4, h5, h6⟩, ?_⟩
    intro hf
    simp [nextLoop] at hf
  | cons c rest ih =>
    obtain ⟨stop, stopStatus⟩ := c
    intro a b start status h
    obtain ⟨aattrs, alocale, ⟨abi, adata, aloc, anorm, astem, atmp, atrans⟩, aiw⟩ := a
    obtain ⟨battrs, blocale, ⟨bbi, bdata, bloc, bnorm, bstem, btmp, btrans⟩, biw⟩ := b
    obtain ⟨h1, h2, h3, h4, h5, h6⟩ := h
    simp only at h1 h2 h3 h4 h5 h6
    subst h1 h2 h3 h4 h5 h6
    rw [nextLoop_cons, nextLoop_cons]
    by_cases hd : stop = DONE
    · rw [if_pos hd, if_pos hd]
      refine ⟨rfl, ⟨rfl, rfl, rfl, rfl, rfl, rfl⟩, ?_⟩
      intro hf
      simp at hf
    · rw [if_neg hd, if_neg hd]
      by_cases hn : stopStatus = UBRK_WORD_NONE
      · rw [if_pos hn, if_pos hn]
        exact ih _ _ stop stopStatus ⟨rfl, rfl, rfl, rfl, rfl, rfl⟩
      · rw [if_neg hn, if_neg hn]
        simp only
        by_cases hw : wordOf icu aloc (tempSubString adata start (stop - start)) ∈ aiw
        · rw [if_pos hw, if_pos hw]
          exact ih _ _ stop stopStatus ⟨rfl, rfl, rfl, rfl, rfl, rfl⟩
        · rw [if_neg hw, if_neg hw]
          exact ⟨rfl, ⟨rfl, rfl, rfl, rfl, rfl, rfl⟩, fun _ => rfl⟩

theorem drainFuel_sim (icu : Icu) (fuel : Nat) :
    ∀ (a b : text_token_stream), Sim a b → drainFuel icu fuel a = drainFuel icu fuel b := by
  induction fuel with
  | zero => intro a b _; rfl
  | succ fuel ih =>
    intro a b h
    have hbi := h.2.2.1
    unfold drainFuel text_token_stream.next
    rw [← hbi]
    cases hit : a.state_.break_iterator with
    | none => rfl
    | some it =>
      simp only
      obtain ⟨i1, i2, i3⟩ := nextLoop_sim icu it.rest a b it.current it.status h
      generalize hra : nextLoop icu a it.current it.status it.rest = ra at i1 i2 i3
      generalize hrb : nextLoop icu b it.current it.status it.rest = rb at i1 i2 i3
      obtain ⟨fa, sa⟩ := ra
      obtain ⟨fb, sb⟩ := rb
      simp only at i1 i2 i3
      subst i1
      cases fa with
      | false => rfl
      | true =>
        simp only
        rw [i3 rfl, ih sa sb i2]

theorem nextTimes_frame (icu : Icu) (k : Nat) :
    ∀ (self t : text_token_stream), nextTimes icu k self = some t →
      t.locale_ = self.locale_ ∧ t.ignored_words_ = self.ignored_words_ ∧
      t.state_.data = self.state_.data ∧ t.state_.locale = self.state_.locale ∧
      t.state_.stemmer = self.state_.stemmer ∧
      t.state_.normalizer = self.state_.normalizer ∧
      t.state_.transliterator = self.state_.transliterator ∧
      (self.state_.break_iterator.isSome = true → t.state_.break_iterator.isSome = true) := by
  induction k with
  | zero =>
    intro self t h
    simp only [nextTimes, Option.some.injEq] at h
    subst h
    exact ⟨rfl, rfl, rfl, rfl, rfl, rfl, rfl, fun h => h⟩
  | succ k ih =>
    intro self t h
    unfold nextTimes text_token_stream.next at h
    cases hit : self.state_.break_iterator with
    | none =>
      rw [hit] at h
      simp at h
    | some it =>
      rw [hit] at h
      simp only at h
      obtain ⟨i1, i2, i3, i4, i5, i6, i7, i8⟩ := ih _ t h
      obtain ⟨j1, j2, j3, j4, j5, j6, j7, it2, j8, -⟩ :=
        nextLoop_frame icu it.rest self it.current it.status
      refine ⟨i1.trans j1, i2.trans j2, i3.trans j3, i4.trans j4, i5.trans j5, i6.trans j6,
        i7.trans j7, fun _ => i8 (by rw [j8]; rfl)⟩

theorem drainFuel_enough (icu : Icu) (fuel : Nat) :
    ∀ (self : text_token_stream), self.boundariesLeft < fuel →
      drainFuel icu (fuel + 1) self = drainFuel icu fuel self := by
  induction fuel with
  | zero => intro self h; omega
  | succ fuel ih =>
    intro self h
    rw [drainFuel, drainFuel]
    unfold text_token_stream.next
    cases hit : self.state_.break_iterator with
    | none => rfl
    | some it =>
      simp only
      obtain ⟨-, -, -, -, -, -, -, it2, j8, j9, j10⟩ :=
        nextLoop_frame icu it.rest self it.current it.status
      generalize hr : nextLoop icu self it.current it.status it.rest = r at j8 j10
      obtain ⟨flag, after⟩ := r
      cases flag with
      | false => rfl
      | true =>
        simp only
        have hlt : after.boundariesLeft < fuel := by
          have h1 := j10 rfl
          have h2 : self.boundariesLeft = it.rest.length := by
            simp [text_token_stream.boundariesLeft, hit]
          have h3 : after.boundariesLeft = it2.rest.length := by
            simp only at j8
            simp [text_token_stream.boundariesLeft, j8]
          omega
        rw [ih after hlt]

/-- C16 (reset idempotence P6). After a successful `reset(x)`, however many
calls of `next()` have been made since, a further `reset(x)` succeeds and
draining the stream after it gives the same tokens, term and offsets, as
draining it right after the first `reset(x)`. -/
theorem reset_idempotent (icu : Icu) (self s1 t : text_token_stream) (x : List Char)
    (k : Nat) (hreset : self.reset icu x = (true, s1))
    (hk : nextTimes icu k s1 = some t) :
    (t.reset icu x).1 = true ∧ drain icu (t.reset icu x).2 = drain icu s1 := by
  obtain ⟨hs1, hlen⟩ := reset_true icu self x s1 hreset
  obtain ⟨f1, f2, f3, f4, f5, f6, f7, f8⟩ := nextTimes_frame icu k s1 t hk
  subst hs1
  have hsome : t.state_.break_iterator.isSome = true := f8 rfl
  obtain ⟨it, hit⟩ := Option.isSome_iff_exists.1 hsome
  have hlen2 : utf8Length icu t x ≤ INT32_MAX := by
    have : utf8Length icu t x = utf8Length icu self x := by
      simp only [utf8Length, f1]
      rfl
    rw [this]
    exact hlen
  have hready := reset_ready icu t x (boundLocale self) it f4 f6 f7 hit hlen2
  rw [hready]
  refine ⟨rfl, ?_⟩
  have hloc : boundLocale t = boundLocale self := by
    simp only [boundLocale, f4]
    rfl
  have htext : boundText icu t x = boundText icu self x := by
    simp only [boundText, f1]
    rfl
  have hsim : Sim (afterReset icu t x) (afterReset icu self x) := by
    refine ⟨f1, f2, ?_, ?_, ?_, ?_⟩
    · simp only [afterReset, hloc, htext]
    · simp only [afterReset, htext]
    · simp only [afterReset, hloc]
    · have h5 : t.state_.stemmer
          = (self.state_.stemmer || icu.sb_stemmer_new self.locale_.language) := f5
      have h1 : t.locale_.language = self.locale_.language := by
        have : t.locale_ = self.locale_ := f1
        rw [this]
      simp only [afterReset, h5, h1, Bool.or_assoc, Bool.or_self]
  have hleft : (afterReset icu t x).boundariesLeft = (afterReset icu self x).boundariesLeft := by
    simp only [text_token_stream.boundariesLeft, afterReset, hloc, htext]
  unfold drain
  rw [hleft]
  exact drainFuel_sim icu _ _ _ hsim

/-- Witness of C16: the analyzer for `en_US.UTF-8` on `quick FOX`, reset
again after one call of `next()`. -/
theorem reset_idempotent_witness :
    ((nextLoop asciiIcu (afterReset asciiIcu (text_token_stream.new exampleLocale ∅)
        "quick FOX".toList) 0 0 [(5, 200), (6, 0), (9, 200)]).2.reset asciiIcu
        "quick FOX".toList).1 = true ∧
    drain asciiIcu
        ((nextLoop asciiIcu (afterReset asciiIcu (text_token_stream.new exampleLocale ∅)
          "quick FOX".toList) 0 0 [(5, 200), (6, 0), (9, 200)]).2.reset asciiIcu
          "quick FOX".toList).2
      = drain asciiIcu (afterReset asciiIcu (text_token_stream.new exampleLocale ∅)
          "quick FOX".toList) :=
  reset_idempotent asciiIcu (text_token_stream.new exampleLocale ∅) _ _ "quick FOX".toList 1
    (by decide) rfl

end analysis
end iresearch

/-! # Theorems: n-gram similarity filter -/

namespace iresearch
namespace ngram_similarity

theorem m_min_eq_ceil (t : Threshold) (n : Nat) (h : 0 < t.den) :
    m_min t n = ⌈((t.num : ℚ) / t.den) * n⌉₊ := by
  have hd : (0 : ℚ) < t.den := by exact_mod_cast h
  apply le_antisymm
  · unfold m_min
    have hle : ((t.num : ℚ) / t.den) * n ≤ ⌈((t.num : ℚ) / t.den) * n⌉₊ := Nat.le_ceil _
    have h2 : t.num * n ≤ ⌈((t.num : ℚ) / t.den) * n⌉₊ * t.den := by
      have h3 : ((t.num * n : Nat) : ℚ) ≤ ((⌈((t.num : ℚ) / t.den) * n⌉₊ * t.den : Nat) : ℚ) := by
        push_cast
        have h4 : ((t.num : ℚ) / t.den) * n * t.den = t.num * n := by
          field_simp
        rw [← h4]
        exact mul_le_mul_of_nonneg_right hle hd.le
      exact_mod_cast h3
    have h5 : (t.num * n + t.den - 1) / t.den < ⌈((t.num : ℚ) / t.den) * n⌉₊ + 1 := by
      rw [Nat.div_lt_iff_lt_mul h]
      have : (⌈((t.num : ℚ) / t.den) * n⌉₊ + 1) * t.den
          = ⌈((t.num : ℚ) / t.den) * n⌉₊ * t.den + t.den := by ring
      omega
    omega
  · rw [Nat.ceil_le]
    unfold m_min
    have h1 : t.num * n ≤ (t.num * n + t.den - 1) / t.den * t.den := by
      have h2 := Nat.div_add_mod (t.num * n + t.den - 1) t.den
      have h3 := Nat.mod_lt (t.num * n + t.den - 1) h
      have h4 : t.den * ((t.num * n + t.den - 1) / t.den)
          = (t.num * n + t.den - 1) / t.den * t.den := Nat.mul_comm _ _
      omega
    have h5 : ((t.num * n : Nat) : ℚ) ≤ (((t.num * n + t.den - 1) / t.den * t.den : Nat) : ℚ) := by
      exact_mod_cast h1
    rw [div_mul_eq_mul_div, div_le_iff₀ hd]
    push_cast at h5
    exact_mod_cast h5

theorem foldl_invariant {α β : Type} (P : β → Prop) (f : β → α → β) (l : List α) (init : β)
    (h0 : P init) (hstep : ∀ b a, a ∈ l → P b → P (f b a)) : P (l.foldl f init) := by
  induction l generalizing init with
  | nil => exact h0
  | cons x xs ih =>
    simp only [List.foldl_cons]
    apply ih
    · exact hstep init x (List.mem_cons_self _ _) h0
    · intro b a ha hb
      exact hstep b a (List.mem_cons_of_mem _ ha) hb

theorem predecessor_some (best : List (Option Best)) (j p : Nat) (b : Best)
    (h : predecessor best j p = some b) :
    ∃ i, i < j ∧ best.get? i = some (some b) ∧ b.ending_position < p := by
  unfold predecessor at h
  rw [List.findSome?_eq_some_iff] at h
  obtain ⟨l1, a, l2, hl, ha, -⟩ := h
  cases a with
  | none => simp at ha
  | some c =>
    simp only at ha
    by_cases hc : c.ending_position < p
    · rw [if_pos hc] at ha
      cases ha
      have hmem : (some b) ∈ (best.take j) := by
        rw [← List.mem_reverse, hl]
        simp
      rw [List.mem_iff_getElem?] at hmem
      obtain ⟨i, hi⟩ := hmem
      rw [List.getElem?_take] at hi
      by_cases hij : i < j
      · rw [if_pos hij] at hi
        exact ⟨i, hij, by simpa using hi, hc⟩
      · rw [if_neg hij] at hi
        cases hi
    · rw [if_neg hc] at ha
      cases ha

theorem take_succ_of_get (l : List Term) (j : Nat) (t : Term) (h : l.get? j = some t) :
    l.take (j + 1) = l.take j ++ [t] := by
  rw [List.take_succ]
  simp only [List.get?_eq_getElem?] at h
  rw [h]
  rfl

theorem sound_new_entry (query doc : List Term) (best : List (Option Best)) (j p : Nat) (t : Term)
    (hs : Sound query doc best) (hq : query.get? j = some t) (hd : doc.get? p = some t) :
    ∃ s : List Term, s.length = (match predecessor best j p with
        | some b => b.length + 1
        | none => 1)
      ∧ List.Sublist s (query.take (j + 1)) ∧ List.Sublist s (doc.take (p + 1)) := by
  rw [take_succ_of_get query j t hq, take_succ_of_get doc p t hd]
  cases hp : predecessor best j p with
  | none =>
    exact ⟨[t], rfl, List.sublist_append_right _ _, List.sublist_append_right _ _⟩
  | some b =>
    obtain ⟨i, hij, hbi, hlt⟩ := predecessor_some best j p b hp
    obtain ⟨s, hlen, hsq, hsd⟩ := hs i b hbi
    refine ⟨s ++ [t], by simp [hlen], ?_, ?_⟩
    · exact List.Sublist.append (hsq.trans (List.take_sublist_take_left _ (by omega)))
        (List.Sublist.refl _)
    · exact List.Sublist.append (hsd.trans (List.take_sublist_take_left _ (by omega)))
        (List.Sublist.refl _)

theorem sound_set (query doc : List Term) (best : List (Option Best)) (j : Nat) (b : Best)
    (hs : Sound query doc best)
    (hb : ∃ s : List Term, s.length = b.length ∧ List.Sublist s (query.take (j + 1))
      ∧ List.Sublist s (doc.take (b.ending_position + 1))) :
    Sound query doc (best.set j (some b)) := by
  intro i c hi
  simp only [List.get?_eq_getElem?] at hi
  rw [List.getElem?_set] at hi
  by_cases hij : j = i
  · subst hij
    rw [if_pos rfl] at hi
    by_cases hlt : j < best.length
    · rw [if_pos hlt] at hi
      cases hi
      exact hb
    · rw [if_neg hlt] at hi
      cases hi
  · rw [if_neg hij] at hi
    exact hs i c (by simpa using hi)

theorem sound_step (query doc : List Term) (best : List (Option Best)) (j p : Nat) (t : Term)
    (hs : Sound query doc best) (hq : query.get? j = some t) (hd : doc.get? p = some t) :
    Sound query doc (step best j p) := by
  have hnew := sound_new_entry query doc best j p t hs hq hd
  unfold step
  simp only
  cases best.getD j none with
  | none => exact sound_set query doc best j _ hs hnew
  | some b =>
    simp only
    split_ifs
    · exact sound_set query doc best j _ hs hnew
    · exact sound_set query doc best j _ hs hnew
    · exact hs

theorem sound_scanFrom (query doc : List Term) (start : Nat) :
    Sound query doc (scanFrom query doc start) := by
  unfold scanFrom
  apply foldl_invariant (Sound query doc)
  · intro j b h
    simp only [List.get?_eq_getElem?] at h
    rw [List.getElem?_replicate] at h
    split_ifs at h
    cases h
  · intro best p hp hs
    by_cases hsp : start ≤ p
    · rw [if_pos hsp]
      apply foldl_invariant (Sound query doc)
      · exact hs
      · intro best2 j hj hs2
        have hp2 : p < doc.length := List.mem_range.mp hp
        have hq : query.get? j = some (doc.getD p 0) := by
          unfold slotsOf at hj
          rw [List.mem_filter] at hj
          simpa using hj.2
        have hd : doc.get? p = some (doc.getD p 0) := by
          simp [List.getD_eq_getElem?_getD, List.getElem?_eq_getElem hp2]
        exact sound_step query doc best2 j p _ hs2 hq hd
    · rw [if_neg hsp]
      exact hs

theorem le_foldr_max (l : List Nat) (x : Nat) (h : x ∈ l) : x ≤ l.foldr max 0 := by
  induction l with
  | nil => cases h
  | cons y ys ih =>
    simp only [List.foldr_cons]
    rcases List.mem_cons.mp h with rfl | h
    · exact le_max_left _ _
    · exact le_trans (ih h) (le_max_right _ _)

theorem length_le_losReference (query doc s : List Term) (hq : List.Sublist s query)
    (hd : List.Sublist s doc) : s.length ≤ losReference query doc := by
  unfold losReference
  apply le_foldr_max
  rw [List.mem_map]
  refine ⟨s, ?_, rfl⟩
  rw [List.mem_filter]
  exact ⟨List.mem_sublists.mpr hq, by simpa using hd⟩

theorem losLength_le_bound (best : List (Option Best)) (bound : Nat)
    (h : ∀ j b, best.get? j = some (some b) → b.length ≤ bound) : losLength best ≤ bound := by
  unfold losLength
  have key : ∀ (l : List (Option Best)) (m : Nat), m ≤ bound →
      (∀ b, some b ∈ l → b.length ≤ bound) →
      l.foldl (fun m entry =>
        match entry with
        | some b => max m b.length
        | none => m) m ≤ bound := by
    intro l
    induction l with
    | nil => intro m hm _; exact hm
    | cons x xs ih =>
      intro m hm hall
      simp only [List.foldl_cons]
      apply ih
      · cases x with
        | none => exact hm
        | some b => exact max_le hm (hall b (List.mem_cons_self _ _))
      · intro b hb
        exact hall b (List.mem_cons_of_mem _ hb)
  apply key best 0 (Nat.zero_le _)
  intro b hb
  rw [List.mem_iff_get?] at hb
  obtain ⟨j, hj⟩ := hb
  exact h j b hj

/-- The state machine never reports more than the length of a longest ordered subsequence. -/
theorem losLength_le_losReference (query doc : List Term) (start : Nat) :
    losLength (scanFrom query doc start) ≤ losReference query doc := by
  apply losLength_le_bound
  intro j b hb
  obtain ⟨s, hlen, hsq, hsd⟩ := sound_scanFrom query doc start j b hb
  rw [← hlen]
  exact length_le_losReference query doc s (hsq.trans (List.take_sublist _ _))
    (hsd.trans (List.take_sublist _ _))

theorem mem_execute (query : List Term) (threshold : Threshold) (segment : List (List Term))
    (d : MatchDescriptor) (h : d ∈ execute query threshold segment) :
    d.document < segment.length
      ∧ m_min threshold query.length ≤ (presentTerms query (segment.getD d.document [])).length
      ∧ m_min threshold query.length ≤ d.boost_num
      ∧ d.boost_num = losLength (scanFrom query (segment.getD d.document []) 0)
      ∧ d.boost_den = query.length
      ∧ d.frequency = frequency query (segment.getD d.document []) := by
  unfold execute at h
  split_ifs at h with hprune
  · cases h
  · rw [List.mem_filterMap] at h
    obtain ⟨i, hi, hd⟩ := h
    split_ifs at hd with h1 h2
    cases hd
    exact ⟨List.mem_range.mp hi, h1, h2, rfl, rfl, rfl⟩

/-- The boost of an emitted document never exceeds `len(LOS) / n`. -/
theorem boost_le_reference (query : List Term) (threshold : Threshold)
    (segment : List (List Term)) (d : MatchDescriptor)
    (h : d ∈ execute query threshold segment) :
    d.boost_num ≤ losReference query (segment.getD d.document []) ∧ d.boost_den = query.length := by
  obtain ⟨-, -, -, hnum, hden, -⟩ := mem_execute query threshold segment d h
  rw [hnum]
  exact ⟨losLength_le_losReference query _ 0, hden⟩

/-- An emitted document holds an ordered subsequence of at least `m_min` slots. -/
theorem emitted_reaches_threshold (query : List Term) (threshold : Threshold)
    (segment : List (List Term)) (d : MatchDescriptor)
    (h : d ∈ execute query threshold segment) :
    m_min threshold query.length ≤ losReference query (segment.getD d.document []) := by
  obtain ⟨-, -, hmin, hnum, -, -⟩ := mem_execute query threshold segment d h
  rw [hnum] at hmin
  exact le_trans hmin (losLength_le_losReference query _ 0)

end ngram_similarity
end iresearch

/-! # Theorems: table matcher, cache, rows and cursor -/

namespace fst

/-! ## The label cache -/

theorem find_label_offset_mem (m : TableMatcher) (l : Int)
    (h : m.start_labels_.Pairwise (· < ·)) :
    m.find_label_offset l =
      if l ∈ m.start_labels_ then m.start_labels_.indexOf l else m.start_labels_.length := by
  rw [find_label_offset_eq m l h]
  split_ifs with hm
  · rfl
  · exact List.indexOf_eq_length.2 hm

theorem Find_congr (Rho : Int) (m1 m2 : TableMatcher) (l : Int) (off : Nat)
    (h1 : (if toSizeT l < m1.cached_label_offsets_.length then
        m1.cached_label_offsets_[toSizeT l]? else some (m1.find_label_offset l)) = some off)
    (h2 : (if toSizeT l < m2.cached_label_offsets_.length then
        m2.cached_label_offsets_[toSizeT l]? else some (m2.find_label_offset l)) = some off)
    (hs : m1.start_labels_ = m2.start_labels_) (ht : m1.transitions_ = m2.transitions_)
    (hb : m1.state_begin_ = m2.state_begin_) (he : m1.state_end_ = m2.state_end_)
    (hc : m1.state_ = m2.state_) (ha : m1.arc_ = m2.arc_) :
    (TableMatcher.Find Rho m1 l).map (fun r => (r.1, r.2.state_, r.2.arc_))
      = (TableMatcher.Find Rho m2 l).map (fun r => (r.1, r.2.state_, r.2.arc_)) := by
  unfold TableMatcher.Find
  simp only [h1, h2, hs, ht, hb, he]
  generalize (if off = m2.start_labels_.length then
      match m2.start_labels_.getLast? with
      | none => none
      | some back =>
        if back ≠ Rho then some none else some (some (m2.start_labels_.length - 1))
    else some (some off)) = adjusted
  rcases adjusted with _ | _ | off2
  · rfl
  · simp only [Option.map_some', hc, ha]
  · simp only
    cases m2.state_begin_ with
    | none => rfl
    | some b =>
      cases m2.state_end_ with
      | none => rfl
      | some e =>
        simp only
        split_ifs with hlt
        · cases m2.transitions_[b + off2]? with
          | none => rfl
          | some v => simp only [Option.map_some', ha]
        · rfl

theorem foldStates_rows (Rho : Int) (TYPE : MatchType) (f : Fst)
    (hA : ∀ s, s < f.NumStates →
      (f.arcs s).Pairwise (fun x y => matchLabel TYPE x < matchLabel TYPE y))
    (k : Nat) (hk : k ≤ f.NumStates) :
    ((List.range k).foldl
      (fun t state => initState Rho TYPE f (getStartLabels TYPE f) t state)
      (List.replicate (f.NumStates * (getStartLabels TYPE f).length) kNoStateId)).length
        = f.NumStates * (getStartLabels TYPE f).length ∧
    (∀ s, s < k → RowSpec Rho TYPE f (getStartLabels TYPE f)
      ((List.range k).foldl
        (fun t state => initState Rho TYPE f (getStartLabels TYPE f) t state)
        (List.replicate (f.NumStates * (getStartLabels TYPE f).length) kNoStateId)) s) ∧
    (∀ idx, k * (getStartLabels TYPE f).length ≤ idx →
      idx < f.NumStates * (getStartLabels TYPE f).length →
      ((List.range k).foldl
        (fun t state => initState Rho TYPE f (getStartLabels TYPE f) t state)
        (List.replicate (f.NumStates * (getStartLabels TYPE f).length) kNoStateId))[idx]?
          = some kNoStateId) := by
  induction k with
  | zero =>
    refine ⟨by simp, fun s hs => absurd hs (Nat.not_lt_zero s), ?_⟩
    intro idx _ hidx
    simp [List.getElem?_replicate, hidx]
  | succ k ih =>
    obtain ⟨i1, i2, i3⟩ := ih (by omega)
    rw [List.range_succ, List.foldl_append]
    simp only [List.foldl_cons, List.foldl_nil]
    generalize hT : (List.range k).foldl
      (fun t state => initState Rho TYPE f (getStartLabels TYPE f) t state)
      (List.replicate (f.NumStates * (getStartLabels TYPE f).length) kNoStateId) = T
      at i1 i2 i3 ⊢
    generalize hLdef : getStartLabels TYPE f = L at i1 i2 i3 ⊢
    have hL : L.Pairwise (· < ·) := hLdef ▸ getStartLabels_pairwise TYPE f
    have hmul : (k + 1) * L.length ≤ f.NumStates * L.length := Nat.mul_le_mul_right _ hk
    have hsucc : (k + 1) * L.length = k * L.length + L.length := Nat.succ_mul _ _
    have hmem : ∀ a ∈ f.arcs k, matchLabel TYPE a ∈ L := by
      intro a ha
      rw [← hLdef]
      exact (mem_getStartLabels TYPE f _).2 ⟨k, hk, a, ha, rfl⟩
    obtain ⟨j1, j2, j3, j4⟩ := initState_spec Rho TYPE f L T k hL
      (hA k hk) hmem (by omega)
      (fun j hj => i3 _ (by omega) (by omega))
    refine ⟨j1.trans i1, ?_, ?_⟩
    · intro s hs
      rcases Nat.lt_succ_iff_lt_or_eq.1 hs with hlt | rfl
      · have hrow : (s + 1) * L.length ≤ k * L.length := Nat.mul_le_mul_right _ hlt
        have hsucc' : (s + 1) * L.length = s * L.length + L.length := Nat.succ_mul _ _
        obtain ⟨r1, r2⟩ := i2 s hlt
        refine ⟨?_, ?_⟩
        · intro a ha
          have hlt2 : L.indexOf (matchLabel TYPE a) < L.length := by
            apply List.indexOf_lt_length.2
            rw [← hLdef]
            exact (mem_getStartLabels TYPE f _).2 ⟨s, by omega, a, ha, rfl⟩
          rw [j4 _ (Or.inl (by omega))]
          exact r1 a ha
        · intro j hj hno
          rw [j4 _ (Or.inl (by omega))]
          exact r2 j hj hno
      · exact ⟨j2, j3⟩
    · intro idx h1 h2
      rw [j4 _ (Or.inr (by omega))]
      exact i3 idx (by omega) h2

theorem arcs_strict_of_sorted (TYPE : MatchType) (f : Fst) (hsorted : f.LabelSorted TYPE)
    (hdet : f.Deterministic TYPE) (s : Nat) (hs : s < f.NumStates) :
    (f.arcs s).Pairwise (fun x y => matchLabel TYPE x < matchLabel TYPE y) := by
  have h1 := hsorted _ (arcs_mem_states f s hs)
  have h2 := hdet _ (arcs_mem_states f s hs)
  rw [List.pairwise_map] at h1
  rw [List.Nodup, List.pairwise_map] at h2
  exact (h1.and h2).imp (fun h => lt_of_le_of_ne h.1 h.2)

theorem indexOf_getD (L : List Int) (hn : L.Nodup) (j : Nat) (hj : j < L.length) :
    L.indexOf (L.getD j 0) = j := by
  have h : L.getD j 0 = L[j] := by
    simp [List.getD_eq_getElem?_getD, List.getElem?_eq_getElem hj]
  rw [h]
  exact List.indexOf_getElem hn j hj

/-- C23 as amended (rho fill). For a label-sorted, deterministic transducer,
every state `s` and every arc `rho` of `s` labelled `Rho` that is the last arc
of `s` (no arc of `s` has a label greater than `Rho`): after construction,
every cell of the row of `s` whose column label has no arc from `s` holds the
target of `rho`, and every cell whose column label has an arc from `s` holds
the target of that arc. -/
theorem rho_fill (Rho : Int) (CacheSize : Nat) (TYPE : MatchType) (f : Fst)
    (hsorted : f.LabelSorted TYPE) (hdet : f.Deterministic TYPE)
    (s : Nat) (rho : Arc) (hr : rho ∈ f.arcs s) (hrl : matchLabel TYPE rho = Rho)
    (hmax : ∀ a ∈ f.arcs s, matchLabel TYPE a ≤ Rho)
    (j : Nat) (hj : j < (getStartLabels TYPE f).length) :
    ((∀ a ∈ f.arcs s, matchLabel TYPE a ≠ (getStartLabels TYPE f).getD j 0) →
      (TableMatcher.new Rho CacheSize TYPE f).transitions_[
        s * (getStartLabels TYPE f).length + j]? = some rho.nextstate) ∧
    ∀ a ∈ f.arcs s, matchLabel TYPE a = (getStartLabels TYPE f).getD j 0 →
      (TableMatcher.new Rho CacheSize TYPE f).transitions_[
        s * (getStartLabels TYPE f).length + j]? = some a.nextstate := by
  have hs := state_of_arc f s rho hr
  have hA := arcs_strict_of_sorted TYPE f hsorted hdet
  obtain ⟨-, hrows, -⟩ := foldStates_rows Rho TYPE f hA f.NumStates (le_refl _)
  obtain ⟨r1, r2⟩ := hrows s hs
  have hlast : (f.arcs s).getLast? = some rho :=
    last_arc_of_max TYPE (f.arcs s) (hA s hs) rho hr (fun b hb => hrl ▸ hmax b hb)
  have hdef : rowDefault Rho TYPE f s = rho.nextstate := by
    unfold rowDefault
    rw [hlast]
    simp only [hrl, if_true]
  refine ⟨?_, ?_⟩
  · intro hno
    have := r2 j hj hno
    rw [hdef] at this
    exact this
  · intro a ha hl
    have := r1 a ha
    rw [hl, indexOf_getD _ (getStartLabels_pairwise TYPE f).nodup j hj] at this
    exact this

/-- Witness of C23 as amended: in `exampleFst` with `Rho = 100`, the cell of
state `0` in the column of the label `2`, which only state `1` carries, holds
the target `1` of the arc labelled `100`, and the cell in the column of the
label `3` holds the target `0` of the arc labelled `3`. -/
theorem rho_fill_witness :
    (TableMatcher.new 100 8 MatchType.MATCH_INPUT exampleFst).transitions_[0 * 4 + 1]?
      = some 1 ∧
    (TableMatcher.new 100 8 MatchType.MATCH_INPUT exampleFst).transitions_[0 * 4 + 2]?
      = some 0 :=
  ⟨(rho_fill 100 8 MatchType.MATCH_INPUT exampleFst
      (by decide : exampleFst.TableProps MatchType.MATCH_INPUT).2.1
      (by decide : exampleFst.TableProps MatchType.MATCH_INPUT).2.2.1 0
      { ilabel := 100, olabel := 100, weight := 0, nextstate := 1 } (by decide) rfl
      (by decide) 1 (by decide)).1 (by decide),
    (rho_fill 100 8 MatchType.MATCH_INPUT exampleFst
      (by decide : exampleFst.TableProps MatchType.MATCH_INPUT).2.1
      (by decide : exampleFst.TableProps MatchType.MATCH_INPUT).2.2.1 0
      { ilabel := 100, olabel := 100, weight := 0, nextstate := 1 } (by decide) rfl
      (by decide) 2 (by decide)).2
      { ilabel := 3, olabel := 3, weight := 0, nextstate := 0 } (by decide) rfl⟩

/-- Counterexample to C23 as stated: `rhoMiddleFst` has all the properties the
constructor asserts (it is a label-sorted, deterministic acceptor without
epsilon) and its state `0` has an arc labelled `Rho = 2` with target `0`,
followed by an arc labelled `3`. The constructor looks for `Rho` at the last
arc of a state only, so the row of state `0` is not filled: the cell in the
column of the label `5`, which has no arc from state `0`, holds `kNoStateId`
and not `0`. -/
theorem rho_fill_counterexample :
    rhoMiddleFst.Valid ∧ rhoMiddleFst.TableProps MatchType.MATCH_INPUT ∧
    ({ ilabel := 2, olabel := 2, weight := 0, nextstate := 0 } : Arc) ∈ rhoMiddleFst.arcs 0 ∧
    getStartLabels MatchType.MATCH_INPUT rhoMiddleFst = [1, 2, 3, 5] ∧
    (∀ a ∈ rhoMiddleFst.arcs 0, matchLabel MatchType.MATCH_INPUT a ≠ 5) ∧
    (TableMatcher.new 2 8 MatchType.MATCH_INPUT rhoMiddleFst).transitions_
      = [1, 0, 1, -1, -1, -1, -1, 0] ∧
    (TableMatcher.new 2 8 MatchType.MATCH_INPUT rhoMiddleFst).transitions_[0 * 4 + 3]?
      = some kNoStateId := by
  refine ⟨by decide, by decide, by decide, by decide, by decide, by decide, by decide⟩

/-! ## The cursor -/

theorem mergePass_length (TYPE : MatchType) (L : List Int) (s : Nat) (st st1 : MergeState)
    (h : mergePass TYPE L s st = some st1) :
    st1.transitions_.length = st.transitions_.length := by
  unfold mergePass at h
  split at h
  · cases h
  · cases h
  · split at h
    · cases h
    · split at h
      · cases h
      · split_ifs at h
        · cases h
          simp
        · cases h
          rfl

theorem mergeLoop_length (TYPE : MatchType) (L : List Int) (s : Nat) (fuel : Nat) :
    ∀ st : MergeState,
      (mergeLoop TYPE L s fuel st).transitions_.length = st.transitions_.length := by
  induction fuel with
  | zero => intro st; rfl
  | succ fuel ih =>
    intro st
    unfold mergeLoop
    cases h : mergePass TYPE L s st with
    | none => rfl
    | some st1 =>
      simp only
      rw [ih st1, mergePass_length TYPE L s st st1 h]

theorem initState_length (Rho : Int) (TYPE : MatchType) (f : Fst) (L T : List Int) (s : Nat) :
    (initState Rho TYPE f L T s).length = T.length := by
  unfold initState
  simp only
  rw [mergeLoop_length]
  simp only
  split
  · split_ifs
    · exact fillN_length _ _ _ _
    · rfl
  · rfl

theorem new_transitions_length (Rho : Int) (CacheSize : Nat) (TYPE : MatchType) (f : Fst) :
    (TableMatcher.new Rho CacheSize TYPE f).transitions_.length
      = f.NumStates * (getStartLabels TYPE f).length := by
  show ((List.range f.NumStates).foldl
    (fun t state => initState Rho TYPE f (getStartLabels TYPE f) t state)
    (List.replicate (f.NumStates * (getStartLabels TYPE f).length) kNoStateId)).length = _
  generalize List.range f.NumStates = states
  have key : ∀ (T : List Int),
      (states.foldl (fun t state => initState Rho TYPE f (getStartLabels TYPE f) t state)
        T).length = T.length := by
    induction states with
    | nil => intro T; rfl
    | cons x xs ih =>
      intro T
      simp only [List.foldl_cons]
      rw [ih, initState_length]
  rw [key, List.length_replicate]

theorem cacheLoop_le (size : Nat) (n : Nat) :
    ∀ (i offset : Nat) (rest : List Int), offset + rest.length ≤ size →
      ∀ v ∈ cacheLoop size n i offset rest, v ≤ size := by
  induction n with
  | zero =>
    intro i offset rest _ v hv
    simp [cacheLoop] at hv
  | succ n ih =>
    intro i offset rest hle v hv
    cases rest with
    | nil =>
      simp only [cacheLoop, List.mem_cons] at hv
      rcases hv with rfl | hv
      · exact le_refl _
      · exact ih _ _ _ hle v hv
    | cons b begin =>
      simp only [cacheLoop] at hv
      simp only [List.length_cons] at hle
      split_ifs at hv
      · rcases List.mem_cons.mp hv with rfl | hv
        · omega
        · exact ih _ _ _ (by omega) v hv
      · rcases List.mem_cons.mp hv with rfl | hv
        · exact le_refl _
        · exact ih _ _ _ (by simpa using hle) v hv

theorem lowerBound_length (label : Int) (xs : List Int) :
    (lowerBound label xs).length ≤ xs.length := by
  induction xs with
  | nil => simp [lowerBound]
  | cons x rest ih =>
    simp only [lowerBound]
    split_ifs
    · simp only [List.length_cons]; omega
    · exact le_refl _

theorem find_label_offset_le (m : TableMatcher) (label : Int) :
    m.find_label_offset label ≤ m.start_labels_.length := by
  unfold TableMatcher.find_label_offset
  split
  · exact le_refl _
  · split_ifs
    · exact le_refl _
    · exact Nat.sub_le _ _

/-- One call of `Find` keeps the cursor on the row. -/
theorem Find_keeps_cursor (Rho : Int) (m0 m : TableMatcher) (s : Nat) (label : Int)
    (hne : m0.start_labels_ ≠ [])
    (hcache : ∀ v ∈ m0.cached_label_offsets_, v ≤ m0.start_labels_.length)
    (h : CursorInRow m0 s m) :
    ∃ r, TableMatcher.Find Rho m label = some r ∧ CursorInRow m0 s r.2 := by
  obtain ⟨hL, hT, hC, hb, he, hrow, c, hc, hc1, hc2⟩ := h
  have hpos : 0 < m0.start_labels_.length := List.length_pos.2 hne
  have hlook : ∃ off, (if toSizeT label < m.cached_label_offsets_.length then
      m.cached_label_offsets_[toSizeT label]? else some (m.find_label_offset label)) = some off
      ∧ off ≤ m0.start_labels_.length := by
    split_ifs with hlt
    · refine ⟨m.cached_label_offsets_[toSizeT label], List.getElem?_eq_getElem hlt, ?_⟩
      apply hcache
      rw [← hC]
      exact List.getElem_mem _
    · exact ⟨_, rfl, hL ▸ find_label_offset_le m label⟩
  obtain ⟨off, hoff, hle⟩ := hlook
  obtain ⟨back, hback⟩ : ∃ back, m.start_labels_.getLast? = some back := by
    rw [hL]
    cases hl : m0.start_labels_.getLast? with
    | none => exact absurd (List.getLast?_eq_none_iff.1 hl) hne
    | some back => exact ⟨back, rfl⟩
  have hcell : ∀ o, o < m0.start_labels_.length →
      ∃ v, m.transitions_[s * m0.start_labels_.length + o]? = some v := by
    intro o ho
    rw [hT]
    exact ⟨_, List.getElem?_eq_getElem (by omega)⟩
  by_cases hend : off = m.start_labels_.length
  · by_cases hrho : back = Rho
    · obtain ⟨v, hv⟩ := hcell (m0.start_labels_.length - 1) (by omega)
      refine ⟨_, Find_fallback Rho m label _ _ v (hend ▸ hoff) (hrho ▸ hback) hb he
        (by rw [hL]; omega) (by rw [hL]; exact hv), ?_⟩
      exact ⟨hL, hT, hC, hb, he, hrow, _, rfl, by rw [hL]; omega, by rw [hL]; omega⟩
    · refine ⟨_, Find_absent Rho m label back (hend ▸ hoff) hback hrho, ?_⟩
      exact ⟨hL, hT, hC, hb, he, hrow, c, hc, hc1, hc2⟩
  · have hlt : off < m0.start_labels_.length := by
      rw [hL] at hend
      omega
    obtain ⟨v, hv⟩ := hcell off hlt
    refine ⟨_, Find_inside Rho m label off _ _ v hoff hend hb he (by omega) hv, ?_⟩
    exact ⟨hL, hT, hC, hb, he, hrow, _, rfl, by omega, by omega⟩

theorem findAll_keeps_cursor (Rho : Int) (m0 : TableMatcher) (s : Nat)
    (hne : m0.start_labels_ ≠ [])
    (hcache : ∀ v ∈ m0.cached_label_offsets_, v ≤ m0.start_labels_.length)
    (labels : List Int) :
    ∀ m, CursorInRow m0 s m →
      ∃ m2, TableMatcher.findAll Rho m labels = some m2 ∧ CursorInRow m0 s m2 := by
  induction labels with
  | nil => intro m h; exact ⟨m, rfl, h⟩
  | cons label labels ih =>
    intro m h
    obtain ⟨r, hr, hin⟩ := Find_keeps_cursor Rho m0 m s label hne hcache h
    obtain ⟨m2, hm2, hin2⟩ := ih r.2 hin
    refine ⟨m2, ?_, hin2⟩
    simp only [TableMatcher.findAll, hr]
    exact hm2

/-- C24 (cursor invariant). For every transducer whose label set is not
empty and every state `s` of it: `SetState(s)` meets its assertion and puts the
cursor on the row of `s`, and after every sequence of calls of `Find`, with
arbitrary labels, every call has met its assertion and has read inside the
table, `state_begin_` and `state_end_` still delimit the row of `s`, and
`state_begin_ ≤ state_ < state_end_`, which is what `Next` asserts. -/
theorem cursor_stays_in_row (Rho : Int) (CacheSize : Nat) (TYPE : MatchType) (f : Fst)
    (hne : getStartLabels TYPE f ≠ []) (s : Nat) (hs : s < f.NumStates) :
    ∃ m1, (TableMatcher.new Rho CacheSize TYPE f).SetState s = some m1 ∧
      CursorInRow (TableMatcher.new Rho CacheSize TYPE f) s m1 ∧
      ∀ labels : List Int, ∃ m2, TableMatcher.findAll Rho m1 labels = some m2 ∧
        CursorInRow (TableMatcher.new Rho CacheSize TYPE f) s m2 := by
  have hlen := new_transitions_length Rho CacheSize TYPE f
  have hpos : 0 < (getStartLabels TYPE f).length := List.length_pos.2 hne
  have hmul : (s + 1) * (getStartLabels TYPE f).length
      ≤ f.NumStates * (getStartLabels TYPE f).length := Nat.mul_le_mul_right _ hs
  have hsucc : (s + 1) * (getStartLabels TYPE f).length
      = s * (getStartLabels TYPE f).length + (getStartLabels TYPE f).length :=
    Nat.succ_mul _ _
  have hstart : (TableMatcher.new Rho CacheSize TYPE f).start_labels_
      = getStartLabels TYPE f := rfl
  have hset : (TableMatcher.new Rho CacheSize TYPE f).SetState s =
      some { TableMatcher.new Rho CacheSize TYPE f with
        state_begin_ := some (s * (getStartLabels TYPE f).length)
        state_ := some (s * (getStartLabels TYPE f).length)
        state_end_ := some (s * (getStartLabels TYPE f).length
          + (getStartLabels TYPE f).length) } := by
    unfold TableMatcher.SetState
    rw [hstart, hlen, if_pos (by omega)]
    rfl
  have hin : CursorInRow (TableMatcher.new Rho CacheSize TYPE f) s
      { TableMatcher.new Rho CacheSize TYPE f with
        state_begin_ := some (s * (getStartLabels TYPE f).length)
        state_ := some (s * (getStartLabels TYPE f).length)
        state_end_ := some (s * (getStartLabels TYPE f).length
          + (getStartLabels TYPE f).length) } := by
    refine ⟨rfl, rfl, rfl, rfl, rfl, ?_, _, rfl, ?_, ?_⟩
    · rw [hstart, hlen]; omega
    · rw [hstart]
    · rw [hstart]; omega
  have hcache : ∀ v ∈ (TableMatcher.new Rho CacheSize TYPE f).cached_label_offsets_,
      v ≤ (TableMatcher.new Rho CacheSize TYPE f).start_labels_.length :=
    cacheLoop_le _ _ _ _ _ (by simp)
  exact ⟨_, hset, hin, fun labels =>
    findAll_keeps_cursor Rho _ s (hstart ▸ hne) hcache labels _ hin⟩

/-- Witness of C24: in `exampleFst` the cursor is put on the row of state `1`
and stays there whatever labels `Find` is called with. -/
theorem cursor_stays_in_row_witness :
    ∃ m1, (TableMatcher.new 100 8 MatchType.MATCH_INPUT exampleFst).SetState 1 = some m1 ∧
      CursorInRow (TableMatcher.new 100 8 MatchType.MATCH_INPUT exampleFst) 1 m1 ∧
      ∀ labels : List Int, ∃ m2, TableMatcher.findAll 100 m1 labels = some m2 ∧
        CursorInRow (TableMatcher.new 100 8 MatchType.MATCH_INPUT exampleFst) 1 m2 :=
  cursor_stays_in_row 100 8 MatchType.MATCH_INPUT exampleFst (by decide) 1 (by decide)

/-! ## Next -/

/-- A pass of the loop of `Next()` that runs its body moves the cursor off
`state_end_`, so the loop is left at the second pass at the latest: two passes
of fuel give the result of any larger number. -/
theorem NextLoop_fuel (TYPE : MatchType) (fuel : Nat) (m : TableMatcher) :
    TableMatcher.NextLoop TYPE (fuel + 2) m = TableMatcher.NextLoop TYPE 2 m := by
  unfold TableMatcher.NextLoop
  by_cases hd : m.Done = true
  · simp only [hd, if_true]
  · simp only [hd, Bool.false_eq_true, if_false]
    have heq : m.state_ = m.state_end_ := by
      simpa [TableMatcher.Done] using hd
    cases hst : m.state_ with
    | none => rfl
    | some state =>
      simp only
      cases m.transitions_[state + 1]? with
      | none => rfl
      | some target =>
        simp only
        split_ifs with hne
        · rfl
        · have hne2 : (some (state + 1) : Option Nat) ≠ m.state_end_ := by
            rw [← heq, hst]
            simp
          unfold TableMatcher.NextLoop
          simp [TableMatcher.Done, hne2]

/-- C25 (`Next` under its own precondition). In every state of the matcher in
which the cursor is strictly before the end of the row, which is what `Next()`
asserts, `Done()` returns `true`, the loop `while (!Done())` is not entered
and `Next()` returns with the matcher as it was: the cursor, the labels of
the arc and its `nextstate` are unchanged. This holds for any number of
passes the loop is allowed. -/
theorem Next_changes_nothing (TYPE : MatchType) (m : TableMatcher) (state state_end : Nat)
    (hstate : m.state_ = some state) (hend : m.state_end_ = some state_end)
    (hlt : state < state_end) :
    m.Next TYPE = some m ∧ ∀ fuel, TableMatcher.NextLoop TYPE (fuel + 1) m = some m := by
  have hd : m.Done = true := by
    simp only [TableMatcher.Done, hstate, hend, ne_eq, Option.some.injEq, decide_eq_true_eq]
    omega
  have hloop : ∀ fuel, TableMatcher.NextLoop TYPE (fuel + 1) m = some m := by
    intro fuel
    unfold TableMatcher.NextLoop
    simp only [hd, if_true]
  refine ⟨?_, hloop⟩
  unfold TableMatcher.Next
  simp only [hstate, hend, hlt, if_true]
  exact hloop 1

/-- Witness of C25: in `exampleFst`, with the cursor on the first cell of the
row of state `0`, as `SetState(0)` leaves it, `Next()` changes nothing,
although the row has three more transitions. -/
theorem Next_changes_nothing_witness :
    (atState 100 8 MatchType.MATCH_INPUT exampleFst 0).Next MatchType.MATCH_INPUT
        = some (atState 100 8 MatchType.MATCH_INPUT exampleFst 0) ∧
    ∀ fuel, TableMatcher.NextLoop MatchType.MATCH_INPUT (fuel + 1)
        (atState 100 8 MatchType.MATCH_INPUT exampleFst 0)
      = some (atState 100 8 MatchType.MATCH_INPUT exampleFst 0) :=
  Next_changes_nothing MatchType.MATCH_INPUT (atState 100 8 MatchType.MATCH_INPUT exampleFst 0)
    0 4 (by decide) (by decide) (by decide)

/-! ## Termination of the construction -/

theorem mergePass_suffix (TYPE : MatchType) (L : List Int) (s : Nat) (st st1 : MergeState)
    (h : mergePass TYPE L s st = some st1) :
    st1.aiter <:+ st.aiter ∧ st1.begin <:+ st.begin := by
  unfold mergePass at h
  split at h
  · cases h
  · cases h
  · rename_i arc0 arcs0 b brest ha hb
    split at h
    · cases h
    · rename_i arc arcs hskip
      have hsa : (arc :: arcs) <:+ st.aiter := by
        rw [ha, ← hskip]
        exact skipArcs_suffix TYPE b (arc0 :: arcs0)
      split at h
      · cases h
      · rename_i b1 begin1 hskipl
        have hsb : (b1 :: begin1) <:+ st.begin := by
          rw [← hskipl]
          exact skipLabels_suffix _ _
        split_ifs at h
        · cases h
          exact ⟨(List.suffix_cons arc arcs).trans hsa, (List.suffix_cons b1 begin1).trans hsb⟩
        · cases h
          exact ⟨hsa, hsb⟩

/-- C26 (the construction terminates). For every transducer, sorted and
deterministic or not, and every state of the merge loop: a pass either leaves
the loop, or it leaves each of the two iterators where it was or further on
and moves at least one of them; and after `|arcs(s)| + |L|` passes, the number
the constructor is given for state `s`, the loop has been left, whatever the
table held. The two inner loops `skipArcs` and `skipLabels` go through a list
once. -/
theorem construction_terminates (TYPE : MatchType) (L : List Int) (s : Nat) :
    (∀ st : MergeState, mergePass TYPE L s st = none ∨
      ∃ st1, mergePass TYPE L s st = some st1 ∧
        st1.aiter <:+ st.aiter ∧ st1.begin <:+ st.begin ∧
        st1.aiter.length + st1.begin.length < st.aiter.length + st.begin.length) ∧
    (∀ (f : Fst) (T : List Int),
      mergePass TYPE L s
        (mergeLoop TYPE L s ((f.arcs s).length + L.length)
          { aiter := f.arcs s, begin := L, transitions_ := T }) = none) ∧
    ∀ (Rho : Int) (f : Fst) (T : List Int), ∃ filled : List Int,
      initState Rho TYPE f L T s =
        (mergeLoop TYPE L s ((f.arcs s).length + L.length)
          { aiter := f.arcs s, begin := L, transitions_ := filled }).transitions_ := by
  refine ⟨?_, ?_, ?_⟩
  · intro st
    cases h : mergePass TYPE L s st with
    | none => exact Or.inl rfl
    | some st1 =>
      exact Or.inr ⟨st1, rfl, (mergePass_suffix TYPE L s st st1 h).1,
        (mergePass_suffix TYPE L s st st1 h).2, mergePass_measure TYPE L s st st1 h⟩
  · intro f T
    exact mergeLoop_fuel TYPE L s _ _ (le_refl _)
  · intro Rho f T
    exact ⟨_, rfl⟩

end fst

/-! # Theorems: text token stream, segments, stop words and cache -/

namespace iresearch
namespace analysis

/-! ## The segments `next()` emits -/

/-- One call of the loop of `next()` on boundaries without `DONE` among them:
it returns `false` when no accepted segment is left, and else returns `true`
with the token of the first accepted segment and leaves the others. -/
theorem nextLoop_accepted (icu : Icu) (rest : List (Int × Int)) :
    ∀ (self : text_token_stream) (start status : Int), (∀ b ∈ rest, b.1 ≠ DONE) →
      (∃ it, (nextLoop icu self start status rest).2.state_.break_iterator = some it ∧
        ∀ b ∈ it.rest, b ∈ rest) ∧
      (((nextLoop icu self start status rest).1 = false ∧
          acceptedSegments icu self.locale_.language self.state_.locale self.state_.stemmer
            self.state_.data self.ignored_words_ start rest = []) ∨
        ((nextLoop icu self start status rest).1 = true ∧
          acceptedSegments icu self.locale_.language self.state_.locale self.state_.stemmer
            self.state_.data self.ignored_words_ start rest
            = (nextLoop icu self start status rest).2.token
              :: (nextLoop icu self start status rest).2.accepted icu)) := by
  induction rest with
  | nil =>
    intro self start status _
    simp [nextLoop, acceptedSegments]
  | cons b rest ih =>
    obtain ⟨stop, stopStatus⟩ := b
    intro self start status hnd
    have hd : stop ≠ DONE := hnd (stop, stopStatus) (List.mem_cons_self _ _)
    have hnd' : ∀ b ∈ rest, b.1 ≠ DONE := fun b hb => hnd b (List.mem_cons_of_mem _ hb)
    rw [nextLoop_cons, if_neg hd]
    by_cases h1 : stopStatus = UBRK_WORD_NONE
    · rw [if_pos h1]
      obtain ⟨⟨it, hit, hsub⟩, hres⟩ := ih self stop stopStatus hnd'
      refine ⟨⟨it, hit, fun b hb => List.mem_cons_of_mem _ (hsub b hb)⟩, ?_⟩
      simp only [acceptedSegments, h1, ne_eq, not_true_eq_false, false_and, if_false]
      rw [h1] at hres
      exact hres
    · rw [if_neg h1]
      by_cases h2 : wordOf icu self.state_.locale
          (tempSubString self.state_.data start (stop - start)) ∈ self.ignored_words_
      · rw [if_pos h2]
        obtain ⟨⟨it, hit, hsub⟩, hres⟩ := ih
          { self with state_ :=
            { self.state_ with
              tmp_buf := wordOf icu self.state_.locale
                (tempSubString self.state_.data start (stop - start)) } } stop stopStatus hnd'
        refine ⟨⟨it, hit, fun b hb => List.mem_cons_of_mem _ (hsub b hb)⟩, ?_⟩
        simp only [acceptedSegments, h2, not_true_eq_false, and_false, if_false]
        exact hres
      · rw [if_neg h2]
        refine ⟨⟨_, rfl, fun b hb => List.mem_cons_of_mem _ hb⟩, Or.inr ⟨rfl, ?_⟩⟩
        simp only [acceptedSegments, h1, h2, ne_eq, not_false_eq_true, and_self, if_true,
          text_token_stream.token, text_token_stream.accepted]

theorem next_accepted (icu : Icu) (self : text_token_stream) (it : BreakIterator)
    (hit : self.state_.break_iterator = some it) (hnd : ∀ b ∈ it.rest, b.1 ≠ DONE) :
    ∃ r, self.next icu = some r ∧
      (∃ it2, r.2.state_.break_iterator = some it2 ∧ (∀ b ∈ it2.rest, b.1 ≠ DONE) ∧
        it2.rest.length ≤ it.rest.length ∧ (r.1 = true → it2.rest.length < it.rest.length)) ∧
      ((r.1 = false ∧ self.accepted icu = []) ∨
        (r.1 = true ∧ self.accepted icu = r.2.token :: r.2.accepted icu)) := by
  refine ⟨nextLoop icu self it.current it.status it.rest, ?_, ?_, ?_⟩
  · simp only [text_token_stream.next, hit]
  · obtain ⟨⟨it2, hit2, hsub⟩, -⟩ := nextLoop_accepted icu it.rest self it.current it.status hnd
    obtain ⟨-, -, -, -, -, -, -, it3, hit3, hlen, hlt⟩ :=
      nextLoop_frame icu it.rest self it.current it.status
    rw [hit2] at hit3
    cases hit3
    exact ⟨it2, hit2, fun b hb => hnd b (hsub b hb), hlen, hlt⟩
  · have h := (nextLoop_accepted icu it.rest self it.current it.status hnd).2
    simp only [text_token_stream.accepted, hit]
    exact h

theorem drainFuel_accepted (icu : Icu) (fuel : Nat) :
    ∀ (self : text_token_stream) (it : BreakIterator),
      self.state_.break_iterator = some it → (∀ b ∈ it.rest, b.1 ≠ DONE) →
      it.rest.length < fuel → drainFuel icu fuel self = self.accepted icu := by
  induction fuel with
  | zero => intro self it _ _ h; exact absurd h (Nat.not_lt_zero _)
  | succ fuel ih =>
    intro self it hit hnd hlen
    obtain ⟨r, hr, ⟨it2, hit2, hnd2, hle2, hlt2⟩, hres⟩ := next_accepted icu self it hit hnd
    obtain ⟨r1, r2⟩ := r
    rcases hres with ⟨hf, hacc⟩ | ⟨ht, hacc⟩
    · simp only at hf
      subst hf
      simp only [drainFuel, hr, hacc]
    · simp only at ht
      subst ht
      simp only [drainFuel, hr, hacc]
      rw [ih r2 it2 hit2 hnd2 (by have := hlt2 rfl; omega)]

theorem acceptedSegments_ordered (icu : Icu) (language : String) (locale : Option IcuLocale)
    (stemmer : Bool) (data : UnicodeString) (ignored_words : ignored_words_t)
    (rest : List (Int × Int)) :
    ∀ start : Int, (start :: rest.map Prod.fst).Pairwise (· < ·) →
      (∀ tok ∈ acceptedSegments icu language locale stemmer data ignored_words start rest,
        start ≤ tok.start ∧ tok.start < tok.stop) ∧
      (acceptedSegments icu language locale stemmer data ignored_words start rest).Pairwise
        (fun a b => a.stop ≤ b.start) := by
  induction rest with
  | nil =>
    intro start _
    simp [acceptedSegments]
  | cons b rest ih =>
    obtain ⟨stop, status⟩ := b
    intro start hp
    simp only [List.map_cons, List.pairwise_cons] at hp
    have hlt : start < stop := hp.1 stop (List.mem_cons_self _ _)
    obtain ⟨i1, i2⟩ := ih stop (List.pairwise_cons.2 hp.2)
    simp only [acceptedSegments]
    split_ifs
    · refine ⟨?_, ?_⟩
      · intro tok htok
        rcases List.mem_cons.mp htok with rfl | htok
        · exact ⟨le_refl _, hlt⟩
        · have := i1 tok htok
          exact ⟨by omega, this.2⟩
      · refine List.pairwise_cons.2 ⟨?_, i2⟩
        intro tok htok
        exact (i1 tok htok).1
    · refine ⟨?_, i2⟩
      intro tok htok
      have := i1 tok htok
      exact ⟨by omega, this.2⟩

/-- C27 (`next` emits exactly the accepted segments). For a stream whose break
iterator stands on a boundary that is not negative and is still to return a
strictly increasing list of boundaries: draining the stream gives the tokens of
the segments between consecutive boundaries, in order, whose rule status is
not `UBRK_WORD_NONE` and whose processed form is no stop word, each with the
offset `(segment start, segment end)`; the end of a token is not after the
start of any later one; and a call of `next()` returns `false` exactly when no
accepted segment is left, and else emits the first of them and leaves the
others. -/
theorem next_emits_accepted_segments (icu : Icu) (self : text_token_stream)
    (it : BreakIterator) (hit : self.state_.break_iterator = some it)
    (h0 : 0 ≤ it.current) (hinc : (it.current :: it.rest.map Prod.fst).Pairwise (· < ·)) :
    drain icu self = self.accepted icu ∧
    (drain icu self).Pairwise (fun a b => a.stop ≤ b.start) ∧
    (∀ tok ∈ drain icu self, tok.start < tok.stop) ∧
    ∃ r, self.next icu = some r ∧ (r.1 = false ↔ self.accepted icu = []) ∧
      (r.1 = true → self.accepted icu = r.2.token :: r.2.accepted icu) := by
  have hnd : ∀ b ∈ it.rest, b.1 ≠ DONE := by
    intro b hb
    simp only [List.pairwise_cons, List.mem_map] at hinc
    have := hinc.1 b.1 ⟨b, hb, rfl⟩
    simp only [DONE]
    omega
  have hdrain : drain icu self = self.accepted icu := by
    unfold drain text_token_stream.boundariesLeft
    rw [hit]
    exact drainFuel_accepted icu _ self it hit hnd (Nat.lt_succ_self _)
  have hord := acceptedSegments_ordered icu self.locale_.language self.state_.locale
    self.state_.stemmer self.state_.data self.ignored_words_ it.rest it.current hinc
  have hacc : self.accepted icu = acceptedSegments icu self.locale_.language
      self.state_.locale self.state_.stemmer self.state_.data self.ignored_words_
      it.current it.rest := by
    simp only [text_token_stream.accepted, hit]
  refine ⟨hdrain, ?_, ?_, ?_⟩
  · rw [hdrain, hacc]
    exact hord.2
  · rw [hdrain, hacc]
    intro tok htok
    exact (hord.1 tok htok).2
  · obtain ⟨r, hr, -, hres⟩ := next_accepted icu self it hit hnd
    refine ⟨r, hr, ?_, ?_⟩
    · rcases hres with ⟨hf, hacc2⟩ | ⟨ht, hacc2⟩
      · exact ⟨fun _ => hacc2, fun _ => hf⟩
      · constructor
        · intro hf
          rw [ht] at hf
          exact absurd hf (by simp)
        · intro he
          rw [hacc2] at he
          exact absurd he (by simp)
    · intro ht
      rcases hres with ⟨hf, -⟩ | ⟨-, hacc2⟩
      · rw [ht] at hf
        exact absurd hf (by simp)
      · exact hacc2

/-- Witness of C27: the analyzer for `en_US.UTF-8` on `quick FOX` with the
libraries `asciiIcu`, whose boundaries are `5`, `6` and `9`, the segment from
`5` to `6` having the status `UBRK_WORD_NONE`. -/
theorem next_emits_accepted_segments_witness :
    drain asciiIcu (afterReset asciiIcu (text_token_stream.new exampleLocale ∅)
        "quick FOX".toList)
      = (afterReset asciiIcu (text_token_stream.new exampleLocale ∅)
        "quick FOX".toList).accepted asciiIcu ∧
    (drain asciiIcu (afterReset asciiIcu (text_token_stream.new exampleLocale ∅)
        "quick FOX".toList)).Pairwise (fun a b => a.stop ≤ b.start) ∧
    (∀ tok ∈ drain asciiIcu (afterReset asciiIcu (text_token_stream.new exampleLocale ∅)
        "quick FOX".toList), tok.start < tok.stop) ∧
    ∃ r, (afterReset asciiIcu (text_token_stream.new exampleLocale ∅)
        "quick FOX".toList).next asciiIcu = some r ∧
      (r.1 = false ↔ (afterReset asciiIcu (text_token_stream.new exampleLocale ∅)
        "quick FOX".toList).accepted asciiIcu = []) ∧
      (r.1 = true → (afterReset asciiIcu (text_token_stream.new exampleLocale ∅)
        "quick FOX".toList).accepted asciiIcu = r.2.token :: r.2.accepted asciiIcu) :=
  next_emits_accepted_segments asciiIcu
    (afterReset asciiIcu (text_token_stream.new exampleLocale ∅) "quick FOX".toList)
    { current := 0, status := 0, rest := [(5, 200), (6, 0), (9, 200)] } rfl (by decide)
    (by decide)

/-! ## The stop-word test of process_term -/

/-- C28 (the stop-word test precedes stemming). `process_term` rejects a word
exactly when its normalized, lower-cased and transliterated form is in the
stop-word set. The stem is not compared: a word that is not rejected gets the
term `termOf`, which is the stem whenever there is a stemmer and it returns
one, also when that stem is a stop word, and which is the unstemmed form when
there is no stemmer or the stemmer returns no result. -/
theorem stopword_test_precedes_stemming (icu : Icu) (language : String) (attrs : attributes)
    (ignored_words : ignored_words_t) (state : state_t) (data : UnicodeString) :
    ((process_term icu language attrs ignored_words state data).1 = false ↔
      wordOf icu state.locale data ∈ ignored_words) ∧
    (wordOf icu state.locale data ∉ ignored_words →
      (process_term icu language attrs ignored_words state data).1 = true ∧
      (∀ stem, state.stemmer = true →
        icu.sb_stemmer_stem language (wordOf icu state.locale data) = some stem →
        (process_term icu language attrs ignored_words state data).2.1.term = stem) ∧
      (state.stemmer = false ∨
          icu.sb_stemmer_stem language (wordOf icu state.locale data) = none →
        (process_term icu language attrs ignored_words state data).2.1.term
          = wordOf icu state.locale data)) := by
  rw [process_term_eq]
  by_cases h : wordOf icu state.locale data ∈ ignored_words
  · simp only [h, if_true, not_true_eq_false, false_implies, and_true]
  · simp only [h, if_false, not_false_eq_true, true_implies, iff_false, true_and]
    refine ⟨by simp, ?_, ?_⟩
    · intro stem hs hstem
      simp only [termOf, hs, if_true, hstem, Option.getD_some]
    · intro hno
      rcases hno with hs | hnone
      · simp only [termOf, hs, Bool.false_eq_true, if_false]
      · simp only [termOf, hnone, Option.getD_none, ite_self]

/-- Witness of C28: with the libraries `asciiIcu`, whose stemmer drops a final
`s`, and the stop word `a`, the word `As` is not rejected although its stem `a`
is a stop word, and its term is that stem; the stop word `A` is rejected. -/
theorem stopword_test_precedes_stemming_witness :
    (process_term asciiIcu "en"
        { offset_start := 0, offset_end := 0, term := [], increment := 1 } {"a".toList}
        { (text_token_stream.new exampleLocale ∅).state_ with stemmer := true }
        "As".toList).1 = true ∧
    (process_term asciiIcu "en"
        { offset_start := 0, offset_end := 0, term := [], increment := 1 } {"a".toList}
        { (text_token_stream.new exampleLocale ∅).state_ with stemmer := true }
        "As".toList).2.1.term = "a".toList ∧
    (process_term asciiIcu "en"
        { offset_start := 0, offset_end := 0, term := [], increment := 1 } {"a".toList}
        { (text_token_stream.new exampleLocale ∅).state_ with stemmer := true }
        "A".toList).1 = false :=
  ⟨((stopword_test_precedes_stemming asciiIcu "en"
      { offset_start := 0, offset_end := 0, term := [], increment := 1 } {"a".toList}
      { (text_token_stream.new exampleLocale ∅).state_ with stemmer := true }
      "As".toList).2 (by decide)).1,
    ((stopword_test_precedes_stemming asciiIcu "en"
      { offset_start := 0, offset_end := 0, term := [], increment := 1 } {"a".toList}
      { (text_token_stream.new exampleLocale ∅).state_ with stemmer := true }
      "As".toList).2 (by decide)).2.1 "a".toList rfl (by decide),
    (stopword_test_precedes_stemming asciiIcu "en"
      { offset_start := 0, offset_end := 0, term := [], increment := 1 } {"a".toList}
      { (text_token_stream.new exampleLocale ∅).state_ with stemmer := true }
      "A".toList).1.2 (by decide)⟩

/-! ## First registration in the cache -/

theorem runCalls_keeps (env : Env) (boost : Boost) (calls : List CacheCall) :
    ∀ (cache : Cache) (key : String) (held : cached_state_t),
      cache.find key = some held → (runCalls env boost cache calls).find key = some held := by
  induction calls with
  | nil => intro cache key held h; exact h
  | cons call rest ih =>
    intro cache key held h
    exact ih (call.run env boost cache).2 key held (run_keeps env boost cache call key held h)

theorem construct_found (cache : Cache) (key : String) (stored : cached_state_t)
    (h : cache.find key = some stored) (locale : Locale) (words : ignored_words_t) :
    construct cache key locale words
      = (some (text_token_stream.new stored.1 stored.2), cache) := by
  simp only [construct, Cache.emplace, h]

theorem emplace_new (cache : Cache) (key : String) (value : cached_state_t)
    (h : cache.find key = none) : (cache.emplace key value).1.find key = some value := by
  simp only [Cache.emplace, h, Cache.find, if_true]

/-- C30 (`get_ignored_words` is atomic on failure). Whatever the output set
holds before the call and whatever the file system holds, when
`get_ignored_words` returns `false` the output set is what it was before the
call: the words of the files read before the failing one went to a local set,
which is merged into the output set only after the last file. -/
theorem get_ignored_words_atomic (env : Env) (buf : ignored_words_t) (locale : Locale)
    (path : Option Path) (h : (get_ignored_words env buf locale path).1 = false) :
    (get_ignored_words env buf locale path).2 = buf := by
  unfold get_ignored_words at h ⊢
  simp only at h ⊢
  split_ifs at h ⊢
  · rfl
  · split at h
    · split at h
      · rfl
      · exact absurd h (by simp)
    · rfl

/-- Witness of C30: in `brokenEnv` the file `a.txt` is read, with its words
`the` and `a`, before `b.txt` cannot be opened; the call returns `false` and
the output set still holds its word `x` only. -/
theorem get_ignored_words_atomic_witness :
    (readFiles brokenEnv (exampleRoot.append "en") ["a.txt"] ∅).isSome = true ∧
    (get_ignored_words brokenEnv {"x".toList} exampleLocale (some exampleRoot)).1 = false ∧
    (get_ignored_words brokenEnv {"x".toList} exampleLocale (some exampleRoot)).2
      = {"x".toList} :=
  ⟨by decide, by decide,
    get_ignored_words_atomic brokenEnv {"x".toList} exampleLocale (some exampleRoot)
      (by decide)⟩

end analysis
end iresearch

/-! # Theorems: pipeline token stream -/

namespace iresearch
namespace pipeline_token_stream

theorem expandTokens_nil (below : List Analyzer) (base sum pos : Nat) :
    expandTokens below base sum pos [] = [] := by
  cases below <;> simp [expandTokens, withPositions]

theorem costTokens_pos (below : List Analyzer) (pending : List Token) :
    0 < costTokens below pending := by
  cases below <;> simp [costTokens]

/-- What one move of the pipeline does to the tokens still to be emitted and
to the number of moves left. -/
theorem step_spec (pipeline : List Analyzer) (stack : List Level) :
    (step pipeline stack = none ∧ stack = []) ∨
    (∃ after, step pipeline stack = some (none, after) ∧
      remaining pipeline after = remaining pipeline stack ∧
      cost pipeline after < cost pipeline stack) ∨
    (∃ token after, step pipeline stack = some (some token, after) ∧
      remaining pipeline stack = token :: remaining pipeline after ∧
      cost pipeline after < cost pipeline stack) := by
  cases stack with
  | nil => exact Or.inl ⟨rfl, rfl⟩
  | cons level parents =>
    obtain ⟨pending, base, pos⟩ := level
    cases pending with
    | nil =>
      refine Or.inr (Or.inl ⟨parents, rfl, ?_, ?_⟩)
      · simp only [remaining, expandTokens_nil, List.nil_append]
      · simp only [cost]
        have := costTokens_pos (pipeline.drop (parents.length + 1)) []
        omega
    | cons t ts =>
      cases hdrop : pipeline.drop (parents.length + 1) with
      | nil =>
        refine Or.inr (Or.inr
          ⟨{ value := t.value, start := base + t.start, stop := base + t.stop
             pos := (sumPos parents + advance pos t.increment) % 2 ^ 32 },
            { pending := ts, base := base, pos := advance pos t.increment } :: parents,
            ?_, ?_, ?_⟩)
        · simp only [step, hdrop]
        · simp only [remaining, hdrop, expandTokens, withPositions, List.map_cons,
            List.cons_append]
        · simp only [cost, hdrop, costTokens, List.length_cons]
          omega
      | cons Q below =>
        have hnext : pipeline.drop (parents.length + 1 + 1) = below := by
          have h := congrArg List.tail hdrop
          rw [List.tail_drop] at h
          exact h
        refine Or.inr (Or.inl
          ⟨{ pending := Q t.value, base := base + t.start, pos := MAX }
            :: { pending := ts, base := base, pos := advance pos t.increment } :: parents,
            ?_, ?_, ?_⟩)
        · simp only [step, hdrop]
        · simp only [remaining, hdrop, List.length_cons, hnext, expandTokens, withPositions,
            List.flatMap_cons, sumPos, List.map_cons, List.sum_cons, List.append_assoc]
          rw [Nat.add_comm (advance pos t.increment)]
        · simp only [cost, hdrop, List.length_cons, hnext, costTokens, List.map_cons,
            List.sum_cons]
          omega

/-- Enough fuel: after `cost` moves the pipeline has emitted all the tokens
it had still to emit. -/
theorem run_enough (pipeline : List Analyzer) (fuel : Nat) :
    ∀ stack : List Level, cost pipeline stack ≤ fuel →
      run pipeline fuel stack = remaining pipeline stack := by
  induction fuel with
  | zero =>
    intro stack h
    cases stack with
    | nil => rfl
    | cons level parents =>
      simp only [cost] at h
      have := costTokens_pos (pipeline.drop (parents.length + 1)) level.pending
      omega
  | succ fuel ih =>
    intro stack h
    rcases step_spec pipeline stack with ⟨hs, rfl⟩ | ⟨after, hs, hrem, hcost⟩ |
      ⟨token, after, hs, hrem, hcost⟩
    · simp only [run, hs, remaining]
    · simp only [run, hs]
      rw [ih after (by omega), hrem]
    · simp only [run, hs]
      rw [ih after (by omega), hrem]

/-- Enough fuel for one `next()`: with more than `cost` moves it returns
`false` when no token is left to emit, and else emits the first of them and
leaves the others. -/
theorem next_enough (pipeline : List Analyzer) (fuel : Nat) :
    ∀ stack : List Level, cost pipeline stack < fuel →
      (next pipeline fuel stack = some none ∧ remaining pipeline stack = []) ∨
      ∃ token after, next pipeline fuel stack = some (some (token, after)) ∧
        remaining pipeline stack = token :: remaining pipeline after ∧
        cost pipeline after < cost pipeline stack := by
  induction fuel with
  | zero => intro stack h; exact absurd h (Nat.not_lt_zero _)
  | succ fuel ih =>
    intro stack h
    rcases step_spec pipeline stack with ⟨hs, rfl⟩ | ⟨after, hs, hrem, hcost⟩ |
      ⟨token, after, hs, hrem, hcost⟩
    · exact Or.inl ⟨by simp only [next, hs], rfl⟩
    · simp only [next, hs]
      rcases ih after (by omega) with ⟨h1, h2⟩ | ⟨token, after2, h1, h2, h3⟩
      · exact Or.inl ⟨h1, hrem ▸ h2⟩
      · exact Or.inr ⟨token, after2, h1, hrem ▸ h2, by omega⟩
    · exact Or.inr ⟨token, after, by simp only [next, hs], hrem, hcost⟩

/-- Enough calls: `cost` calls of `next()` give all the tokens the pipeline
had still to emit. -/
theorem drainNext_enough (pipeline : List Analyzer) (calls : Nat) :
    ∀ stack : List Level, cost pipeline stack ≤ calls →
      drainNext pipeline calls stack = remaining pipeline stack := by
  induction calls with
  | zero =>
    intro stack h
    cases stack with
    | nil => rfl
    | cons level parents =>
      simp only [cost] at h
      have := costTokens_pos (pipeline.drop (parents.length + 1)) level.pending
      omega
  | succ calls ih =>
    intro stack h
    rcases next_enough pipeline (cost pipeline stack + 1) stack (Nat.lt_succ_self _) with
      ⟨h1, h2⟩ | ⟨token, after, h1, h2, h3⟩
    · simp only [drainNext, h1, h2]
    · simp only [drainNext, h1, h2]
      rw [ih after (by omega)]

/-- The tokens the pipeline emits are the depth-first expansion: the stack
machine of `reset` and `next()` emits, in order, value by value, offset by
offset and position by position, the tokens of the expansion in which every
token of an analyzer is the input of the next analyzer. -/
theorem drain_eq_expand (pipeline : List Analyzer) (input : List Char) :
    drain pipeline input = expand pipeline input := by
  cases pipeline with
  | nil => rfl
  | cons P below =>
    simp only [drain, reset, expand]
    rw [run_enough _ _ _ (le_refl _)]
    simp [remaining, sumPos]

/-- The tokens of the calls of `next()` after `reset(input)` are the
depth-first expansion. -/
theorem drainNext_eq_expand (pipeline : List Analyzer) (input : List Char)
    (stack : List Level) (h : reset pipeline input = some stack) (calls : Nat)
    (hc : cost pipeline stack ≤ calls) :
    drainNext pipeline calls stack = expand pipeline input := by
  cases pipeline with
  | nil => simp [reset] at h
  | cons P below =>
    simp only [reset, Option.some.injEq] at h
    subst h
    rw [drainNext_enough _ _ _ hc]
    simp [remaining, sumPos, expand]

end pipeline_token_stream
end iresearch
